import Mathlib

/-!
# wifibroadcast_bridge: the statistics aggregator `TransferStats`

A shallow embedding of `src/src/transfer_stats.cc`.

* The 32-bit counters are natural numbers, every C++ update being reduced
  modulo `2 ^ 32` explicitly.
* The `float` members are values of `Flt`: an exact rational, or one of the
  non-finite values a record can carry (`inf`, `nan`).  The sums and products of
  the smoothing operations are exact, their binary rounding is not modelled, and
  the samples passed to them are finite.  The conversion of a text to `float`
  in `update` does round: it gives the `float` nearest to the decimal read
  (`round_to_float`).
* Text is a list of characters; `std::string` members are `String`.
* The library calls of the source follow the libraries: stream output of an
  unsigned integer and of a float at precision 6 (`put_uint`, `put_float`),
  `boost::lexical_cast` to `uint32_t` and to `float` (`lexical_cast_uint32`,
  `lexical_cast_float`), and `boost::tokenizer` over `char_separator(",")`
  (`tokenize`), all in the classic locale.
* `update` returns the outcome together with the state the aggregator is left
  in, since a thrown `bad_lexical_cast` leaves the earlier assignments in place.
-/

namespace Wfb

/-! ## Numbers -/

/-- Number of values of a `uint32_t`. -/
def UINT32_SIZE : Nat := 4294967296

/-- Conversion of a non-negative integer to `uint32_t`. -/
def u32 (n : Nat) : Nat := n % UINT32_SIZE

/-- The constant `prev_weight` of the source. -/
def prev_weight : ℚ := 0.02

/-- A `float` value: finite (held exactly) or non-finite. -/
inductive Flt where
  | fin (q : ℚ)
  | inf (neg : Bool)
  | nan (neg : Bool)
deriving DecidableEq

/-- Product of a positive finite constant and a float: non-finite values keep
their kind and sign. -/
def Flt.scale (c : ℚ) : Flt → Flt
  | .fin q => .fin (c * q)
  | .inf neg => .inf neg
  | .nan neg => .nan neg

/-- Sum of a float and a finite value: non-finite values absorb it. -/
def Flt.add_fin (x : Flt) (y : ℚ) : Flt :=
  match x with
  | .fin q => .fin (q + y)
  | .inf neg => .inf neg
  | .nan neg => .nan neg

/-- The expression `prev_weight * m + y`, where `y` is the finite second summand. -/
def blend (m : Flt) (y : ℚ) : Flt := (m.scale prev_weight).add_fin y

/-! ## Data model -/

/-- Modelled from the spec: the FEC decoder snapshot `FECDecoderStats`, whose
declaration is in a header outside `src/`.  The members are the five that
`TransferStats::add` reads; they are unsigned integers of some width `w`, which
`add` takes as a parameter. -/
structure FECDecoderStats where
  total_blocks : Nat
  total_packets : Nat
  dropped_packets : Nat
  dropped_blocks : Nat
  bytes : Nat
deriving DecidableEq

/-- Modelled from the spec: the members of class `TransferStats` (the mutex
apart), whose declaration is in a header outside `src/`.  The names are those
used in `transfer_stats.cc`; the counters are `uint32_t` and the smoothed values
`float`, as `update` converts them. -/
structure TransferStats where
  m_name : String
  m_seq : Nat
  m_blocks : Nat
  m_bytes : Nat
  m_block_errors : Nat
  m_seq_errors : Nat
  m_send_bytes : Nat
  m_send_blocks : Nat
  m_inject_errors : Nat
  m_flushes : Nat
  m_queue_size : Flt
  m_enc_time : Flt
  m_send_time : Flt
  m_pkt_time : Flt
  m_rssi : Flt
  m_latency : Flt
deriving DecidableEq

/-- Every counter of the state fits its `uint32_t` member. -/
def TransferStats.counters_in_range (s : TransferStats) : Prop :=
  s.m_seq < UINT32_SIZE ∧ s.m_blocks < UINT32_SIZE ∧ s.m_bytes < UINT32_SIZE ∧
  s.m_block_errors < UINT32_SIZE ∧ s.m_seq_errors < UINT32_SIZE ∧
  s.m_send_bytes < UINT32_SIZE ∧ s.m_send_blocks < UINT32_SIZE ∧
  s.m_inject_errors < UINT32_SIZE ∧ s.m_flushes < UINT32_SIZE

/-! ## Constructor and accumulating operations -/

/-- The constructor `TransferStats::TransferStats(name)`. -/
def TransferStats.ctor (name : String) : TransferStats :=
  { m_name := name, m_seq := 0, m_blocks := 0, m_bytes := 0, m_block_errors := 0,
    m_seq_errors := 0, m_send_bytes := 0, m_send_blocks := 0, m_inject_errors := 0,
    m_flushes := 0, m_queue_size := .fin 0, m_enc_time := .fin 0, m_send_time := .fin 0,
    m_pkt_time := .fin 0, m_rssi := .fin 0, m_latency := .fin 0 }

/-- Subtraction `a - b` of two unsigned `w`-bit integers. -/
def fec_sub (w : Nat) (a b : Nat) : Nat := (((a : Int) - (b : Int)) % 2 ^ w).toNat

/-- The statement `m += a - b` for a `uint32_t` member `m` and unsigned `w`-bit
operands `a`, `b`: the sum is formed in `w` bits and converted to `uint32_t`. -/
def add_delta (w : Nat) (m a b : Nat) : Nat := u32 ((m + fec_sub w a b) % 2 ^ w)

/-- The method `TransferStats::add(cur, prev)`. -/
def TransferStats.add (w : Nat) (s : TransferStats) (cur prev : FECDecoderStats) :
    TransferStats :=
  { s with
    m_seq := add_delta w s.m_seq cur.total_blocks prev.total_blocks
    m_blocks := add_delta w s.m_blocks cur.total_packets prev.total_packets
    m_bytes := add_delta w s.m_bytes cur.bytes prev.bytes
    m_block_errors := add_delta w s.m_block_errors cur.dropped_packets prev.dropped_packets
    m_seq_errors := add_delta w s.m_seq_errors cur.dropped_blocks prev.dropped_blocks }

/-- The method `TransferStats::add_rssi(rssi)`, the sample being an `int8_t`. -/
def TransferStats.add_rssi (s : TransferStats) (rssi : Int) : TransferStats :=
  { s with m_rssi := blend s.m_rssi ((1 - prev_weight) * rssi) }

/-- The method `TransferStats::add_send_stats`; `pkt_time` is a finite float. -/
def TransferStats.add_send_stats (s : TransferStats) (bytes nblocks inject_errors queue_size : Nat)
    (flush : Bool) (pkt_time : ℚ) : TransferStats :=
  { s with
    m_send_bytes := u32 (s.m_send_bytes + bytes)
    m_send_blocks := u32 (s.m_send_blocks + nblocks)
    m_inject_errors := u32 (s.m_inject_errors + inject_errors)
    m_queue_size := blend s.m_queue_size ((1 - prev_weight) * queue_size)
    m_flushes := u32 (s.m_flushes + (if flush then 1 else 0))
    m_pkt_time := blend s.m_pkt_time (1000000 * (1 - prev_weight) * pkt_time) }

/-- The method `TransferStats::add_encode_time(t)` for a finite `t`. -/
def TransferStats.add_encode_time (s : TransferStats) (t : ℚ) : TransferStats :=
  { s with m_enc_time := blend s.m_enc_time (1000000 * (1 - prev_weight) * t) }

/-- The method `TransferStats::add_send_time(t)` for a finite `t`. -/
def TransferStats.add_send_time (s : TransferStats) (t : ℚ) : TransferStats :=
  { s with m_send_time := blend s.m_send_time (1000000 * (1 - prev_weight) * t) }

/-- The method `TransferStats::add_latency(t)`, the sample being a `uint8_t`. -/
def TransferStats.add_latency (s : TransferStats) (t : Nat) : TransferStats :=
  { s with m_latency := blend s.m_latency ((1 - prev_weight) * t) }

/-- The method `TransferStats::name()`. -/
def TransferStats.name (s : TransferStats) : String := s.m_name

/-! ## Text: writing numbers -/

/-- The character of a decimal digit. -/
def digitChar (d : Nat) : Char :=
  match d with
  | 0 => '0' | 1 => '1' | 2 => '2' | 3 => '3' | 4 => '4'
  | 5 => '5' | 6 => '6' | 7 => '7' | 8 => '8' | _ => '9'

/-- Decimal digits of `n` pushed in front of `acc` (`fuel` bounds the digit count). -/
def put_digits : Nat → Nat → List Char → List Char
  | 0, _, acc => acc
  | fuel + 1, n, acc =>
    if n < 10 then digitChar n :: acc
    else put_digits fuel (n / 10) (digitChar (n % 10) :: acc)

/-- Stream output `ss << n` of an unsigned integer: its decimal digits. -/
def put_uint (n : Nat) : List Char := put_digits (n + 1) n []

/-- Largest `e` with `10 ^ e ≤ x`, for a positive rational `x`. -/
def dec_exp (x : ℚ) : Int :=
  let k : Int := ((put_uint x.num.natAbs).length : Int) - ((put_uint x.den).length : Int)
  if (10 : ℚ) ^ k ≤ x then k else k - 1

/-- Rounding of a non-negative rational to the nearest integer, ties to even. -/
def round_half_even (x : ℚ) : Nat :=
  let f := ⌊x⌋.toNat
  let r := x - ⌊x⌋
  if r < 1 / 2 then f
  else if 1 / 2 < r then f + 1
  else if f % 2 = 0 then f else f + 1

/-- The six significant digits `m` (as a number, `100000 ≤ m < 1000000`) and the
decimal exponent `X` of a positive rational: `x` is `m * 10 ^ (X - 5)` up to
rounding. -/
def sig6 (x : ℚ) : Nat × Int :=
  let e := dec_exp x
  let m := round_half_even (x / (10 : ℚ) ^ (e - 5))
  if m = 1000000 then (100000, e + 1) else (m, e)

/-- Removal of trailing zeros. -/
def strip_zeros (ds : List Char) : List Char :=
  (ds.reverse.dropWhile (fun c => c = '0')).reverse

/-- The exponent part of the scientific style: sign and at least two digits. -/
def put_exp (X : Int) : List Char :=
  'e' :: (if X < 0 then '-' else '+') ::
    (if X.natAbs < 10 then '0' :: put_uint X.natAbs else put_uint X.natAbs)

/-- Layout of six significant digits `m` with decimal exponent `X` under the
default float format at precision 6 (the `%g` conversion): fixed style when
`-4 ≤ X < 6`, scientific style otherwise, trailing zeros removed. -/
def put_general (m : Nat) (X : Int) : List Char :=
  let ds := put_uint m
  if -4 ≤ X ∧ X < 6 then
    if 0 ≤ X then
      let fp := strip_zeros (ds.drop (X.toNat + 1))
      ds.take (X.toNat + 1) ++ (if fp = [] then [] else '.' :: fp)
    else
      '0' :: '.' :: (List.replicate (X.natAbs - 1) '0' ++ strip_zeros ds)
  else
    let fp := strip_zeros (ds.drop 1)
    ds.take 1 ++ (if fp = [] then [] else '.' :: fp) ++ put_exp X

/-- Stream output `ss << std::setprecision(6) << x` of a float. -/
def put_float : Flt → List Char
  | .fin q =>
    if q = 0 then ['0']
    else
      (if q < 0 then ['-'] else []) ++ put_general (sig6 |q|).1 (sig6 |q|).2
  | .inf neg => (if neg then ['-'] else []) ++ ['i', 'n', 'f']
  | .nan neg => (if neg then ['-'] else []) ++ ['n', 'a', 'n']

/-! ## Text: reading numbers (`boost::lexical_cast`) -/

/-- Value of a decimal digit character. -/
def digit_value (c : Char) : Nat := c.toNat - 48

/-- Value of a run of decimal digits. -/
def digits_value (ds : List Char) : Nat :=
  ds.foldl (fun acc c => 10 * acc + digit_value c) 0

/-- Conversion of an unsigned digit run (`lcast_ret_unsigned`): at least one
character, digits only, value within `uint32_t`. -/
def lcast_ret_unsigned (ds : List Char) : Option Nat :=
  if ds ≠ [] ∧ ds.all Char.isDigit = true ∧ digits_value ds < UINT32_SIZE then
    some (digits_value ds)
  else none

/-- The conversion `boost::lexical_cast<uint32_t>`: an optional sign and a digit
run; a minus sign negates the value modulo `2 ^ 32`. -/
def lexical_cast_uint32 : List Char → Option Nat
  | [] => none
  | c :: cs =>
    if c = '-' then (lcast_ret_unsigned cs).map (fun v => u32 (UINT32_SIZE - v))
    else if c = '+' then lcast_ret_unsigned cs
    else lcast_ret_unsigned (c :: cs)

/-- Comparison of a text with a word given in lower and in upper case. -/
def lc_iequal : List Char → List Char → List Char → Bool
  | [], [], [] => true
  | c :: cs, l :: ls, u :: us => (c = l || c = u) && lc_iequal cs ls us
  | _, _, _ => false

/-- Removal of one leading sign character; the flag tells a minus sign. -/
def take_sign : List Char → Bool × List Char
  | [] => (false, [])
  | c :: cs => if c = '-' then (true, cs) else if c = '+' then (false, cs) else (false, c :: cs)

/-- The words for non-finite values accepted by `lexical_cast` (`parse_inf_nan`):
an optional sign, then `nan`, `nan(...)`, `inf` or `infinity` in either case. -/
def parse_inf_nan (t : List Char) : Option Flt :=
  let neg := (take_sign t).1
  let w := (take_sign t).2
  if t = [] ∨ w.length < 3 then none
  else if lc_iequal (w.take 3) ['n', 'a', 'n'] ['N', 'A', 'N'] then
    let r := w.drop 3
    if r = [] then some (.nan neg)
    else if r.length < 2 then none
    else if r.head? = some '(' ∧ r.getLast? = some ')' then some (.nan neg)
    else none
  else if lc_iequal w ['i', 'n', 'f'] ['I', 'N', 'F']
      ∨ lc_iequal w ['i', 'n', 'f', 'i', 'n', 'i', 't', 'y']
          ['I', 'N', 'F', 'I', 'N', 'I', 'T', 'Y'] then
    some (.inf neg)
  else none

/-- The exponent part of a decimal literal: nothing, or `e`/`E`, an optional
sign and a digit run. -/
def read_exp : List Char → Option Int
  | [] => some 0
  | c :: cs =>
    if c = 'e' ∨ c = 'E' then
      let ds := (take_sign cs).2
      if ds ≠ [] ∧ ds.all Char.isDigit = true then
        some (if (take_sign cs).1 then -(digits_value ds : Int) else (digits_value ds : Int))
      else none
    else none

/-- Value of a decimal floating literal (the text the stream extraction of a
`float` consumes in full): optional sign, digits with an optional point and at
least one digit, optional exponent. -/
def read_decimal (t : List Char) : Option ℚ :=
  let neg := (take_sign t).1
  let body := (take_sign t).2
  let ip := body.takeWhile Char.isDigit
  let r1 := body.dropWhile Char.isDigit
  let fp := match r1 with
    | [] => []
    | c :: cs => if c = '.' then cs.takeWhile Char.isDigit else []
  let r2 := match r1 with
    | [] => []
    | c :: cs => if c = '.' then cs.dropWhile Char.isDigit else c :: cs
  if ip = [] ∧ fp = [] then none
  else
    match read_exp r2 with
    | none => none
    | some e =>
      let v : ℚ := (digits_value (ip ++ fp) : ℚ) * (10 : ℚ) ^ (e - (fp.length : Int))
      some (if neg then -v else v)

/-- Least magnitude that converts to an infinite `float`: `2 ^ 128 - 2 ^ 103`. -/
def FLT_OVERFLOW : ℚ := 2 ^ 128 - 2 ^ 103

/-- Number of halvings that bring `n` below 2 (`fuel` bounds the count). -/
def log2_fuel : Nat → Nat → Nat
  | 0, _ => 0
  | fuel + 1, n => if n < 2 then 0 else log2_fuel fuel (n / 2) + 1

/-- Largest `k` with `2 ^ k ≤ n`, for a positive `n`. -/
def floor_log2 (n : Nat) : Nat := log2_fuel n n

/-- Largest `E` with `2 ^ E ≤ x`, for a positive rational `x`. -/
def bin_exp (x : ℚ) : Int :=
  let k : Int := (floor_log2 x.num.natAbs : Int) - (floor_log2 x.den : Int)
  if (2 : ℚ) ^ k ≤ x then k else k - 1

/-- Rounding of a non-negative rational below the overflow threshold to the
nearest `float` (IEEE 754 binary32): 24 significant bits, the unit in the last
place no smaller than `2 ^ -149`, ties to the even significand. -/
def round_to_float_abs (a : ℚ) : ℚ :=
  if a = 0 then 0
  else
    (round_half_even (a / (2 : ℚ) ^ (max (bin_exp a - 23) (-149))) : ℚ)
      * (2 : ℚ) ^ (max (bin_exp a - 23) (-149))

/-- Rounding of a rational of magnitude below the overflow threshold to the
nearest `float`, the sign kept. -/
def round_to_float (q : ℚ) : ℚ :=
  if q < 0 then -round_to_float_abs (-q) else round_to_float_abs q

/-- The conversion `boost::lexical_cast<float>`: a non-finite word, or a decimal
literal whose value does not overflow; the member receives the `float` nearest
to the value of the literal. -/
def lexical_cast_float (t : List Char) : Option Flt :=
  match parse_inf_nan t with
  | some v => some v
  | none =>
    match read_decimal t with
    | none => none
    | some q => if |q| < FLT_OVERFLOW then some (.fin (round_to_float q)) else none

/-! ## The texts the conversions accept -/

/-- A run of decimal digits with at least one digit. -/
def digit_run (ds : List Char) : Prop := ds ≠ [] ∧ ∀ c ∈ ds, c.isDigit = true

/-- The text `t` is `body` with nothing, `+` or `-` in front of it; `neg` tells
the minus sign. -/
def signed_text (t body : List Char) (neg : Bool) : Prop :=
  (t = body ∧ neg = false) ∨ (t = '+' :: body ∧ neg = false) ∨ (t = '-' :: body ∧ neg = true)

/-- The decimal numeral of an unsigned 32-bit integer: a run of digits whose
value is at most `2 ^ 32 - 1`. -/
def unsigned_text (t : List Char) : Prop := digit_run t ∧ digits_value t < UINT32_SIZE

/-- A decimal numeral of an unsigned 32-bit integer behind an optional sign. -/
def uint32_text (t : List Char) : Prop :=
  ∃ (body : List Char) (neg : Bool), signed_text t body neg ∧ unsigned_text body

/-- The exponent part of a decimal literal and its value `E`: nothing (`E = 0`),
or `e` or `E`, an optional sign and a run of digits. -/
def exponent_text (ex : List Char) (E : Int) : Prop :=
  (ex = [] ∧ E = 0) ∨
  ∃ (c : Char) (r ds : List Char) (neg : Bool),
    ex = c :: r ∧ (c = 'e' ∨ c = 'E') ∧ signed_text r ds neg ∧ digit_run ds ∧
    E = (if neg then -(digits_value ds : Int) else (digits_value ds : Int))

/-- A decimal floating literal and its value `v`: an optional sign, digits `ip`,
optionally a point and digits `fp`, at least one digit in all, and an exponent
part. -/
def decimal_text (t : List Char) (v : ℚ) : Prop :=
  ∃ (body ip fp ex : List Char) (neg : Bool) (E : Int),
    signed_text t body neg ∧
    ((body = ip ++ ex ∧ fp = []) ∨ body = ip ++ '.' :: (fp ++ ex)) ∧
    (∀ c ∈ ip, c.isDigit = true) ∧ (∀ c ∈ fp, c.isDigit = true) ∧
    (ip ≠ [] ∨ fp ≠ []) ∧ exponent_text ex E ∧
    v = (if neg then -((digits_value (ip ++ fp) : ℚ) * (10 : ℚ) ^ (E - (fp.length : Int)))
          else (digits_value (ip ++ fp) : ℚ) * (10 : ℚ) ^ (E - (fp.length : Int)))

/-- A word for a non-finite value: behind an optional sign, `inf`, `infinity`,
`nan`, or `nan` followed by any text in parentheses, the letters in either
case. -/
def nonfinite_text (t : List Char) : Prop :=
  ∃ (body : List Char) (neg : Bool), signed_text t body neg ∧
    (lc_iequal body ['i', 'n', 'f'] ['I', 'N', 'F'] = true ∨
     lc_iequal body ['i', 'n', 'f', 'i', 'n', 'i', 't', 'y']
       ['I', 'N', 'F', 'I', 'N', 'I', 'T', 'Y'] = true ∨
     lc_iequal body ['n', 'a', 'n'] ['N', 'A', 'N'] = true ∨
     ∃ w mid : List Char, body = w ++ '(' :: (mid ++ [')']) ∧
       lc_iequal w ['n', 'a', 'n'] ['N', 'A', 'N'] = true)

/-- A text of a `float`: a word for a non-finite value, or a decimal floating
literal of magnitude below `2 ^ 128 - 2 ^ 103`, the values that round to a
finite `float`. -/
def float_text (t : List Char) : Prop :=
  nonfinite_text t ∨ ∃ v : ℚ, decimal_text t v ∧ |v| < FLT_OVERFLOW

/-! ## Records -/

/-- The comma-separated fields of a text, empty ones included. -/
def fields : List Char → List (List Char)
  | [] => [[]]
  | c :: cs =>
    if c = ',' then [] :: fields cs
    else
      match fields cs with
      | [] => [[c]]
      | f :: fs => (c :: f) :: fs

/-- The tokens of `boost::tokenizer<boost::char_separator<char>>` with the
separator `","`: the non-empty fields, in order. -/
def tokenize (t : List Char) : List (List Char) :=
  (fields t).filter (fun f => !f.isEmpty)

/-- Join of fields with commas. -/
def join_fields : List (List Char) → List Char
  | [] => []
  | [f] => f
  | f :: g :: fs => f ++ ',' :: join_fields (g :: fs)

/-- The fifteen fields written by `TransferStats::serialize`, in order. -/
def TransferStats.record_fields (s : TransferStats) : List (List Char) :=
  [ s.m_name.data, put_uint s.m_seq, put_uint s.m_blocks, put_uint s.m_bytes,
    put_uint s.m_block_errors, put_uint s.m_seq_errors, put_uint s.m_send_bytes,
    put_uint s.m_send_blocks, put_uint s.m_inject_errors, put_float s.m_queue_size,
    put_float s.m_enc_time, put_float s.m_send_time, put_float s.m_pkt_time,
    put_float s.m_latency, put_float s.m_rssi ]

/-- The method `TransferStats::serialize()`. -/
def TransferStats.serialize (s : TransferStats) : String :=
  String.mk (join_fields s.record_fields)

/-- How a call of `update` ends: normally, by a thrown `bad_lexical_cast`, or by
reading `*i++` on the exhausted token iterator.  The tokenizer gives no meaning
to that read (its `BOOST_ASSERT(valid_)` fails when assertions are compiled in),
so the model stops there and keeps the state reached. -/
inductive Outcome where
  | ok
  | bad_lexical_cast
  | past_the_end
deriving DecidableEq

/-- Result of `update`: the outcome and the state the aggregator is left in. -/
structure UpdateResult where
  outcome : Outcome
  state : TransferStats
deriving DecidableEq

/-- One assignment `member = lexical_cast<T>(token)`: the new state, or nothing
when the conversion throws. -/
abbrev Assignment := List Char → TransferStats → Option TransferStats

/-- The fifteen assignments of `TransferStats::update`, in source order. -/
def update_assignments : List Assignment :=
  [ fun t s => some { s with m_name := String.mk t },
    fun t s => (lexical_cast_uint32 t).map (fun v => { s with m_seq := v }),
    fun t s => (lexical_cast_uint32 t).map (fun v => { s with m_blocks := v }),
    fun t s => (lexical_cast_uint32 t).map (fun v => { s with m_bytes := v }),
    fun t s => (lexical_cast_uint32 t).map (fun v => { s with m_block_errors := v }),
    fun t s => (lexical_cast_uint32 t).map (fun v => { s with m_seq_errors := v }),
    fun t s => (lexical_cast_uint32 t).map (fun v => { s with m_send_bytes := v }),
    fun t s => (lexical_cast_uint32 t).map (fun v => { s with m_send_blocks := v }),
    fun t s => (lexical_cast_uint32 t).map (fun v => { s with m_inject_errors := v }),
    fun t s => (lexical_cast_float t).map (fun v => { s with m_queue_size := v }),
    fun t s => (lexical_cast_float t).map (fun v => { s with m_enc_time := v }),
    fun t s => (lexical_cast_float t).map (fun v => { s with m_send_time := v }),
    fun t s => (lexical_cast_float t).map (fun v => { s with m_pkt_time := v }),
    fun t s => (lexical_cast_float t).map (fun v => { s with m_latency := v }),
    fun t s => (lexical_cast_float t).map (fun v => { s with m_rssi := v }) ]

/-- Execution of assignments, each reading `*i++` from the token iterator. -/
def run_assignments : List Assignment → List (List Char) → TransferStats → UpdateResult
  | [], _, s => ⟨.ok, s⟩
  | _ :: _, [], s => ⟨.past_the_end, s⟩
  | a :: as, t :: ts, s =>
    match a t s with
    | none => ⟨.bad_lexical_cast, s⟩
    | some s1 => run_assignments as ts s1

/-- The method `TransferStats::update(s)` applied to the text `record`. -/
def TransferStats.update (s : TransferStats) (record : String) : UpdateResult :=
  run_assignments update_assignments (tokenize record.data) s

/-! ## Calls that move the cumulative counters -/

/-- A call of `add` or of `add_send_stats`, with its arguments. -/
inductive Call where
  | add (cur prev : FECDecoderStats)
  | add_send_stats (bytes nblocks inject_errors queue_size : Nat) (flush : Bool) (pkt_time : ℚ)

/-- The state after a call. -/
def Call.apply (w : Nat) (s : TransferStats) : Call → TransferStats
  | .add cur prev => s.add w cur prev
  | .add_send_stats bytes nblocks inject_errors queue_size flush pkt_time =>
    s.add_send_stats bytes nblocks inject_errors queue_size flush pkt_time

/-- The snapshot pair of an `add` call is non-decreasing in every member. -/
def Call.non_decreasing : Call → Prop
  | .add cur prev =>
    prev.total_blocks ≤ cur.total_blocks ∧ prev.total_packets ≤ cur.total_packets ∧
    prev.bytes ≤ cur.bytes ∧ prev.dropped_packets ≤ cur.dropped_packets ∧
    prev.dropped_blocks ≤ cur.dropped_blocks
  | .add_send_stats _ _ _ _ _ _ => True

/-- The call carries no counter of `s` past `2 ^ 32 - 1`. -/
def Call.no_wrap (s : TransferStats) : Call → Prop
  | .add cur prev =>
    s.m_seq + (cur.total_blocks - prev.total_blocks) < UINT32_SIZE ∧
    s.m_blocks + (cur.total_packets - prev.total_packets) < UINT32_SIZE ∧
    s.m_bytes + (cur.bytes - prev.bytes) < UINT32_SIZE ∧
    s.m_block_errors + (cur.dropped_packets - prev.dropped_packets) < UINT32_SIZE ∧
    s.m_seq_errors + (cur.dropped_blocks - prev.dropped_blocks) < UINT32_SIZE
  | .add_send_stats bytes nblocks inject_errors _ flush _ =>
    s.m_send_bytes + bytes < UINT32_SIZE ∧ s.m_send_blocks + nblocks < UINT32_SIZE ∧
    s.m_inject_errors + inject_errors < UINT32_SIZE ∧
    s.m_flushes + (if flush then 1 else 0) < UINT32_SIZE

/-- Every cumulative counter of `t` is at least its value in `s`. -/
def counters_le (s t : TransferStats) : Prop :=
  s.m_seq ≤ t.m_seq ∧ s.m_blocks ≤ t.m_blocks ∧ s.m_bytes ≤ t.m_bytes ∧
  s.m_block_errors ≤ t.m_block_errors ∧ s.m_seq_errors ≤ t.m_seq_errors ∧
  s.m_send_bytes ≤ t.m_send_bytes ∧ s.m_send_blocks ≤ t.m_send_blocks ∧
  s.m_inject_errors ≤ t.m_inject_errors ∧ s.m_flushes ≤ t.m_flushes

/-! ## The state a record denotes -/

/-- The state whose serialized members are read off the tokens of a record, token
`i` being converted as the `i`-th assignment of `update` converts it (0 for a
token that does not convert); `flushes` is the member no record carries. -/
def record_state (toks : List (List Char)) (flushes : Nat) : TransferStats :=
  { m_name := String.mk (toks.getD 0 [])
    m_seq := (lexical_cast_uint32 (toks.getD 1 [])).getD 0
    m_blocks := (lexical_cast_uint32 (toks.getD 2 [])).getD 0
    m_bytes := (lexical_cast_uint32 (toks.getD 3 [])).getD 0
    m_block_errors := (lexical_cast_uint32 (toks.getD 4 [])).getD 0
    m_seq_errors := (lexical_cast_uint32 (toks.getD 5 [])).getD 0
    m_send_bytes := (lexical_cast_uint32 (toks.getD 6 [])).getD 0
    m_send_blocks := (lexical_cast_uint32 (toks.getD 7 [])).getD 0
    m_inject_errors := (lexical_cast_uint32 (toks.getD 8 [])).getD 0
    m_flushes := flushes
    m_queue_size := (lexical_cast_float (toks.getD 9 [])).getD (.fin 0)
    m_enc_time := (lexical_cast_float (toks.getD 10 [])).getD (.fin 0)
    m_send_time := (lexical_cast_float (toks.getD 11 [])).getD (.fin 0)
    m_pkt_time := (lexical_cast_float (toks.getD 12 [])).getD (.fin 0)
    m_latency := (lexical_cast_float (toks.getD 13 [])).getD (.fin 0)
    m_rssi := (lexical_cast_float (toks.getD 14 [])).getD (.fin 0) }

/-- Every numeric token among the first fifteen converts: tokens 1 to 8 by
`lexical_cast<uint32_t>`, tokens 9 to 14 by `lexical_cast<float>` (counted
from 0, the name being token 0). -/
def numeric_tokens_valid (toks : List (List Char)) : Prop :=
  (∀ i, 1 ≤ i → i ≤ 8 → lexical_cast_uint32 (toks.getD i []) ≠ none) ∧
  (∀ i, 9 ≤ i → i ≤ 14 → lexical_cast_float (toks.getD i []) ≠ none)

/-! ## Precision of the written floats -/

/-- Largest finite `float`: `(2 ^ 24 - 1) * 2 ^ 104`. -/
def FLT_MAX : ℚ := (2 ^ 24 - 1) * 2 ^ 104

/-- The value is non-finite, or finite of magnitude at most `FLT_MAX`. -/
def Flt.in_range : Flt → Prop
  | .fin q => |q| ≤ FLT_MAX
  | .inf _ => True
  | .nan _ => True

/-- All six smoothed values of the state are in the range of `float`. -/
def TransferStats.floats_in_range (s : TransferStats) : Prop :=
  s.m_queue_size.in_range ∧ s.m_enc_time.in_range ∧ s.m_send_time.in_range ∧
  s.m_pkt_time.in_range ∧ s.m_latency.in_range ∧ s.m_rssi.in_range

/-- The finite values of `float`: a significand below `2 ^ 24` times a power of
two between `2 ^ -149` and `2 ^ 104`, of either sign. -/
def is_binary32 (q : ℚ) : Prop :=
  ∃ (m : Nat) (e : Int), m < 2 ^ 24 ∧ -149 ≤ e ∧ e ≤ 104 ∧ |q| = (m : ℚ) * (2 : ℚ) ^ e

/-- The value is one a `float` member can hold: non-finite, or a finite value of
the binary32 format. -/
def Flt.is_float : Flt → Prop
  | .fin q => is_binary32 q
  | .inf _ => True
  | .nan _ => True

/-- All six smoothed values of the state are values of `float`. -/
def TransferStats.floats_are_floats (s : TransferStats) : Prop :=
  s.m_queue_size.is_float ∧ s.m_enc_time.is_float ∧ s.m_send_time.is_float ∧
  s.m_pkt_time.is_float ∧ s.m_latency.is_float ∧ s.m_rssi.is_float

/-- Agreement to within one unit of the sixth significant digit: the same
non-finite value, twice zero, or two finite values whose distance is at most
`10 ^ (e - 5)`, where `10 ^ e ≤ |a| < 10 ^ (e + 1)` for the first value `a`. -/
def Flt.agree6 : Flt → Flt → Prop
  | .fin a, .fin b => if a = 0 then b = 0 else |b - a| ≤ (10 : ℚ) ^ (dec_exp |a| - 5)
  | .inf n, .inf m => n = m
  | .nan n, .nan m => n = m
  | _, _ => False

/-! ## The snapshot -/

/-- Modelled from the spec: the snapshot `transfer_stats_t`, declared in a header
outside `src/`.  The members are those `get_stats` assigns: the counters are
32-bit unsigned, the times and the latency are `float`, and `rssi` holds a signed
8-bit value; it is `none` where the conversion that produces it is undefined. -/
structure transfer_stats_t where
  sequences : Nat
  blocks_in : Nat
  blocks_out : Nat
  sequence_errors : Nat
  block_errors : Nat
  inject_errors : Nat
  bytes_in : Nat
  bytes_out : Nat
  encode_time : Flt
  send_time : Flt
  pkt_time : Flt
  latency : Flt
  rssi : Option Int
deriving DecidableEq

/-- The function `std::round`: the nearest integer, halves away from zero. -/
def round_away (q : ℚ) : Int :=
  if 0 ≤ q then ⌊q + 1 / 2⌋ else -⌊-q + 1 / 2⌋

/-- The expression `static_cast<int8_t>(std::round(x))`: the rounded value when
it is between -128 and 127; the conversion is undefined for any other value and
for a non-finite `x`. -/
def round_to_int8 : Flt → Option Int
  | .fin q => if -128 ≤ round_away q ∧ round_away q ≤ 127 then some (round_away q) else none
  | .inf _ => none
  | .nan _ => none

/-- The snapshot built by `TransferStats::get_stats()`. -/
def TransferStats.get_stats (s : TransferStats) : transfer_stats_t :=
  { sequences := s.m_seq
    blocks_in := s.m_blocks
    blocks_out := s.m_send_blocks
    bytes_in := s.m_bytes
    bytes_out := s.m_send_bytes
    encode_time := s.m_enc_time
    send_time := s.m_send_time
    pkt_time := s.m_pkt_time
    sequence_errors := s.m_seq_errors
    block_errors := s.m_block_errors
    inject_errors := s.m_inject_errors
    latency := s.m_latency
    rssi := round_to_int8 s.m_rssi }

/-! ## Calls as state transformers -/

/-- A call of `get_stats()`: the snapshot and the state after the call. -/
def TransferStats.get_stats_call (s : TransferStats) : transfer_stats_t × TransferStats :=
  (s.get_stats, s)

/-- A call of `serialize()`: the record and the state after the call. -/
def TransferStats.serialize_call (s : TransferStats) : String × TransferStats :=
  (s.serialize, s)

/-- A call of `name()`: the name and the state after the call. -/
def TransferStats.name_call (s : TransferStats) : String × TransferStats :=
  (s.name, s)

/-- A call of one of the six accumulating methods, with its arguments. -/
inductive Mutator where
  | add (cur prev : FECDecoderStats)
  | add_rssi (rssi : Int)
  | add_send_stats (bytes nblocks inject_errors queue_size : Nat) (flush : Bool) (pkt_time : ℚ)
  | add_encode_time (t : ℚ)
  | add_send_time (t : ℚ)
  | add_latency (t : Nat)

/-- The state after an accumulating call. -/
def Mutator.apply (w : Nat) (s : TransferStats) : Mutator → TransferStats
  | .add cur prev => s.add w cur prev
  | .add_rssi rssi => s.add_rssi rssi
  | .add_send_stats bytes nblocks inject_errors queue_size flush pkt_time =>
    s.add_send_stats bytes nblocks inject_errors queue_size flush pkt_time
  | .add_encode_time t => s.add_encode_time t
  | .add_send_time t => s.add_send_time t
  | .add_latency t => s.add_latency t

/-- The 8-bit samples of a call are within their types: `int8_t` for `add_rssi`,
`uint8_t` for `add_latency`. -/
def Mutator.samples_in_range : Mutator → Prop
  | .add_rssi rssi => -128 ≤ rssi ∧ rssi ≤ 127
  | .add_latency t => t ≤ 255
  | _ => True

/-- The state after a sequence of accumulating calls. -/
def run_mutators (w : Nat) (s : TransferStats) (ms : List Mutator) : TransferStats :=
  ms.foldl (Mutator.apply w) s

/-- A call of any public method of `TransferStats`. -/
inductive Op where
  | mutate (m : Mutator)
  | update (record : String)
  | get_stats
  | serialize
  | name

/-- The state after a call; a call of `update` leaves the state its assignments
reached, whether it ended normally or not. -/
def Op.apply (w : Nat) (s : TransferStats) : Op → TransferStats
  | .mutate m => m.apply w s
  | .update record => (s.update record).state
  | .get_stats => s.get_stats_call.2
  | .serialize => s.serialize_call.2
  | .name => s.name_call.2

/-- The state after a sequence of calls. -/
def run_ops (w : Nat) (s : TransferStats) (ops : List Op) : TransferStats :=
  ops.foldl (Op.apply w) s

/-- Whether the call is an `add_send_stats` with the flush flag set. -/
def Op.is_flush : Op → Bool
  | .mutate (.add_send_stats _ _ _ _ flush _) => flush
  | _ => false

/-- Number of `add_send_stats` calls made with the flush flag set. -/
def flush_calls (ops : List Op) : Nat := (ops.filter Op.is_flush).length

/-! ## The state after a failed `update` -/

/-- The state in which the first `j` serialized members (in the order of the
record) are read off the tokens and every other member is that of `s`. -/
def partial_state (j : Nat) (toks : List (List Char)) (s : TransferStats) : TransferStats :=
  { m_name := if 0 < j then (record_state toks s.m_flushes).m_name else s.m_name
    m_seq := if 1 < j then (record_state toks s.m_flushes).m_seq else s.m_seq
    m_blocks := if 2 < j then (record_state toks s.m_flushes).m_blocks else s.m_blocks
    m_bytes := if 3 < j then (record_state toks s.m_flushes).m_bytes else s.m_bytes
    m_block_errors :=
      if 4 < j then (record_state toks s.m_flushes).m_block_errors else s.m_block_errors
    m_seq_errors :=
      if 5 < j then (record_state toks s.m_flushes).m_seq_errors else s.m_seq_errors
    m_send_bytes :=
      if 6 < j then (record_state toks s.m_flushes).m_send_bytes else s.m_send_bytes
    m_send_blocks :=
      if 7 < j then (record_state toks s.m_flushes).m_send_blocks else s.m_send_blocks
    m_inject_errors :=
      if 8 < j then (record_state toks s.m_flushes).m_inject_errors else s.m_inject_errors
    m_flushes := s.m_flushes
    m_queue_size :=
      if 9 < j then (record_state toks s.m_flushes).m_queue_size else s.m_queue_size
    m_enc_time := if 10 < j then (record_state toks s.m_flushes).m_enc_time else s.m_enc_time
    m_send_time :=
      if 11 < j then (record_state toks s.m_flushes).m_send_time else s.m_send_time
    m_pkt_time := if 12 < j then (record_state toks s.m_flushes).m_pkt_time else s.m_pkt_time
    m_latency := if 13 < j then (record_state toks s.m_flushes).m_latency else s.m_latency
    m_rssi := if 14 < j then (record_state toks s.m_flushes).m_rssi else s.m_rssi }

/-- Token `i` of a record is accepted by the `i`-th assignment of `update`. -/
def token_accepted (toks : List (List Char)) (i : Nat) : Prop :=
  (1 ≤ i → i ≤ 8 → lexical_cast_uint32 (toks.getD i []) ≠ none) ∧
  (9 ≤ i → i ≤ 14 → lexical_cast_float (toks.getD i []) ≠ none)


/-! ## Counter arithmetic -/

theorem u32_lt (n : Nat) : u32 n < UINT32_SIZE :=
  Nat.mod_lt _ (by decide)

theorem u32_of_lt {n : Nat} (h : n < UINT32_SIZE) : u32 n = n :=
  Nat.mod_eq_of_lt h

theorem two_pow_32 : (2 : Nat) ^ 32 = UINT32_SIZE := by decide

theorem add_delta_cast (w : Nat) (hw : 32 ≤ w) (m a b : Nat) :
    ((add_delta w m a b : Nat) : Int) = ((m : Int) + ((a : Int) - (b : Int))) % 2 ^ 32 := by
  have hdvd : ((2 : Int) ^ 32) ∣ (2 : Int) ^ w := pow_dvd_pow 2 hw
  have hpos : (0 : Int) < 2 ^ w := by positivity
  have hnn : 0 ≤ ((a : Int) - (b : Int)) % 2 ^ w := Int.emod_nonneg _ (ne_of_gt hpos)
  unfold add_delta u32 fec_sub UINT32_SIZE
  push_cast
  rw [Int.toNat_of_nonneg hnn]
  have h32 : ((4294967296 : Int)) = 2 ^ 32 := by norm_num
  rw [h32, Int.emod_emod_of_dvd _ hdvd, Int.add_emod, Int.emod_emod_of_dvd _ hdvd,
    ← Int.add_emod]

theorem add_delta_of_le (w : Nat) (hw : 32 ≤ w) (m a b : Nat) (hab : b ≤ a)
    (h : m + (a - b) < UINT32_SIZE) : add_delta w m a b = m + (a - b) := by
  have hc := add_delta_cast w hw m a b
  have h1 : ((m : Int) + ((a : Int) - (b : Int))) = ((m + (a - b) : Nat) : Int) := by
    push_cast [Nat.cast_sub hab]; ring
  rw [h1] at hc
  have h2 : ((m + (a - b) : Nat) : Int) % 2 ^ 32 = ((m + (a - b) : Nat) : Int) := by
    apply Int.emod_eq_of_lt (by positivity)
    have : ((m + (a - b) : Nat) : Int) < ((UINT32_SIZE : Nat) : Int) := by exact_mod_cast h
    simpa [UINT32_SIZE] using this
  rw [h2] at hc
  exact_mod_cast hc

/-- C2: `add(cur, prev)` adds to each of the five receive counters the difference
of the corresponding FEC members, in arithmetic modulo `2 ^ 32` (the FEC members
being unsigned integers at least 32 bits wide). -/
theorem add_increments_by_deltas (w : Nat) (hw : 32 ≤ w) (s : TransferStats)
    (cur prev : FECDecoderStats) :
    (((s.add w cur prev).m_seq : Int)
        = ((s.m_seq : Int) + ((cur.total_blocks : Int) - prev.total_blocks)) % 2 ^ 32) ∧
    (((s.add w cur prev).m_blocks : Int)
        = ((s.m_blocks : Int) + ((cur.total_packets : Int) - prev.total_packets)) % 2 ^ 32) ∧
    (((s.add w cur prev).m_bytes : Int)
        = ((s.m_bytes : Int) + ((cur.bytes : Int) - prev.bytes)) % 2 ^ 32) ∧
    (((s.add w cur prev).m_block_errors : Int)
        = ((s.m_block_errors : Int)
            + ((cur.dropped_packets : Int) - prev.dropped_packets)) % 2 ^ 32) ∧
    (((s.add w cur prev).m_seq_errors : Int)
        = ((s.m_seq_errors : Int)
            + ((cur.dropped_blocks : Int) - prev.dropped_blocks)) % 2 ^ 32) :=
  ⟨add_delta_cast w hw _ _ _, add_delta_cast w hw _ _ _, add_delta_cast w hw _ _ _,
    add_delta_cast w hw _ _ _, add_delta_cast w hw _ _ _⟩

/-- Witness of C2: 64-bit FEC members, a counter at its maximum wrapping to 2. -/
theorem add_increments_by_deltas_witness :
    (32 ≤ 64) ∧
    ((((⟨"a", 4294967295, 0, 0, 0, 0, 0, 0, 0, 0, .fin 0, .fin 0, .fin 0, .fin 0, .fin 0,
        .fin 0⟩ : TransferStats).add 64 ⟨10, 0, 0, 0, 0⟩ ⟨7, 0, 0, 0, 0⟩).m_seq : Int)
      = (((4294967295 : Nat) : Int) + (((10 : Nat) : Int) - ((7 : Nat) : Int))) % 2 ^ 32) :=
  ⟨by decide, (add_increments_by_deltas 64 (by decide) _ _ _).1⟩

/-! ## Send statistics and smoothing -/

/-- C3: `add_send_stats` adds its first three arguments to `send_bytes`,
`send_blocks` and `inject_errors` modulo `2 ^ 32`; on the fresh aggregator
"link0" the call `add_send_stats(1000, 5, 0, 2, false, 0.001)` leaves
`send_bytes = 1000`, `send_blocks = 5`, `inject_errors = 0`, `flush_count = 0`. -/
theorem add_send_stats_counters :
    (∀ (s : TransferStats) (bytes nblocks inject_errors queue_size : Nat) (flush : Bool)
        (pkt_time : ℚ),
      (s.add_send_stats bytes nblocks inject_errors queue_size flush pkt_time).m_send_bytes
          = (s.m_send_bytes + bytes) % 2 ^ 32 ∧
      (s.add_send_stats bytes nblocks inject_errors queue_size flush pkt_time).m_send_blocks
          = (s.m_send_blocks + nblocks) % 2 ^ 32 ∧
      (s.add_send_stats bytes nblocks inject_errors queue_size flush pkt_time).m_inject_errors
          = (s.m_inject_errors + inject_errors) % 2 ^ 32) ∧
    ((TransferStats.ctor "link0").add_send_stats 1000 5 0 2 false 0.001).m_send_bytes = 1000 ∧
    ((TransferStats.ctor "link0").add_send_stats 1000 5 0 2 false 0.001).m_send_blocks = 5 ∧
    ((TransferStats.ctor "link0").add_send_stats 1000 5 0 2 false 0.001).m_inject_errors = 0 ∧
    ((TransferStats.ctor "link0").add_send_stats 1000 5 0 2 false 0.001).m_flushes = 0 := by
  refine ⟨fun s bytes nblocks inject_errors queue_size flush pkt_time => ?_, ?_, ?_, ?_, ?_⟩
  · simp only [TransferStats.add_send_stats, u32, two_pow_32, and_self]
  all_goals decide

theorem blend_fin (x y : ℚ) : blend (.fin x) y = .fin (prev_weight * x + y) := rfl

/-- C9: on a finite field `x` every smoothing operation stores
`0.02 * x + 0.98 * sample`, the sample being the raw argument for `add_rssi`,
`add_latency` and the queue size of `add_send_stats`, and a million times the
argument for `add_encode_time`, `add_send_time` and the packet time of
`add_send_stats`; on the fresh aggregator `add_send_stats(1000, 5, 0, 2, false,
0.001)` leaves `queue_size = 1.96` and `pkt_time = 980`. -/
theorem smoothing_rule (s : TransferStats) (xq xe xs xp xl xr : ℚ)
    (hq : s.m_queue_size = .fin xq) (he : s.m_enc_time = .fin xe)
    (hs : s.m_send_time = .fin xs) (hp : s.m_pkt_time = .fin xp)
    (hl : s.m_latency = .fin xl) (hr : s.m_rssi = .fin xr) :
    (∀ v : Int, (s.add_rssi v).m_rssi = .fin (0.02 * xr + 0.98 * (v : ℚ))) ∧
    (∀ t : Nat, (s.add_latency t).m_latency = .fin (0.02 * xl + 0.98 * (t : ℚ))) ∧
    (∀ (bytes nblocks inject_errors queue_size : Nat) (flush : Bool) (pkt_time : ℚ),
      (s.add_send_stats bytes nblocks inject_errors queue_size flush pkt_time).m_queue_size
          = .fin (0.02 * xq + 0.98 * (queue_size : ℚ)) ∧
      (s.add_send_stats bytes nblocks inject_errors queue_size flush pkt_time).m_pkt_time
          = .fin (0.02 * xp + 0.98 * (pkt_time * 1000000))) ∧
    (∀ t : ℚ, (s.add_encode_time t).m_enc_time = .fin (0.02 * xe + 0.98 * (t * 1000000))) ∧
    (∀ t : ℚ, (s.add_send_time t).m_send_time = .fin (0.02 * xs + 0.98 * (t * 1000000))) ∧
    ((TransferStats.ctor "link0").add_send_stats 1000 5 0 2 false 0.001).m_queue_size
        = .fin 1.96 ∧
    ((TransferStats.ctor "link0").add_send_stats 1000 5 0 2 false 0.001).m_pkt_time
        = .fin 980 := by
  refine ⟨?_, ?_, ?_, ?_, ?_, ?_, ?_⟩
  · intro v
    simp only [TransferStats.add_rssi, hr, blend_fin, prev_weight]
    congr 1; ring
  · intro t
    simp only [TransferStats.add_latency, hl, blend_fin, prev_weight]
    congr 1; ring
  · intro bytes nblocks inject_errors queue_size flush pkt_time
    simp only [TransferStats.add_send_stats, hq, hp, blend_fin, prev_weight]
    constructor <;> (congr 1; ring)
  · intro t
    simp only [TransferStats.add_encode_time, he, blend_fin, prev_weight]
    congr 1; ring
  · intro t
    simp only [TransferStats.add_send_time, hs, blend_fin, prev_weight]
    congr 1; ring
  · decide!
  · decide!

/-- Witness of C9: the fresh aggregator, all of whose smoothed fields are 0. -/
theorem smoothing_rule_witness :
    (TransferStats.ctor "link0").m_queue_size = .fin 0 ∧
    (TransferStats.ctor "link0").m_enc_time = .fin 0 ∧
    (TransferStats.ctor "link0").m_send_time = .fin 0 ∧
    (TransferStats.ctor "link0").m_pkt_time = .fin 0 ∧
    (TransferStats.ctor "link0").m_latency = .fin 0 ∧
    (TransferStats.ctor "link0").m_rssi = .fin 0 ∧
    ((TransferStats.ctor "link0").add_rssi (-70)).m_rssi
        = .fin (0.02 * 0 + 0.98 * (((-70 : Int)) : ℚ)) :=
  ⟨rfl, rfl, rfl, rfl, rfl, rfl,
    (smoothing_rule (TransferStats.ctor "link0") 0 0 0 0 0 0 rfl rfl rfl rfl rfl rfl).1 (-70)⟩

/-- C10: from the fresh aggregator one `add_rssi(v)` leaves `rssi = 0.98 * v`,
and a second `add_rssi(v)` leaves a value `r` with `|r - v| ≤ 0.02 * |v|`, for
every integer sample `v`, the signed 8-bit ones among them. -/
theorem add_rssi_fast_ema (name : String) (v : Int) :
    ((TransferStats.ctor name).add_rssi v).m_rssi = .fin (0.98 * (v : ℚ)) ∧
    ∃ r : ℚ, (((TransferStats.ctor name).add_rssi v).add_rssi v).m_rssi = .fin r ∧
      |r - (v : ℚ)| ≤ 0.02 * |(v : ℚ)| := by
  have h1 : ((TransferStats.ctor name).add_rssi v).m_rssi = .fin (0.98 * (v : ℚ)) := by
    simp only [TransferStats.add_rssi, TransferStats.ctor, blend_fin, prev_weight]
    congr 1; ring
  refine ⟨h1, 0.9996 * (v : ℚ), ?_, ?_⟩
  · have h2 : (((TransferStats.ctor name).add_rssi v).add_rssi v).m_rssi
        = blend ((TransferStats.ctor name).add_rssi v).m_rssi ((1 - prev_weight) * (v : ℚ)) := rfl
    rw [h2, h1, blend_fin, prev_weight]
    congr 1; ring
  · have h3 : 0.9996 * (v : ℚ) - (v : ℚ) = (-0.0004) * (v : ℚ) := by ring
    rw [h3, abs_mul]
    have h4 : |(-0.0004 : ℚ)| ≤ 0.02 := by rw [abs_le]; constructor <;> norm_num
    exact mul_le_mul_of_nonneg_right h4 (abs_nonneg _)

/-! ## Monotonic counters -/

/-- C8, as stated, fails: on the fresh aggregator "link0" a first
`add_send_stats` of 4294967295 bytes followed by one of 1 byte wraps `send_bytes`
to 0, below its value before the second call. -/
theorem send_bytes_wraps :
    ((TransferStats.ctor "link0").add_send_stats 4294967295 0 0 0 false 0).m_send_bytes
        = 4294967295 ∧
    (((TransferStats.ctor "link0").add_send_stats 4294967295 0 0 0 false 0).add_send_stats
        1 0 0 0 false 0).m_send_bytes = 0 ∧
    ¬ counters_le ((TransferStats.ctor "link0").add_send_stats 4294967295 0 0 0 false 0)
        (Call.apply 32 ((TransferStats.ctor "link0").add_send_stats 4294967295 0 0 0 false 0)
          (.add_send_stats 1 0 0 0 false 0)) := by
  refine ⟨by decide, by decide, ?_⟩
  intro h
  exact absurd h.2.2.2.2.2.1 (by decide)

/-- C8, amended: a call of `add` with a member-wise non-decreasing snapshot pair,
or any call of `add_send_stats`, leaves every cumulative counter at least as
large as before, provided the call carries no counter past `2 ^ 32 - 1`. -/
theorem counters_monotone_without_wrap (w : Nat) (hw : 32 ≤ w) (s : TransferStats) (c : Call)
    (hmono : c.non_decreasing) (hwrap : c.no_wrap s) :
    counters_le s (c.apply w s) := by
  cases c with
  | add cur prev =>
    obtain ⟨m1, m2, m3, m4, m5⟩ := hmono
    obtain ⟨w1, w2, w3, w4, w5⟩ := hwrap
    simp only [counters_le, Call.apply, TransferStats.add]
    rw [add_delta_of_le w hw _ _ _ m1 w1, add_delta_of_le w hw _ _ _ m2 w2,
      add_delta_of_le w hw _ _ _ m3 w3, add_delta_of_le w hw _ _ _ m4 w4,
      add_delta_of_le w hw _ _ _ m5 w5]
    refine ⟨?_, ?_, ?_, ?_, ?_, ?_, ?_, ?_, ?_⟩ <;> omega
  | add_send_stats bytes nblocks inject_errors queue_size flush pkt_time =>
    obtain ⟨w1, w2, w3, w4⟩ := hwrap
    simp only [counters_le, Call.apply, TransferStats.add_send_stats]
    rw [u32_of_lt w1, u32_of_lt w2, u32_of_lt w3, u32_of_lt w4]
    refine ⟨?_, ?_, ?_, ?_, ?_, ?_, ?_, ?_, ?_⟩ <;> omega

/-- Witness of the amended C8: an `add` call on the fresh aggregator with 64-bit
FEC members. -/
theorem counters_monotone_without_wrap_witness :
    32 ≤ 64 ∧
    (Call.add ⟨10, 80, 3, 1, 9000⟩ ⟨7, 56, 3, 0, 6000⟩).non_decreasing ∧
    (Call.add ⟨10, 80, 3, 1, 9000⟩ ⟨7, 56, 3, 0, 6000⟩).no_wrap (TransferStats.ctor "link0") ∧
    counters_le (TransferStats.ctor "link0")
      (Call.apply 64 (TransferStats.ctor "link0")
        (.add ⟨10, 80, 3, 1, 9000⟩ ⟨7, 56, 3, 0, 6000⟩)) :=
  ⟨by decide, ⟨by decide, by decide, by decide, by decide, by decide⟩,
    ⟨by decide, by decide, by decide, by decide, by decide⟩,
    counters_monotone_without_wrap 64 (by decide) (TransferStats.ctor "link0")
      (.add ⟨10, 80, 3, 1, 9000⟩ ⟨7, 56, 3, 0, 6000⟩)
      ⟨by decide, by decide, by decide, by decide, by decide⟩
      ⟨by decide, by decide, by decide, by decide, by decide⟩⟩

/-! ## Decimal digits -/

theorem digitChar_isDigit (d : Nat) : (digitChar d).isDigit = true := by
  unfold digitChar
  split <;> decide

theorem digit_value_digitChar {d : Nat} (h : d < 10) : digit_value (digitChar d) = d := by
  interval_cases d <;> decide

theorem put_digits_eq (n : Nat) :
    ∀ (fuel : Nat) (acc : List Char), n < fuel →
      put_digits fuel n acc = put_digits (n + 1) n [] ++ acc := by
  induction n using Nat.strong_induction_on with
  | _ n ih =>
    intro fuel acc hf
    obtain ⟨f, rfl⟩ : ∃ f, fuel = f + 1 := ⟨fuel - 1, by omega⟩
    by_cases h10 : n < 10
    · simp [put_digits, h10]
    · have hlt : n / 10 < n := Nat.div_lt_self (by omega) (by decide)
      have e1 : put_digits (f + 1) n acc
          = put_digits f (n / 10) (digitChar (n % 10) :: acc) := by
        simp [put_digits, h10]
      have e2 : put_digits (n + 1) n []
          = put_digits n (n / 10) [digitChar (n % 10)] := by
        simp [put_digits, h10]
      rw [e1, e2, ih (n / 10) hlt f _ (by omega), ih (n / 10) hlt n _ hlt]
      simp

theorem put_uint_small {n : Nat} (h : n < 10) : put_uint n = [digitChar n] := by
  simp [put_uint, put_digits, h]

theorem put_uint_step {n : Nat} (h : 10 ≤ n) :
    put_uint n = put_uint (n / 10) ++ [digitChar (n % 10)] := by
  have hlt : n / 10 < n := Nat.div_lt_self (by omega) (by decide)
  have e2 : put_digits (n + 1) n [] = put_digits n (n / 10) [digitChar (n % 10)] := by
    simp [put_digits, Nat.not_lt.mpr h]
  unfold put_uint
  rw [e2, put_digits_eq (n / 10) n _ hlt]

theorem put_uint_ne_nil (n : Nat) : put_uint n ≠ [] := by
  by_cases h : n < 10
  · simp [put_uint_small h]
  · simp [put_uint_step (Nat.not_lt.mp h)]

theorem put_uint_isDigit (n : Nat) : ∀ c ∈ put_uint n, c.isDigit = true := by
  induction n using Nat.strong_induction_on with
  | _ n ih =>
    intro c hc
    by_cases h : n < 10
    · rw [put_uint_small h, List.mem_singleton] at hc
      rw [hc]; exact digitChar_isDigit n
    · have hge : 10 ≤ n := Nat.not_lt.mp h
      rw [put_uint_step hge, List.mem_append, List.mem_singleton] at hc
      rcases hc with hc | hc
      · exact ih (n / 10) (Nat.div_lt_self (by omega) (by decide)) c hc
      · rw [hc]; exact digitChar_isDigit _

theorem digits_value_append (ds : List Char) (c : Char) :
    digits_value (ds ++ [c]) = 10 * digits_value ds + digit_value c := by
  simp [digits_value, List.foldl_append]

theorem digits_value_put_uint (n : Nat) : digits_value (put_uint n) = n := by
  induction n using Nat.strong_induction_on with
  | _ n ih =>
    by_cases h : n < 10
    · rw [put_uint_small h]
      simp [digits_value, digit_value_digitChar h]
    · have hge : 10 ≤ n := Nat.not_lt.mp h
      rw [put_uint_step hge, digits_value_append,
        ih (n / 10) (Nat.div_lt_self (by omega) (by decide)),
        digit_value_digitChar (Nat.mod_lt _ (by decide))]
      omega

/-- A number of at least one digit lies between the powers of ten that its digit
count names. -/
theorem put_uint_length_bounds (n : Nat) (hn : 1 ≤ n) :
    10 ^ ((put_uint n).length - 1) ≤ n ∧ n < 10 ^ (put_uint n).length := by
  induction n using Nat.strong_induction_on with
  | _ n ih =>
    by_cases h : n < 10
    · rw [put_uint_small h]
      simp only [List.length_singleton, Nat.sub_self, pow_zero, pow_one]
      omega
    · have hge : 10 ≤ n := Nat.not_lt.mp h
      have hlt : n / 10 < n := Nat.div_lt_self (by omega) (by decide)
      obtain ⟨h1, h2⟩ := ih (n / 10) hlt (by omega)
      have hpos : 1 ≤ (put_uint (n / 10)).length := by
        have := put_uint_ne_nil (n / 10)
        cases hl : put_uint (n / 10) with
        | nil => exact absurd hl this
        | cons a l => simp
      rw [put_uint_step hge]
      simp only [List.length_append, List.length_singleton, Nat.add_sub_cancel]
      constructor
      · calc 10 ^ (put_uint (n / 10)).length
            = 10 ^ ((put_uint (n / 10)).length - 1) * 10 := by
              rw [← pow_succ]; congr 1; omega
          _ ≤ (n / 10) * 10 := Nat.mul_le_mul_right _ h1
          _ ≤ n := Nat.div_mul_le_self n 10
      · rw [pow_succ]
        omega

theorem put_uint_length_of_bounds (n k : Nat) (h1 : 10 ^ k ≤ n) (h2 : n < 10 ^ (k + 1)) :
    (put_uint n).length = k + 1 := by
  have hn : 1 ≤ n := le_trans (Nat.one_le_pow _ _ (by decide)) h1
  obtain ⟨b1, b2⟩ := put_uint_length_bounds n hn
  have hpos : 1 ≤ (put_uint n).length := by
    have := put_uint_ne_nil n
    cases hl : put_uint n with
    | nil => exact absurd hl this
    | cons a l => simp
  have c1 : (put_uint n).length - 1 < k + 1 := by
    by_contra hc
    have : 10 ^ (k + 1) ≤ 10 ^ ((put_uint n).length - 1) :=
      Nat.pow_le_pow_right (by decide) (by omega)
    omega
  have c2 : k < (put_uint n).length := by
    by_contra hc
    have : 10 ^ (put_uint n).length ≤ 10 ^ k :=
      Nat.pow_le_pow_right (by decide) (by omega)
    omega
  omega

theorem lcast_ret_unsigned_put_uint {n : Nat} (h : n < UINT32_SIZE) :
    lcast_ret_unsigned (put_uint n) = some n := by
  have hall : (put_uint n).all Char.isDigit = true := by
    rw [List.all_eq_true]; exact put_uint_isDigit n
  simp [lcast_ret_unsigned, put_uint_ne_nil, hall, digits_value_put_uint, h]

theorem put_uint_head_isDigit (n : Nat) :
    ∃ c cs, put_uint n = c :: cs ∧ c.isDigit = true := by
  cases hl : put_uint n with
  | nil => exact absurd hl (put_uint_ne_nil n)
  | cons c cs =>
    exact ⟨c, cs, rfl, put_uint_isDigit n c (by rw [hl]; exact List.mem_cons_self _ _)⟩

theorem lexical_cast_uint32_put_uint {n : Nat} (h : n < UINT32_SIZE) :
    lexical_cast_uint32 (put_uint n) = some n := by
  obtain ⟨c, cs, hcs, hd⟩ := put_uint_head_isDigit n
  have hm : c ≠ '-' := by rintro rfl; exact absurd hd (by decide)
  have hp : c ≠ '+' := by rintro rfl; exact absurd hd (by decide)
  have := lcast_ret_unsigned_put_uint h
  rw [hcs] at this ⊢
  simp [lexical_cast_uint32, hm, hp, this]

theorem isDigit_ne_comma {c : Char} (h : c.isDigit = true) : c ≠ ',' := by
  rintro rfl; exact absurd h (by decide)

theorem put_uint_no_comma (n : Nat) : ∀ c ∈ put_uint n, c ≠ ',' :=
  fun c hc => isDigit_ne_comma (put_uint_isDigit n c hc)

/-- The texts `lexical_cast<uint32_t>` accepts: an optional sign and a non-empty
run of decimal digits whose value fits 32 bits. -/
theorem lexical_cast_uint32_accepts_iff (t : List Char) :
    lexical_cast_uint32 t ≠ none ↔
      ∃ ds : List Char, (t = ds ∨ t = '+' :: ds ∨ t = '-' :: ds) ∧ ds ≠ [] ∧
        (∀ c ∈ ds, c.isDigit = true) ∧ digits_value ds < UINT32_SIZE := by
  have hret : ∀ ds : List Char, lcast_ret_unsigned ds ≠ none ↔
      (ds ≠ [] ∧ (∀ c ∈ ds, c.isDigit = true) ∧ digits_value ds < UINT32_SIZE) := by
    intro ds
    have hall : (ds.all Char.isDigit = true) ↔ ∀ c ∈ ds, c.isDigit = true := List.all_eq_true
    unfold lcast_ret_unsigned
    split_ifs with h
    · simp only [ne_eq, reduceCtorEq, not_false_eq_true, true_iff]
      exact ⟨h.1, hall.mp h.2.1, h.2.2⟩
    · simp only [ne_eq, not_true_eq_false, false_iff]
      exact fun h2 => h ⟨h2.1, hall.mpr h2.2.1, h2.2.2⟩
  constructor
  · intro h
    cases t with
    | nil => exact absurd rfl h
    | cons c cs =>
      by_cases hm : c = '-'
      · subst hm
        have : lcast_ret_unsigned cs ≠ none := by
          intro hn
          apply h
          simp [lexical_cast_uint32, hn]
        exact ⟨cs, Or.inr (Or.inr rfl), (hret cs).mp this⟩
      · by_cases hp : c = '+'
        · subst hp
          have : lcast_ret_unsigned cs ≠ none := by
            intro hn
            apply h
            simp [lexical_cast_uint32, hn]
          exact ⟨cs, Or.inr (Or.inl rfl), (hret cs).mp this⟩
        · have : lcast_ret_unsigned (c :: cs) ≠ none := by
            intro hn
            apply h
            simp [lexical_cast_uint32, hm, hp, hn]
          exact ⟨c :: cs, Or.inl rfl, (hret _).mp this⟩
  · rintro ⟨ds, hshape, hds⟩
    have hsome := (hret ds).mpr hds
    rcases hshape with rfl | rfl | rfl
    · cases t with
      | nil => exact absurd rfl hds.1
      | cons c cs =>
        have hc : c.isDigit = true := hds.2.1 c (List.mem_cons_self _ _)
        have hm : c ≠ '-' := by rintro rfl; exact absurd hc (by decide)
        have hp : c ≠ '+' := by rintro rfl; exact absurd hc (by decide)
        simpa [lexical_cast_uint32, hm, hp] using hsome
    · simpa [lexical_cast_uint32] using hsome
    · obtain ⟨v, hv⟩ := Option.ne_none_iff_exists'.mp hsome
      simp [lexical_cast_uint32, hv]

/-! ## Fields, tokens and the written record -/

theorem fields_ne_nil (t : List Char) : fields t ≠ [] := by
  cases t with
  | nil => simp [fields]
  | cons c cs =>
    by_cases h : c = ','
    · simp [fields, h]
    · cases hf : fields cs <;> simp [fields, h, hf]

theorem fields_of_no_comma (a : List Char) (h : ∀ c ∈ a, c ≠ ',') : fields a = [a] := by
  induction a with
  | nil => rfl
  | cons c cs ih =>
    have hc : c ≠ ',' := h c (List.mem_cons_self _ _)
    have := ih (fun d hd => h d (List.mem_cons_of_mem _ hd))
    simp [fields, hc, this]

theorem fields_append_comma (a b : List Char) (h : ∀ c ∈ a, c ≠ ',') :
    fields (a ++ ',' :: b) = a :: fields b := by
  induction a with
  | nil => simp [fields]
  | cons c cs ih =>
    have hc : c ≠ ',' := h c (List.mem_cons_self _ _)
    have := ih (fun d hd => h d (List.mem_cons_of_mem _ hd))
    simp [fields, hc, this]

theorem fields_join_fields (fs : List (List Char)) (hne : fs ≠ [])
    (h : ∀ f ∈ fs, ∀ c ∈ f, c ≠ ',') : fields (join_fields fs) = fs := by
  induction fs with
  | nil => exact absurd rfl hne
  | cons f gs ih =>
    cases gs with
    | nil => simpa [join_fields] using fields_of_no_comma f (h f (List.mem_cons_self _ _))
    | cons g hs =>
      have h1 := ih (by simp) (fun x hx => h x (List.mem_cons_of_mem _ hx))
      simp only [join_fields]
      rw [fields_append_comma f _ (h f (List.mem_cons_self _ _)), h1]

theorem tokenize_of_nonempty_fields (t : List Char) (h : ∀ f ∈ fields t, f ≠ []) :
    tokenize t = fields t := by
  unfold tokenize
  rw [List.filter_eq_self]
  intro f hf
  have := h f hf
  cases f with
  | nil => exact absurd rfl this
  | cons c cs => rfl

theorem tokenize_length_le (t : List Char) : (tokenize t).length ≤ (fields t).length :=
  List.length_filter_le _ _

theorem mem_tokenize_ne_nil (t : List Char) : ∀ f ∈ tokenize t, f ≠ [] := by
  intro f hf
  unfold tokenize at hf
  rw [List.mem_filter] at hf
  rintro rfl
  simp at hf

/-! ### Characters of a written float -/

theorem mem_strip_zeros {c : Char} {ds : List Char} (h : c ∈ strip_zeros ds) : c ∈ ds := by
  unfold strip_zeros at h
  rw [List.mem_reverse] at h
  have := (List.dropWhile_suffix (fun c => decide (c = '0')) (l := ds.reverse)).subset h
  simpa using this

theorem put_exp_no_comma (X : Int) : ∀ c ∈ put_exp X, c ≠ ',' := by
  intro c hc
  unfold put_exp at hc
  rw [List.mem_cons, List.mem_cons] at hc
  rcases hc with rfl | hc | hc
  · decide
  · rw [hc]; split <;> decide
  · split at hc
    · rw [List.mem_cons] at hc
      rcases hc with rfl | hc
      · decide
      · exact put_uint_no_comma _ c hc
    · exact put_uint_no_comma _ c hc

theorem put_general_no_comma (m : Nat) (X : Int) : ∀ c ∈ put_general m X, c ≠ ',' := by
  intro c hc
  have hd : ∀ d ∈ put_uint m, d ≠ ',' := put_uint_no_comma m
  have hdot : ∀ (fp : List Char), (∀ d ∈ fp, d ≠ ',') →
      ∀ d ∈ (if fp = [] then [] else '.' :: fp), d ≠ ',' := by
    intro fp hfp d hdm
    split at hdm
    · simp at hdm
    · rw [List.mem_cons] at hdm
      rcases hdm with rfl | hdm
      · decide
      · exact hfp d hdm
  unfold put_general at hc
  simp only at hc
  split at hc
  · split at hc
    · rw [List.mem_append] at hc
      rcases hc with hc | hc
      · exact hd c (List.mem_of_mem_take hc)
      · exact hdot _ (fun d hdm => hd d (List.mem_of_mem_drop (mem_strip_zeros hdm))) c hc
    · rw [List.mem_cons, List.mem_cons, List.mem_append] at hc
      rcases hc with rfl | rfl | hc | hc
      · decide
      · decide
      · rw [List.mem_replicate] at hc
        rw [hc.2]; decide
      · exact hd c (mem_strip_zeros hc)
  · rw [List.mem_append, List.mem_append] at hc
    rcases hc with (hc | hc) | hc
    · exact hd c (List.mem_of_mem_take hc)
    · exact hdot _ (fun d hdm => hd d (List.mem_of_mem_drop (mem_strip_zeros hdm))) c hc
    · exact put_exp_no_comma X c hc

theorem put_general_ne_nil (m : Nat) (X : Int) : put_general m X ≠ [] := by
  obtain ⟨c, cs, hcs, -⟩ := put_uint_head_isDigit m
  unfold put_general
  simp only [hcs]
  split
  · split
    · simp
    · simp
  · simp

theorem put_float_fin (q : ℚ) :
    put_float (.fin q) = if q = 0 then ['0']
      else (if q < 0 then ['-'] else []) ++ put_general (sig6 |q|).1 (sig6 |q|).2 := rfl

theorem put_float_inf (neg : Bool) :
    put_float (.inf neg) = (if neg then ['-'] else []) ++ ['i', 'n', 'f'] := rfl

theorem put_float_nan (neg : Bool) :
    put_float (.nan neg) = (if neg then ['-'] else []) ++ ['n', 'a', 'n'] := rfl

theorem put_float_no_comma (x : Flt) : ∀ c ∈ put_float x, c ≠ ',' := by
  intro c hc
  cases x with
  | fin q =>
    rw [put_float_fin] at hc
    split at hc
    · rw [List.mem_singleton] at hc; rw [hc]; decide
    · rw [List.mem_append] at hc
      rcases hc with hc | hc
      · split at hc
        · rw [List.mem_singleton] at hc; rw [hc]; decide
        · simp at hc
      · exact put_general_no_comma _ _ c hc
  | inf neg =>
    rw [put_float_inf] at hc
    cases neg <;> simp at hc <;> rcases hc with rfl | rfl | rfl | rfl <;> decide
  | nan neg =>
    rw [put_float_nan] at hc
    cases neg <;> simp at hc <;> rcases hc with rfl | rfl | rfl | rfl <;> decide

theorem put_float_ne_nil (x : Flt) : put_float x ≠ [] := by
  cases x with
  | fin q =>
    rw [put_float_fin]
    split
    · simp
    · simp [put_general_ne_nil]
  | inf neg => cases neg <;> simp [put_float_inf]
  | nan neg => cases neg <;> simp [put_float_nan]

theorem record_fields_no_comma (s : TransferStats) (hc : ',' ∉ s.m_name.data) :
    ∀ f ∈ s.record_fields, ∀ c ∈ f, c ≠ ',' := by
  intro f hf c hcf
  simp only [TransferStats.record_fields, List.mem_cons, List.mem_singleton,
    List.not_mem_nil, or_false] at hf
  rcases hf with rfl | rfl | rfl | rfl | rfl | rfl | rfl | rfl | rfl | rfl | rfl | rfl | rfl
    | rfl | rfl
  · rintro rfl; exact hc hcf
  all_goals first
    | exact put_uint_no_comma _ c hcf
    | exact put_float_no_comma _ c hcf

theorem record_fields_ne_nil (s : TransferStats) (hne : s.m_name.data ≠ []) :
    ∀ f ∈ s.record_fields, f ≠ [] := by
  intro f hf
  simp only [TransferStats.record_fields, List.mem_cons, List.mem_singleton,
    List.not_mem_nil, or_false] at hf
  rcases hf with rfl | rfl | rfl | rfl | rfl | rfl | rfl | rfl | rfl | rfl | rfl | rfl | rfl
    | rfl | rfl
  · exact hne
  all_goals first
    | exact put_uint_ne_nil _
    | exact put_float_ne_nil _

theorem fields_serialize (s : TransferStats) (hc : ',' ∉ s.m_name.data) :
    fields s.serialize.data = s.record_fields :=
  fields_join_fields _ (by simp [TransferStats.record_fields]) (record_fields_no_comma s hc)

theorem tokenize_serialize (s : TransferStats) (hne : s.m_name.data ≠ [])
    (hc : ',' ∉ s.m_name.data) : tokenize s.serialize.data = s.record_fields := by
  rw [tokenize_of_nonempty_fields, fields_serialize s hc]
  rw [fields_serialize s hc]
  exact record_fields_ne_nil s hne

/-- C4: for a non-empty name without a comma, `serialize()` is exactly fifteen
comma-separated fields, in the order name, sequences, blocks_in, bytes_in,
block_errors, sequence_errors, send_bytes, send_blocks, inject_errors,
queue_size, encode_time, send_time, pkt_time, latency, rssi; a counter is
written as a non-empty run of decimal digits whose value is the counter; after
`add_send_stats(1000, 5, 0, 2, false, 0.001)` on the fresh aggregator "link0"
the record begins with "link0,0,0,0,0,0,1000,5,0,". -/
theorem serialize_layout (s : TransferStats) (hne : s.m_name.data ≠ [])
    (hc : ',' ∉ s.m_name.data) :
    s.serialize.data = join_fields (fields s.serialize.data) ∧
    (fields s.serialize.data).length = 15 ∧
    fields s.serialize.data =
      [ s.m_name.data, put_uint s.m_seq, put_uint s.m_blocks, put_uint s.m_bytes,
        put_uint s.m_block_errors, put_uint s.m_seq_errors, put_uint s.m_send_bytes,
        put_uint s.m_send_blocks, put_uint s.m_inject_errors, put_float s.m_queue_size,
        put_float s.m_enc_time, put_float s.m_send_time, put_float s.m_pkt_time,
        put_float s.m_latency, put_float s.m_rssi ] ∧
    tokenize s.serialize.data = fields s.serialize.data ∧
    (∀ n : Nat, put_uint n ≠ [] ∧ (∀ c ∈ put_uint n, c.isDigit = true) ∧
      digits_value (put_uint n) = n) ∧
    (∀ x : Flt, put_float x ≠ [] ∧ ∀ c ∈ put_float x, c ≠ ',') ∧
    ∃ rest : List Char,
      ((TransferStats.ctor "link0").add_send_stats 1000 5 0 2 false 0.001).serialize.data
        = "link0,0,0,0,0,0,1000,5,0,".data ++ rest := by
  refine ⟨?_, ?_, ?_, ?_, ?_, ?_, ?_⟩
  · rw [fields_serialize s hc]; rfl
  · rw [fields_serialize s hc]; rfl
  · rw [fields_serialize s hc]; rfl
  · rw [tokenize_serialize s hne hc, fields_serialize s hc]
  · exact fun n => ⟨put_uint_ne_nil n, put_uint_isDigit n, digits_value_put_uint n⟩
  · exact fun x => ⟨put_float_ne_nil x, put_float_no_comma x⟩
  · exact ⟨"1.96,0,0,980,0,0".data, by decide!⟩

/-- Witness of C4: the record of the fresh aggregator "link0". -/
theorem serialize_layout_witness :
    (TransferStats.ctor "link0").m_name.data ≠ [] ∧
    ',' ∉ (TransferStats.ctor "link0").m_name.data ∧
    (fields (TransferStats.ctor "link0").serialize.data).length = 15 :=
  ⟨by decide, by decide,
    (serialize_layout (TransferStats.ctor "link0") (by decide) (by decide)).2.1⟩

/-! ## Running the assignments of `update` -/

theorem run_nil (toks : List (List Char)) (s : TransferStats) :
    run_assignments [] toks s = ⟨.ok, s⟩ := by
  cases toks <;> rfl

theorem run_cons_some {a : Assignment} {as : List Assignment}
    {t : List Char} {ts : List (List Char)} {s s1 : TransferStats} (h : a t s = some s1) :
    run_assignments (a :: as) (t :: ts) s = run_assignments as ts s1 := by
  simp [run_assignments, h]

theorem run_cons_none {a : Assignment} {as : List Assignment}
    {t : List Char} {ts : List (List Char)} {s : TransferStats} (h : a t s = none) :
    run_assignments (a :: as) (t :: ts) s = ⟨.bad_lexical_cast, s⟩ := by
  simp [run_assignments, h]

/-- Only the first `as.length` tokens are read. -/
theorem run_take (as : List Assignment) :
    ∀ (toks : List (List Char)) (s : TransferStats),
      run_assignments as (toks.take as.length) s = run_assignments as toks s := by
  induction as with
  | nil => intro toks s; rw [run_nil, run_nil]
  | cons a as ih =>
    intro toks s
    cases toks with
    | nil => rfl
    | cons t ts =>
      simp only [List.length_cons, List.take_succ_cons]
      cases h : a t s with
      | none => rw [run_cons_none h, run_cons_none h]
      | some s1 => rw [run_cons_some h, run_cons_some h, ih]

/-- When tokens run out before the assignments do, the run does not end
normally. -/
theorem run_short (as : List Assignment) :
    ∀ (toks : List (List Char)) (s : TransferStats), toks.length < as.length →
      (run_assignments as toks s).outcome ≠ .ok := by
  induction as with
  | nil => intro toks s h; simp at h
  | cons a as ih =>
    intro toks s hlen
    cases toks with
    | nil => simp [run_assignments]
    | cons t ts =>
      cases h : a t s with
      | none => rw [run_cons_none h]; simp
      | some s1 =>
        rw [run_cons_some h]
        exact ih ts s1 (by simpa using hlen)

/-- A token rejected by its assignment, whatever the state, ends the run in
`bad_lexical_cast`. -/
theorem run_rejected (as : List Assignment) :
    ∀ (toks : List (List Char)) (s : TransferStats) (i : Nat) (hi : i < as.length)
      (ht : i < toks.length),
      (∀ s1, (as.get ⟨i, hi⟩) (toks.get ⟨i, ht⟩) s1 = none) →
      (run_assignments as toks s).outcome = .bad_lexical_cast := by
  induction as with
  | nil => intro toks s i hi; simp at hi
  | cons a as ih =>
    intro toks s i hi ht hrej
    cases toks with
    | nil => simp at ht
    | cons t ts =>
      cases h : a t s with
      | none => rw [run_cons_none h]
      | some s1 =>
        rw [run_cons_some h]
        cases i with
        | zero =>
          have := hrej s
          simp only [List.get_eq_getElem, List.getElem_cons_zero] at this
          rw [h] at this
          exact absurd this (by simp)
        | succ j =>
          exact ih ts s1 j (by simpa using hi) (by simpa using ht)
            (by simpa using hrej)

/-- Tokens each accepted by their assignment, whatever the state, let the run
end normally. -/
theorem run_accepted (as : List Assignment) :
    ∀ (toks : List (List Char)) (s : TransferStats) (hlen : as.length ≤ toks.length),
      (∀ (i : Nat) (hi : i < as.length) (s1 : TransferStats),
        (as.get ⟨i, hi⟩) (toks.get ⟨i, lt_of_lt_of_le hi hlen⟩) s1 ≠ none) →
      (run_assignments as toks s).outcome = .ok := by
  induction as with
  | nil => intro toks s _ _; rw [run_nil]
  | cons a as ih =>
    intro toks s hlen hacc
    cases toks with
    | nil => simp at hlen
    | cons t ts =>
      cases h : a t s with
      | none =>
        have := hacc 0 (by simp) s
        simp only [List.get_eq_getElem, List.getElem_cons_zero] at this
        exact absurd h this
      | some s1 =>
        rw [run_cons_some h]
        refine ih ts s1 (by simpa using hlen) ?_
        intro i hi s2
        have := hacc (i + 1) (by simpa using hi) s2
        simpa using this

/-- Whether the `i`-th assignment of `update` accepts a token: the name always,
the counters by `lexical_cast<uint32_t>`, the smoothed values by
`lexical_cast<float>`. -/
theorem update_assignment_accepts (i : Nat) (hi : i < update_assignments.length)
    (t : List Char) (s : TransferStats) :
    (update_assignments.get ⟨i, hi⟩) t s = none ↔
      (1 ≤ i ∧ i ≤ 8 ∧ lexical_cast_uint32 t = none) ∨
      (9 ≤ i ∧ i ≤ 14 ∧ lexical_cast_float t = none) := by
  have h15 : i < 15 := hi
  interval_cases i <;> simp [update_assignments, List.get]

/-- Fewer than fifteen tokens: `update` does not end normally. -/
theorem update_short (toks : List (List Char)) (s : TransferStats)
    (h : toks.length < 15) :
    (run_assignments update_assignments toks s).outcome ≠ .ok :=
  run_short update_assignments toks s h

theorem update_run_explicit (s : TransferStats)
    (t0 t1 t2 t3 t4 t5 t6 t7 t8 t9 t10 t11 t12 t13 t14 : List Char) (rest : List (List Char))
    (v1 v2 v3 v4 v5 v6 v7 v8 : Nat) (f9 f10 f11 f12 f13 f14 : Flt)
    (h1 : lexical_cast_uint32 t1 = some v1) (h2 : lexical_cast_uint32 t2 = some v2)
    (h3 : lexical_cast_uint32 t3 = some v3) (h4 : lexical_cast_uint32 t4 = some v4)
    (h5 : lexical_cast_uint32 t5 = some v5) (h6 : lexical_cast_uint32 t6 = some v6)
    (h7 : lexical_cast_uint32 t7 = some v7) (h8 : lexical_cast_uint32 t8 = some v8)
    (h9 : lexical_cast_float t9 = some f9) (h10 : lexical_cast_float t10 = some f10)
    (h11 : lexical_cast_float t11 = some f11) (h12 : lexical_cast_float t12 = some f12)
    (h13 : lexical_cast_float t13 = some f13) (h14 : lexical_cast_float t14 = some f14) :
    run_assignments update_assignments
        (t0 :: t1 :: t2 :: t3 :: t4 :: t5 :: t6 :: t7 :: t8 :: t9 :: t10 :: t11 :: t12 :: t13
          :: t14 :: rest) s
      = ⟨.ok, { m_name := String.mk t0, m_seq := v1, m_blocks := v2, m_bytes := v3,
                m_block_errors := v4, m_seq_errors := v5, m_send_bytes := v6,
                m_send_blocks := v7, m_inject_errors := v8, m_flushes := s.m_flushes,
                m_queue_size := f9, m_enc_time := f10, m_send_time := f11, m_pkt_time := f12,
                m_latency := f13, m_rssi := f14 }⟩ := by
  simp [run_assignments, update_assignments, h1, h2, h3, h4, h5, h6, h7, h8, h9, h10, h11,
    h12, h13, h14]

theorem getD_eq_get (toks : List (List Char)) (i : Nat) (h : i < toks.length) :
    toks.getD i [] = toks.get ⟨i, h⟩ := by
  simp [List.getD_eq_getElem?_getD, List.getElem?_eq_getElem h]

theorem update_ok_iff (toks : List (List Char)) (s : TransferStats) :
    (run_assignments update_assignments toks s).outcome = .ok ↔
      15 ≤ toks.length ∧ numeric_tokens_valid toks := by
  constructor
  · intro hok
    have hlen : 15 ≤ toks.length := by
      by_contra hc
      exact update_short toks s (by omega) hok
    refine ⟨hlen, ?_, ?_⟩
    · intro i h1 h8 hnone
      have hi : i < update_assignments.length := by
        show i < 15
        omega
      have ht : i < toks.length := by omega
      have := run_rejected update_assignments toks s i hi ht (fun s1 => by
        rw [update_assignment_accepts]
        left
        exact ⟨h1, h8, by rw [← getD_eq_get toks i ht]; exact hnone⟩)
      rw [hok] at this
      exact absurd this (by decide)
    · intro i h9 h14 hnone
      have hi : i < update_assignments.length := by
        show i < 15
        omega
      have ht : i < toks.length := by omega
      have := run_rejected update_assignments toks s i hi ht (fun s1 => by
        rw [update_assignment_accepts]
        right
        exact ⟨h9, h14, by rw [← getD_eq_get toks i ht]; exact hnone⟩)
      rw [hok] at this
      exact absurd this (by decide)
  · rintro ⟨hlen, hu, hf⟩
    refine run_accepted update_assignments toks s hlen ?_
    intro i hi s1 hnone
    rw [update_assignment_accepts] at hnone
    have ht : i < toks.length := lt_of_lt_of_le hi hlen
    rcases hnone with ⟨h1, h8, hn⟩ | ⟨h9, h14, hn⟩
    · exact hu i h1 h8 (by rw [getD_eq_get toks i ht]; exact hn)
    · exact hf i h9 h14 (by rw [getD_eq_get toks i ht]; exact hn)

theorem update_ok_state (toks : List (List Char)) (s : TransferStats)
    (hok : (run_assignments update_assignments toks s).outcome = .ok) :
    (run_assignments update_assignments toks s).state = record_state toks s.m_flushes := by
  obtain ⟨hlen, hu, hf⟩ := (update_ok_iff toks s).mp hok
  obtain ⟨t0, t1, t2, t3, t4, t5, t6, t7, t8, t9, t10, t11, t12, t13, t14, rest, htoks⟩ :
      ∃ t0 t1 t2 t3 t4 t5 t6 t7 t8 t9 t10 t11 t12 t13 t14 rest,
        toks = t0 :: t1 :: t2 :: t3 :: t4 :: t5 :: t6 :: t7 :: t8 :: t9 :: t10 :: t11 :: t12
          :: t13 :: t14 :: rest := by
    rcases toks with _ | ⟨t0, _ | ⟨t1, _ | ⟨t2, _ | ⟨t3, _ | ⟨t4, _ | ⟨t5, _ | ⟨t6, _ | ⟨t7,
      _ | ⟨t8, _ | ⟨t9, _ | ⟨t10, _ | ⟨t11, _ | ⟨t12, _ | ⟨t13, _ | ⟨t14, rest⟩⟩⟩⟩⟩⟩⟩⟩⟩⟩⟩⟩⟩⟩⟩
    all_goals first
      | (simp at hlen; done)
      | (simp only [List.length_cons, List.length_nil] at hlen; omega)
      | exact ⟨_, _, _, _, _, _, _, _, _, _, _, _, _, _, _, _, rfl⟩
  obtain ⟨v1, h1⟩ := Option.ne_none_iff_exists'.mp (hu 1 (by omega) (by omega))
  obtain ⟨v2, h2⟩ := Option.ne_none_iff_exists'.mp (hu 2 (by omega) (by omega))
  obtain ⟨v3, h3⟩ := Option.ne_none_iff_exists'.mp (hu 3 (by omega) (by omega))
  obtain ⟨v4, h4⟩ := Option.ne_none_iff_exists'.mp (hu 4 (by omega) (by omega))
  obtain ⟨v5, h5⟩ := Option.ne_none_iff_exists'.mp (hu 5 (by omega) (by omega))
  obtain ⟨v6, h6⟩ := Option.ne_none_iff_exists'.mp (hu 6 (by omega) (by omega))
  obtain ⟨v7, h7⟩ := Option.ne_none_iff_exists'.mp (hu 7 (by omega) (by omega))
  obtain ⟨v8, h8⟩ := Option.ne_none_iff_exists'.mp (hu 8 (by omega) (by omega))
  obtain ⟨f9, h9⟩ := Option.ne_none_iff_exists'.mp (hf 9 (by omega) (by omega))
  obtain ⟨f10, h10⟩ := Option.ne_none_iff_exists'.mp (hf 10 (by omega) (by omega))
  obtain ⟨f11, h11⟩ := Option.ne_none_iff_exists'.mp (hf 11 (by omega) (by omega))
  obtain ⟨f12, h12⟩ := Option.ne_none_iff_exists'.mp (hf 12 (by omega) (by omega))
  obtain ⟨f13, h13⟩ := Option.ne_none_iff_exists'.mp (hf 13 (by omega) (by omega))
  obtain ⟨f14, h14⟩ := Option.ne_none_iff_exists'.mp (hf 14 (by omega) (by omega))
  have h0 : toks.getD 0 [] = t0 := by rw [htoks]; rfl
  have e : run_assignments update_assignments toks s
      = ⟨.ok, { m_name := String.mk t0, m_seq := v1, m_blocks := v2, m_bytes := v3,
                m_block_errors := v4, m_seq_errors := v5, m_send_bytes := v6,
                m_send_blocks := v7, m_inject_errors := v8, m_flushes := s.m_flushes,
                m_queue_size := f9, m_enc_time := f10, m_send_time := f11, m_pkt_time := f12,
                m_latency := f13, m_rssi := f14 }⟩ := by
    rw [htoks] at h1 h2 h3 h4 h5 h6 h7 h8 h9 h10 h11 h12 h13 h14 ⊢
    exact update_run_explicit s t0 t1 t2 t3 t4 t5 t6 t7 t8 t9 t10 t11 t12 t13 t14 rest
      v1 v2 v3 v4 v5 v6 v7 v8 f9 f10 f11 f12 f13 f14 h1 h2 h3 h4 h5 h6 h7 h8 h9 h10 h11 h12
      h13 h14
  rw [e]
  simp only [record_state, h0, h1, h2, h3, h4, h5, h6, h7, h8, h9, h10, h11, h12, h13, h14,
    Option.getD_some]

/-! ## Records accepted and rejected by `update` -/

/-- C5, as stated, fails: a record of sixteen fields, one extra after the rssi
field, is accepted. -/
theorem update_accepts_extra_field :
    (fields "link0,0,0,0,0,0,1000,5,0,1.96,0,0,980,0,0,extra".data).length = 16 ∧
    ((TransferStats.ctor "x").update
      "link0,0,0,0,0,0,1000,5,0,1.96,0,0,980,0,0,extra").outcome = .ok := by
  refine ⟨by decide, by decide!⟩

/-- C5, amended: `update(record)` does not end normally when the record has fewer
than fifteen non-empty comma-separated fields, a fortiori fewer than fifteen
fields: it throws `bad_lexical_cast` at a rejected field or reads the exhausted
token iterator; whatever follows the fifteenth non-empty field is not read, so
extra fields do not make it fail. -/
theorem update_field_count (s : TransferStats) (record : String) :
    ((tokenize record.data).length < 15 →
      (s.update record).outcome = .bad_lexical_cast ∨
      (s.update record).outcome = .past_the_end) ∧
    ((fields record.data).length < 15 →
      (s.update record).outcome = .bad_lexical_cast ∨
      (s.update record).outcome = .past_the_end) ∧
    (∀ other : String, (tokenize other.data).take 15 = (tokenize record.data).take 15 →
      s.update other = s.update record) := by
  have hcases : ∀ o : Outcome, o ≠ .ok → o = .bad_lexical_cast ∨ o = .past_the_end := by
    intro o ho
    cases o with
    | ok => exact absurd rfl ho
    | bad_lexical_cast => exact Or.inl rfl
    | past_the_end => exact Or.inr rfl
  refine ⟨?_, ?_, ?_⟩
  · intro h
    exact hcases _ (update_short _ s h)
  · intro h
    exact hcases _ (update_short _ s (lt_of_le_of_lt (tokenize_length_le _) h))
  · intro other h
    have h15 : update_assignments.length = 15 := rfl
    unfold TransferStats.update
    rw [← run_take update_assignments (tokenize other.data),
      ← run_take update_assignments (tokenize record.data), h15, h]

/-- Witness of the amended C5: a record of two fields. -/
theorem update_field_count_witness :
    (tokenize "link0,7".data).length < 15 ∧
    (((TransferStats.ctor "x").update "link0,7").outcome = .bad_lexical_cast ∨
      ((TransferStats.ctor "x").update "link0,7").outcome = .past_the_end) :=
  ⟨by decide, (update_field_count (TransferStats.ctor "x") "link0,7").1 (by decide)⟩

/-- For a record of exactly fifteen non-empty comma-separated fields, `update`
throws `bad_lexical_cast` if one of fields 2 to 9 is rejected by
`lexical_cast<uint32_t>` or one of fields 10 to 15 is rejected by
`lexical_cast<float>`, and ends normally otherwise (fields are indexed from 0
below, the name being field 0). -/
theorem update_fails_iff_cast_rejects (s : TransferStats) (record : String)
    (hlen : (fields record.data).length = 15) (hne : ∀ f ∈ fields record.data, f ≠ []) :
    (((∃ i, 1 ≤ i ∧ i ≤ 8 ∧ lexical_cast_uint32 ((fields record.data).getD i []) = none) ∨
      (∃ i, 9 ≤ i ∧ i ≤ 14 ∧ lexical_cast_float ((fields record.data).getD i []) = none)) →
      (s.update record).outcome = .bad_lexical_cast) ∧
    (¬ ((∃ i, 1 ≤ i ∧ i ≤ 8 ∧ lexical_cast_uint32 ((fields record.data).getD i []) = none) ∨
      (∃ i, 9 ≤ i ∧ i ≤ 14 ∧ lexical_cast_float ((fields record.data).getD i []) = none)) →
      (s.update record).outcome = .ok) := by
  have htok : tokenize record.data = fields record.data :=
    tokenize_of_nonempty_fields _ hne
  unfold TransferStats.update
  rw [htok]
  constructor
  · rintro (⟨i, h1, h8, hn⟩ | ⟨i, h9, h14, hn⟩)
    · have hi : i < update_assignments.length := by
        show i < 15
        omega
      have ht : i < (fields record.data).length := by omega
      exact run_rejected update_assignments _ s i hi ht (fun s1 => by
        rw [update_assignment_accepts]
        left
        exact ⟨h1, h8, by rw [← getD_eq_get _ i ht]; exact hn⟩)
    · have hi : i < update_assignments.length := by
        show i < 15
        omega
      have ht : i < (fields record.data).length := by omega
      exact run_rejected update_assignments _ s i hi ht (fun s1 => by
        rw [update_assignment_accepts]
        right
        exact ⟨h9, h14, by rw [← getD_eq_get _ i ht]; exact hn⟩)
  · intro hno
    rw [update_ok_iff]
    refine ⟨by omega, ?_, ?_⟩
    · intro i h1 h8 hn
      exact hno (Or.inl ⟨i, h1, h8, hn⟩)
    · intro i h9 h14 hn
      exact hno (Or.inr ⟨i, h9, h14, hn⟩)

/-- C7, as stated, fails: the same well-formed record applied to the fresh
aggregator and to one that has counted a flush leaves two different values of
`flush_count`. -/
theorem update_keeps_flush_count :
    ((TransferStats.ctor "a").update
      "link0,0,0,0,0,0,1000,5,0,1.96,0,0,980,0,0").outcome = .ok ∧
    (((TransferStats.ctor "a").add_send_stats 0 0 0 0 true 0).update
      "link0,0,0,0,0,0,1000,5,0,1.96,0,0,980,0,0").outcome = .ok ∧
    ((TransferStats.ctor "a").update
      "link0,0,0,0,0,0,1000,5,0,1.96,0,0,980,0,0").state.m_flushes = 0 ∧
    (((TransferStats.ctor "a").add_send_stats 0 0 0 0 true 0).update
      "link0,0,0,0,0,0,1000,5,0,1.96,0,0,980,0,0").state.m_flushes = 1 := by
  refine ⟨by decide!, by decide!, by decide!, by decide!⟩

/-- C7, amended: for a record whose first fifteen tokens are well formed and any
two prior states, `update` ends normally on both and leaves them equal in the
name, the eight serialized counters and the six smoothed values; `flush_count`
keeps the value it had before the call. -/
theorem update_overwrites_serialized_members (record : String)
    (s1 s2 : TransferStats)
    (hwf : 15 ≤ (tokenize record.data).length ∧ numeric_tokens_valid (tokenize record.data)) :
    (s1.update record).outcome = .ok ∧
    (s2.update record).outcome = .ok ∧
    (s2.update record).state
      = { (s1.update record).state with m_flushes := s2.m_flushes } ∧
    (s1.update record).state.m_flushes = s1.m_flushes ∧
    (s2.update record).state.m_flushes = s2.m_flushes := by
  have ok1 := (update_ok_iff (tokenize record.data) s1).mpr hwf
  have ok2 := (update_ok_iff (tokenize record.data) s2).mpr hwf
  have st1 := update_ok_state _ s1 ok1
  have st2 := update_ok_state _ s2 ok2
  unfold TransferStats.update
  refine ⟨ok1, ok2, ?_, ?_, ?_⟩
  · rw [st1, st2]; rfl
  · rw [st1]; rfl
  · rw [st2]; rfl

/-- Witness of the amended C7: the record of the concrete scenario. -/
theorem update_overwrites_serialized_members_witness :
    (15 ≤ (tokenize "link0,0,0,0,0,0,1000,5,0,1.96,0,0,980,0,0".data).length ∧
      numeric_tokens_valid (tokenize "link0,0,0,0,0,0,1000,5,0,1.96,0,0,980,0,0".data)) ∧
    ((TransferStats.ctor "b").update "link0,0,0,0,0,0,1000,5,0,1.96,0,0,980,0,0").state
      = { ((TransferStats.ctor "a").update
            "link0,0,0,0,0,0,1000,5,0,1.96,0,0,980,0,0").state with
          m_flushes := (TransferStats.ctor "b").m_flushes } :=
  have hwf : 15 ≤ (tokenize "link0,0,0,0,0,0,1000,5,0,1.96,0,0,980,0,0".data).length ∧
      numeric_tokens_valid (tokenize "link0,0,0,0,0,0,1000,5,0,1.96,0,0,980,0,0".data) :=
    (update_ok_iff _ (TransferStats.ctor "a")).mp (by decide!)
  ⟨hwf, (update_overwrites_serialized_members
    "link0,0,0,0,0,0,1000,5,0,1.96,0,0,980,0,0" (TransferStats.ctor "a")
    (TransferStats.ctor "b") hwf).2.2.1⟩

/-! ## Reading back a written float: text -/

theorem digits_value_cons (c : Char) (ds : List Char) :
    digits_value (c :: ds) = digit_value c * 10 ^ ds.length + digits_value ds := by
  induction ds using List.reverseRecOn generalizing c with
  | nil => simp [digits_value]
  | append_singleton ds d ih =>
    rw [← List.cons_append, digits_value_append, digits_value_append, ih]
    simp only [List.length_append, List.length_singleton, pow_succ]
    ring

theorem digits_value_app (a b : List Char) :
    digits_value (a ++ b) = digits_value a * 10 ^ b.length + digits_value b := by
  induction a with
  | nil => simp [digits_value]
  | cons c cs ih =>
    rw [List.cons_append, digits_value_cons, digits_value_cons, ih]
    simp only [List.length_append, pow_add]
    ring

theorem digits_value_zeros (z : Nat) : digits_value (List.replicate z '0') = 0 := by
  induction z with
  | zero => rfl
  | succ z ih =>
    rw [List.replicate_succ, digits_value_cons, ih]
    simp [digit_value]

theorem digits_value_append_zeros (a : List Char) (z : Nat) :
    digits_value (a ++ List.replicate z '0') = digits_value a * 10 ^ z := by
  rw [digits_value_app, digits_value_zeros, List.length_replicate, Nat.add_zero]

theorem digits_value_zeros_append (z : Nat) (a : List Char) :
    digits_value (List.replicate z '0' ++ a) = digits_value a := by
  rw [digits_value_app, digits_value_zeros, Nat.zero_mul, Nat.zero_add]

/-- Trailing zeros removed and put back. -/
theorem strip_zeros_spec (ds : List Char) :
    ∃ z, ds = strip_zeros ds ++ List.replicate z '0' := by
  induction ds using List.reverseRecOn with
  | nil => exact ⟨0, rfl⟩
  | append_singleton ds d ih =>
    by_cases hd : d = '0'
    · obtain ⟨z, hz⟩ := ih
      refine ⟨z + 1, ?_⟩
      have : strip_zeros (ds ++ [d]) = strip_zeros ds := by
        simp [strip_zeros, List.dropWhile, hd]
      rw [this, hd, List.replicate_succ']
      rw [← List.append_assoc, ← hz]
    · refine ⟨0, ?_⟩
      simp [strip_zeros, List.dropWhile, hd]

theorem strip_zeros_all_digits {ds : List Char} (h : ∀ c ∈ ds, c.isDigit = true) :
    ∀ c ∈ strip_zeros ds, c.isDigit = true :=
  fun c hc => h c (mem_strip_zeros hc)

theorem takeWhile_digits_append (ds rest : List Char) (h : ∀ c ∈ ds, c.isDigit = true)
    (hr : rest = [] ∨ ∃ c cs, rest = c :: cs ∧ c.isDigit = false) :
    (ds ++ rest).takeWhile Char.isDigit = ds ∧ (ds ++ rest).dropWhile Char.isDigit = rest := by
  induction ds with
  | nil =>
    rcases hr with rfl | ⟨c, cs, rfl, hc⟩
    · simp
    · simp [List.takeWhile, List.dropWhile, hc]
  | cons d ds ih =>
    have hd : d.isDigit = true := h d (List.mem_cons_self _ _)
    obtain ⟨i1, i2⟩ := ih (fun c hc => h c (List.mem_cons_of_mem _ hc))
    simp [List.takeWhile, List.dropWhile, hd, i1, i2]

theorem take_sign_digit {c : Char} (cs : List Char) (h : c.isDigit = true) :
    take_sign (c :: cs) = (false, c :: cs) := by
  have hm : c ≠ '-' := by rintro rfl; exact absurd h (by decide)
  have hp : c ≠ '+' := by rintro rfl; exact absurd h (by decide)
  simp [take_sign, hm, hp]

theorem read_exp_put_exp (X : Int) : read_exp (put_exp X) = some X := by
  have hd : ∀ c ∈ put_uint X.natAbs, c.isDigit = true := put_uint_isDigit _
  have hv := digits_value_put_uint X.natAbs
  have hne := put_uint_ne_nil X.natAbs
  have hall : (put_uint X.natAbs).all Char.isDigit = true := by
    rw [List.all_eq_true]; exact hd
  by_cases hneg : X < 0
  · have hX : -|X| = X := by rw [abs_of_neg hneg]; ring
    by_cases h10 : X.natAbs < 10
    · have hv0 : digits_value ('0' :: put_uint X.natAbs) = X.natAbs := by
        rw [digits_value_cons, hv]; simp [digit_value]
      simp [put_exp, read_exp, hneg, h10, take_sign, hall, hv0, hX]
    · simp [put_exp, read_exp, hneg, h10, take_sign, hall, hv, hne, hX]
  · have hX : |X| = X := abs_of_nonneg (by omega)
    by_cases h10 : X.natAbs < 10
    · have hv0 : digits_value ('0' :: put_uint X.natAbs) = X.natAbs := by
        rw [digits_value_cons, hv]; simp [digit_value]
      simp [put_exp, read_exp, hneg, h10, take_sign, hall, hv0, hX]
    · simp [put_exp, read_exp, hneg, h10, take_sign, hall, hv, hne, hX]

theorem read_decimal_layout (neg : Bool) (ip fp ex : List Char) (E : Int)
    (hip : ip ≠ []) (hipd : ∀ c ∈ ip, c.isDigit = true) (hfpd : ∀ c ∈ fp, c.isDigit = true)
    (hex : (ex = [] ∧ E = 0) ∨ ex = put_exp E) :
    read_decimal ((if neg then ['-'] else []) ++
        (ip ++ (if fp = [] then [] else '.' :: fp) ++ ex))
      = some (if neg then -((digits_value (ip ++ fp) : ℚ) * (10 : ℚ) ^ (E - (fp.length : Int)))
          else (digits_value (ip ++ fp) : ℚ) * (10 : ℚ) ^ (E - (fp.length : Int))) := by
  obtain ⟨c0, ip', rfl⟩ : ∃ c0 ip', ip = c0 :: ip' := by
    cases ip with
    | nil => exact absurd rfl hip
    | cons c cs => exact ⟨c, cs, rfl⟩
  have hc0 : c0.isDigit = true := hipd c0 (List.mem_cons_self _ _)
  -- the sign
  have hsign : take_sign ((if neg then ['-'] else []) ++
        (c0 :: ip' ++ (if fp = [] then [] else '.' :: fp) ++ ex))
      = (neg, c0 :: ip' ++ (if fp = [] then [] else '.' :: fp) ++ ex) := by
    cases neg with
    | true => simp [take_sign]
    | false =>
      simp only [Bool.false_eq_true, if_false, List.nil_append, List.cons_append]
      exact take_sign_digit _ hc0
  -- the exponent
  have hexp : read_exp ex = some E := by
    rcases hex with ⟨rfl, rfl⟩ | rfl
    · rfl
    · exact read_exp_put_exp E
  have hexhead : ex = [] ∨ ∃ c cs, ex = c :: cs ∧ c.isDigit = false ∧ c ≠ '.' := by
    rcases hex with ⟨rfl, -⟩ | rfl
    · exact Or.inl rfl
    · exact Or.inr ⟨'e', _, rfl, by decide, by decide⟩
  unfold read_decimal
  rw [hsign]
  simp only
  by_cases hfp : fp = []
  · subst hfp
    simp only [if_true, List.append_nil]
    have hr : ex = [] ∨ ∃ c cs, ex = c :: cs ∧ c.isDigit = false := by
      rcases hexhead with h | ⟨c, cs, h1, h2, -⟩
      · exact Or.inl h
      · exact Or.inr ⟨c, cs, h1, h2⟩
    obtain ⟨t1, t2⟩ := takeWhile_digits_append (c0 :: ip') ex hipd hr
    rw [t1, t2]
    rcases hexhead with rfl | ⟨c, cs, rfl, -, hdot⟩
    · have hE : E = 0 := by
        have h0 : read_exp [] = some (0 : Int) := rfl
        rw [h0] at hexp
        exact (Option.some.inj hexp).symm
      subst hE
      simp [read_exp]
    · simp only [hdot, if_false, hexp]
      simp
  · simp only [hfp, if_false]
    have hr : ('.' :: fp ++ ex) = [] ∨ ∃ c cs, ('.' :: fp ++ ex) = c :: cs ∧ c.isDigit = false :=
      Or.inr ⟨'.', _, rfl, by decide⟩
    have e1 : c0 :: ip' ++ '.' :: fp ++ ex = (c0 :: ip') ++ ('.' :: fp ++ ex) := by simp
    obtain ⟨t1, t2⟩ := takeWhile_digits_append (c0 :: ip') ('.' :: fp ++ ex) hipd hr
    rw [e1, t1, t2]
    have hr2 : ex = [] ∨ ∃ c cs, ex = c :: cs ∧ c.isDigit = false := by
      rcases hexhead with h | ⟨c, cs, h1, h2, -⟩
      · exact Or.inl h
      · exact Or.inr ⟨c, cs, h1, h2⟩
    obtain ⟨u1, u2⟩ := takeWhile_digits_append fp ex hfpd hr2
    simp only [List.cons_append, if_true, u1, u2, hexp]
    simp [hfp]

theorem scale_shift (dv m z : Nat) (A B : Int) (h : dv * 10 ^ z = m) (hAB : A = B + z) :
    (dv : ℚ) * (10 : ℚ) ^ A = (m : ℚ) * (10 : ℚ) ^ B := by
  have h10 : (10 : ℚ) ≠ 0 := by norm_num
  rw [← h, hAB]
  push_cast
  rw [mul_assoc, ← zpow_natCast, ← zpow_add₀ h10, add_comm]

theorem six_digits (m : Nat) (hlo : 100000 ≤ m) (hhi : m < 1000000) :
    (put_uint m).length = 6 :=
  put_uint_length_of_bounds m 5 (by simpa using hlo) (by simpa using hhi)

theorem strip_zeros_ne_nil {ds : List Char} (h : digits_value ds ≠ 0) : strip_zeros ds ≠ [] := by
  obtain ⟨z, hz⟩ := strip_zeros_spec ds
  intro hnil
  rw [hnil, List.nil_append] at hz
  rw [hz, digits_value_zeros] at h
  exact h rfl

theorem read_put_general (neg : Bool) (m : Nat) (X : Int) (hlo : 100000 ≤ m)
    (hhi : m < 1000000) :
    read_decimal ((if neg then ['-'] else []) ++ put_general m X)
      = some (if neg then -((m : ℚ) * (10 : ℚ) ^ (X - 5)) else (m : ℚ) * (10 : ℚ) ^ (X - 5)) := by
  have hlen := six_digits m hlo hhi
  have hdig : ∀ c ∈ put_uint m, c.isDigit = true := put_uint_isDigit m
  have hval := digits_value_put_uint m
  unfold put_general
  simp only
  by_cases hfix : -4 ≤ X ∧ X < 6
  · rw [if_pos hfix]
    by_cases hX : 0 ≤ X
    · rw [if_pos hX]
      obtain ⟨k, hk⟩ : ∃ k : Nat, X.toNat + 1 = k := ⟨_, rfl⟩
      have hk6 : k ≤ 6 := by omega
      have hk1 : 1 ≤ k := by omega
      rw [hk]
      obtain ⟨z, hz⟩ := strip_zeros_spec ((put_uint m).drop k)
      have hsplit : (put_uint m).take k ++ strip_zeros ((put_uint m).drop k)
          ++ List.replicate z '0' = put_uint m := by
        rw [List.append_assoc, ← hz, List.take_append_drop]
      have hdv : digits_value ((put_uint m).take k ++ strip_zeros ((put_uint m).drop k))
          * 10 ^ z = m := by
        rw [← digits_value_append_zeros, hsplit, hval]
      have hlens : (strip_zeros ((put_uint m).drop k)).length + z = 6 - k := by
        have := congrArg List.length hz
        rw [List.length_drop, List.length_append, List.length_replicate, hlen] at this
        omega
      have htake : (put_uint m).take k ≠ [] := by
        intro h
        have := congrArg List.length h
        rw [List.length_take, hlen] at this
        simp at this
        omega
      have key := read_decimal_layout neg ((put_uint m).take k)
        (strip_zeros ((put_uint m).drop k)) [] 0 htake
        (fun c hc => hdig c (List.mem_of_mem_take hc))
        (strip_zeros_all_digits (fun c hc => hdig c (List.mem_of_mem_drop hc)))
        (Or.inl ⟨rfl, rfl⟩)
      rw [List.append_nil] at key
      rw [key, scale_shift _ m z _ (X - 5) hdv (by omega)]
    · rw [if_neg hX]
      obtain ⟨z, hz⟩ := strip_zeros_spec (put_uint m)
      have hdv : digits_value (['0'] ++ (List.replicate (X.natAbs - 1) '0'
          ++ strip_zeros (put_uint m))) * 10 ^ z = m := by
        have e0 : ['0'] ++ (List.replicate (X.natAbs - 1) '0' ++ strip_zeros (put_uint m))
            = List.replicate (X.natAbs - 1 + 1) '0' ++ strip_zeros (put_uint m) := by
          rw [List.replicate_succ]; simp
        rw [e0, digits_value_zeros_append, ← digits_value_append_zeros, ← hz, hval]
      have hlens : (strip_zeros (put_uint m)).length + z = 6 := by
        have := congrArg List.length hz
        rw [List.length_append, List.length_replicate, hlen] at this
        omega
      have hsne : strip_zeros (put_uint m) ≠ [] :=
        strip_zeros_ne_nil (by rw [hval]; omega)
      have hfpne : List.replicate (X.natAbs - 1) '0' ++ strip_zeros (put_uint m) ≠ [] := by
        simp [hsne]
      have key := read_decimal_layout neg ['0']
        (List.replicate (X.natAbs - 1) '0' ++ strip_zeros (put_uint m)) [] 0 (by simp)
        (fun c hc => by rw [List.mem_singleton] at hc; rw [hc]; decide)
        (fun c hc => by
          rw [List.mem_append] at hc
          rcases hc with hc | hc
          · rw [List.mem_replicate] at hc; rw [hc.2]; decide
          · exact hdig c (mem_strip_zeros hc))
        (Or.inl ⟨rfl, rfl⟩)
      rw [if_neg hfpne, List.append_nil] at key
      have ebody : '0' :: '.' :: (List.replicate (X.natAbs - 1) '0' ++ strip_zeros (put_uint m))
          = ['0'] ++ '.' :: (List.replicate (X.natAbs - 1) '0' ++ strip_zeros (put_uint m)) :=
        rfl
      rw [ebody, key, scale_shift _ m z _ (X - 5) hdv (by
        simp only [List.length_append, List.length_replicate]
        push_cast
        omega)]
  · rw [if_neg hfix]
    obtain ⟨z, hz⟩ := strip_zeros_spec ((put_uint m).drop 1)
    have hsplit : (put_uint m).take 1 ++ strip_zeros ((put_uint m).drop 1)
        ++ List.replicate z '0' = put_uint m := by
      rw [List.append_assoc, ← hz, List.take_append_drop]
    have hdv : digits_value ((put_uint m).take 1 ++ strip_zeros ((put_uint m).drop 1))
        * 10 ^ z = m := by
      rw [← digits_value_append_zeros, hsplit, hval]
    have hlens : (strip_zeros ((put_uint m).drop 1)).length + z = 5 := by
      have := congrArg List.length hz
      rw [List.length_drop, List.length_append, List.length_replicate, hlen] at this
      omega
    have htake : (put_uint m).take 1 ≠ [] := by
      intro h
      have := congrArg List.length h
      rw [List.length_take, hlen] at this
      simp at this
    have key := read_decimal_layout neg ((put_uint m).take 1)
      (strip_zeros ((put_uint m).drop 1)) (put_exp X) X htake
      (fun c hc => hdig c (List.mem_of_mem_take hc))
      (strip_zeros_all_digits (fun c hc => hdig c (List.mem_of_mem_drop hc)))
      (Or.inr rfl)
    rw [key, scale_shift _ m z _ (X - 5) hdv (by omega)]

/-! ## Reading back a written float: values -/

theorem dec_exp_bounds (x : ℚ) (hx : 0 < x) :
    (10 : ℚ) ^ (dec_exp x) ≤ x ∧ x < (10 : ℚ) ^ (dec_exp x + 1) := by
  have h10 : (10 : ℚ) ≠ 0 := by norm_num
  have h10pos : (0 : ℚ) < 10 := by norm_num
  have hnum : 0 < x.num := Rat.num_pos.mpr hx
  have hn1 : 1 ≤ x.num.natAbs := by omega
  have hd1 : 1 ≤ x.den := x.den_pos
  obtain ⟨n1, n2⟩ := put_uint_length_bounds x.num.natAbs hn1
  obtain ⟨d1, d2⟩ := put_uint_length_bounds x.den hd1
  have hLn : 1 ≤ (put_uint x.num.natAbs).length := by
    have := put_uint_ne_nil x.num.natAbs
    cases hl : put_uint x.num.natAbs with
    | nil => exact absurd hl this
    | cons a l => simp
  have hLd : 1 ≤ (put_uint x.den).length := by
    have := put_uint_ne_nil x.den
    cases hl : put_uint x.den with
    | nil => exact absurd hl this
    | cons a l => simp
  set Ln := (put_uint x.num.natAbs).length with hLn_def
  set Ld := (put_uint x.den).length with hLd_def
  have hdpos : (0 : ℚ) < (x.den : ℚ) := by exact_mod_cast hd1
  have hxeq : x = (x.num.natAbs : ℚ) / (x.den : ℚ) := by
    have h1 : ((x.num.natAbs : ℕ) : ℚ) = (x.num : ℚ) := by
      rw [Nat.cast_natAbs, abs_of_pos hnum]
    rw [h1, Rat.num_div_den]
  -- casts of the digit-count bounds
  have qn1 : (10 : ℚ) ^ ((Ln : Int) - 1) ≤ (x.num.natAbs : ℚ) := by
    have : ((10 ^ (Ln - 1) : ℕ) : ℚ) ≤ (x.num.natAbs : ℚ) := by exact_mod_cast n1
    have e : ((Ln : Int) - 1) = ((Ln - 1 : ℕ) : Int) := by omega
    rw [e, zpow_natCast]
    exact_mod_cast this
  have qn2 : (x.num.natAbs : ℚ) < (10 : ℚ) ^ (Ln : Int) := by
    rw [zpow_natCast]
    exact_mod_cast n2
  have qd1 : (10 : ℚ) ^ ((Ld : Int) - 1) ≤ (x.den : ℚ) := by
    have : ((10 ^ (Ld - 1) : ℕ) : ℚ) ≤ (x.den : ℚ) := by exact_mod_cast d1
    have e : ((Ld : Int) - 1) = ((Ld - 1 : ℕ) : Int) := by omega
    rw [e, zpow_natCast]
    exact_mod_cast this
  have qd2 : (x.den : ℚ) < (10 : ℚ) ^ (Ld : Int) := by
    rw [zpow_natCast]
    exact_mod_cast d2
  -- the two-sided estimate around k = Ln - Ld
  have hup : x < (10 : ℚ) ^ ((Ln : Int) - Ld + 1) := by
    rw [hxeq, div_lt_iff₀ hdpos]
    calc (x.num.natAbs : ℚ) < (10 : ℚ) ^ (Ln : Int) := qn2
      _ = (10 : ℚ) ^ ((Ln : Int) - Ld + 1) * (10 : ℚ) ^ ((Ld : Int) - 1) := by
          rw [← zpow_add₀ h10]; congr 1; ring
      _ ≤ (10 : ℚ) ^ ((Ln : Int) - Ld + 1) * (x.den : ℚ) :=
          mul_le_mul_of_nonneg_left qd1 (le_of_lt (zpow_pos h10pos _))
  have hlow : (10 : ℚ) ^ ((Ln : Int) - Ld - 1) < x := by
    rw [hxeq, lt_div_iff₀ hdpos]
    calc (10 : ℚ) ^ ((Ln : Int) - Ld - 1) * (x.den : ℚ)
        < (10 : ℚ) ^ ((Ln : Int) - Ld - 1) * (10 : ℚ) ^ (Ld : Int) :=
          mul_lt_mul_of_pos_left qd2 (zpow_pos h10pos _)
      _ = (10 : ℚ) ^ ((Ln : Int) - 1) := by
          rw [← zpow_add₀ h10]; congr 1; ring
      _ ≤ (x.num.natAbs : ℚ) := qn1
  unfold dec_exp
  simp only
  rw [← hLn_def, ← hLd_def]
  by_cases hk : (10 : ℚ) ^ ((Ln : Int) - (Ld : Int)) ≤ x
  · rw [if_pos hk]
    exact ⟨hk, hup⟩
  · rw [if_neg hk]
    refine ⟨le_of_lt hlow, ?_⟩
    have : ((Ln : Int) - (Ld : Int) - 1 + 1) = (Ln : Int) - Ld := by ring
    rw [this]
    exact lt_of_not_le hk

theorem round_half_even_near (x : ℚ) (hx : 0 ≤ x) :
    |((round_half_even x : ℕ) : ℚ) - x| ≤ 1 / 2 := by
  have hfl : 0 ≤ ⌊x⌋ := Int.floor_nonneg.mpr hx
  have hf : ((⌊x⌋.toNat : ℕ) : ℚ) = (⌊x⌋ : ℚ) := by
    have : ((⌊x⌋.toNat : ℕ) : Int) = ⌊x⌋ := Int.toNat_of_nonneg hfl
    exact_mod_cast congrArg (fun z : Int => (z : ℚ)) this
  have h1 : (⌊x⌋ : ℚ) ≤ x := Int.floor_le x
  have h2 : x < (⌊x⌋ : ℚ) + 1 := Int.lt_floor_add_one x
  unfold round_half_even
  simp only
  split_ifs with c1 c2 c3
  · rw [hf, abs_le]; constructor <;> linarith
  · push_cast; rw [hf, abs_le]; constructor <;> linarith
  · rw [hf, abs_le]
    have : x - ⌊x⌋ = 1 / 2 := le_antisymm (not_lt.mp c2) (not_lt.mp c1)
    constructor <;> linarith
  · push_cast; rw [hf, abs_le]
    have : x - ⌊x⌋ = 1 / 2 := le_antisymm (not_lt.mp c2) (not_lt.mp c1)
    constructor <;> linarith

/-! ## Rounding to the nearest `float` -/

theorem log2_fuel_bounds (fuel n : Nat) (hf : n ≤ fuel) (hn : 1 ≤ n) :
    2 ^ (log2_fuel fuel n) ≤ n ∧ n < 2 ^ (log2_fuel fuel n + 1) := by
  induction fuel generalizing n with
  | zero => omega
  | succ fuel ih =>
    unfold log2_fuel
    by_cases h2 : n < 2
    · rw [if_pos h2]
      simp
      omega
    · rw [if_neg h2]
      obtain ⟨a, b⟩ := ih (n / 2) (by omega) (by omega)
      constructor
      · rw [pow_succ]
        omega
      · rw [pow_succ]
        omega

theorem floor_log2_bounds (n : Nat) (hn : 1 ≤ n) :
    2 ^ (floor_log2 n) ≤ n ∧ n < 2 ^ (floor_log2 n + 1) :=
  log2_fuel_bounds n n (le_refl n) hn

theorem bin_exp_bounds (x : ℚ) (hx : 0 < x) :
    (2 : ℚ) ^ (bin_exp x) ≤ x ∧ x < (2 : ℚ) ^ (bin_exp x + 1) := by
  have h2 : (2 : ℚ) ≠ 0 := by norm_num
  have h2pos : (0 : ℚ) < 2 := by norm_num
  have hnum : 0 < x.num := Rat.num_pos.mpr hx
  have hn1 : x.num.natAbs ≠ 0 := by omega
  have hd1 : x.den ≠ 0 := x.den_nz
  obtain ⟨n1, n2⟩ := floor_log2_bounds x.num.natAbs (by omega)
  obtain ⟨d1, d2⟩ := floor_log2_bounds x.den (by omega)
  set Ln := floor_log2 x.num.natAbs with hLn_def
  set Ld := floor_log2 x.den with hLd_def
  have hdpos : (0 : ℚ) < (x.den : ℚ) := by exact_mod_cast x.den_pos
  have hxeq : x = (x.num.natAbs : ℚ) / (x.den : ℚ) := by
    have h1 : ((x.num.natAbs : ℕ) : ℚ) = (x.num : ℚ) := by
      rw [Nat.cast_natAbs, abs_of_pos hnum]
    rw [h1, Rat.num_div_den]
  have qn1 : (2 : ℚ) ^ (Ln : Int) ≤ (x.num.natAbs : ℚ) := by
    rw [zpow_natCast]
    exact_mod_cast n1
  have qn2 : (x.num.natAbs : ℚ) < (2 : ℚ) ^ ((Ln : Int) + 1) := by
    have e : ((Ln : Int) + 1) = ((Ln + 1 : ℕ) : Int) := by omega
    rw [e, zpow_natCast]
    exact_mod_cast n2
  have qd1 : (2 : ℚ) ^ (Ld : Int) ≤ (x.den : ℚ) := by
    rw [zpow_natCast]
    exact_mod_cast d1
  have qd2 : (x.den : ℚ) < (2 : ℚ) ^ ((Ld : Int) + 1) := by
    have e : ((Ld : Int) + 1) = ((Ld + 1 : ℕ) : Int) := by omega
    rw [e, zpow_natCast]
    exact_mod_cast d2
  have hup : x < (2 : ℚ) ^ ((Ln : Int) - Ld + 1) := by
    rw [hxeq, div_lt_iff₀ hdpos]
    calc (x.num.natAbs : ℚ) < (2 : ℚ) ^ ((Ln : Int) + 1) := qn2
      _ = (2 : ℚ) ^ ((Ln : Int) - Ld + 1) * (2 : ℚ) ^ (Ld : Int) := by
          rw [← zpow_add₀ h2]; congr 1; ring
      _ ≤ (2 : ℚ) ^ ((Ln : Int) - Ld + 1) * (x.den : ℚ) :=
          mul_le_mul_of_nonneg_left qd1 (le_of_lt (zpow_pos h2pos _))
  have hlow : (2 : ℚ) ^ ((Ln : Int) - Ld - 1) < x := by
    rw [hxeq, lt_div_iff₀ hdpos]
    calc (2 : ℚ) ^ ((Ln : Int) - Ld - 1) * (x.den : ℚ)
        < (2 : ℚ) ^ ((Ln : Int) - Ld - 1) * (2 : ℚ) ^ ((Ld : Int) + 1) :=
          mul_lt_mul_of_pos_left qd2 (zpow_pos h2pos _)
      _ = (2 : ℚ) ^ (Ln : Int) := by
          rw [← zpow_add₀ h2]; congr 1; ring
      _ ≤ (x.num.natAbs : ℚ) := qn1
  unfold bin_exp
  simp only
  rw [← hLn_def, ← hLd_def]
  by_cases hk : (2 : ℚ) ^ ((Ln : Int) - (Ld : Int)) ≤ x
  · rw [if_pos hk]
    exact ⟨hk, hup⟩
  · rw [if_neg hk]
    refine ⟨le_of_lt hlow, ?_⟩
    have : ((Ln : Int) - (Ld : Int) - 1 + 1) = (Ln : Int) - Ld := by ring
    rw [this]
    exact lt_of_not_le hk

/-- The rounded integer is at least as near as any other integer. -/
theorem round_half_even_nearest (x : ℚ) (hx : 0 ≤ x) (k : Int) :
    |((round_half_even x : ℕ) : ℚ) - x| ≤ |(k : ℚ) - x| := by
  have hnear := round_half_even_near x hx
  by_cases hk : k = (round_half_even x : Int)
  · subst hk
    simp
  · have hd : (1 : ℚ) ≤ |(k : ℚ) - (round_half_even x : ℕ)| := by
      have : (1 : Int) ≤ |k - (round_half_even x : Int)| := by
        have : k - (round_half_even x : Int) ≠ 0 := sub_ne_zero.mpr hk
        exact Int.one_le_abs this
      exact_mod_cast this
    have htri : |(k : ℚ) - (round_half_even x : ℕ)|
        ≤ |(k : ℚ) - x| + |((round_half_even x : ℕ) : ℚ) - x| := by
      have := abs_sub_le (k : ℚ) x (round_half_even x : ℕ)
      rwa [abs_sub_comm x _] at this
    linarith

/-- The rounded value is at least as near as any multiple of the unit in the
last place. -/
theorem round_to_float_abs_grid (a : ℚ) (ha : 0 < a) (k : Int) :
    |round_to_float_abs a - a|
      ≤ |(k : ℚ) * (2 : ℚ) ^ (max (bin_exp a - 23) (-149)) - a| := by
  have hne : a ≠ 0 := ne_of_gt ha
  unfold round_to_float_abs
  rw [if_neg hne]
  set e := max (bin_exp a - 23) (-149) with he
  have hp : (0 : ℚ) < (2 : ℚ) ^ e := zpow_pos (by norm_num) _
  have hx : 0 ≤ a / (2 : ℚ) ^ e := le_of_lt (div_pos ha hp)
  have h := round_half_even_nearest (a / (2 : ℚ) ^ e) hx k
  have e1 : ∀ z : ℚ, z * (2 : ℚ) ^ e - a = (z - a / (2 : ℚ) ^ e) * (2 : ℚ) ^ e := by
    intro z
    field_simp
  rw [e1, e1, abs_mul, abs_mul, abs_of_pos hp]
  exact mul_le_mul_of_nonneg_right h (le_of_lt hp)

/-- Rounding to `float` gives a value at least as near as any finite `float`. -/
theorem round_to_float_abs_nearest (a : ℚ) (ha : 0 < a) (f : ℚ) (hf : is_binary32 f) :
    |round_to_float_abs a - a| ≤ |f - a| := by
  obtain ⟨m, e1, hm, hlo, hhi, hval⟩ := hf
  obtain ⟨b1, b2⟩ := bin_exp_bounds a ha
  set e := max (bin_exp a - 23) (-149) with he
  have h2 : (2 : ℚ) ≠ 0 := by norm_num
  by_cases hee : e ≤ e1
  · -- the float is a multiple of the unit in the last place
    have hpow : (2 : ℚ) ^ e1 = ((2 ^ (e1 - e).toNat : ℕ) : ℚ) * (2 : ℚ) ^ e := by
      push_cast
      rw [← zpow_natCast, ← zpow_add₀ h2]
      congr 1
      rw [Int.toNat_of_nonneg (by omega)]
      ring
    rcases abs_choice f with hs | hs
    · have := round_to_float_abs_grid a ha ((m * 2 ^ (e1 - e).toNat : ℕ) : Int)
      have e2 : (((m * 2 ^ (e1 - e).toNat : ℕ) : Int) : ℚ) * (2 : ℚ) ^ e = f := by
        rw [← hs, hval, hpow]
        push_cast
        ring
      rw [← he, e2] at this
      exact this
    · have := round_to_float_abs_grid a ha (-((m * 2 ^ (e1 - e).toNat : ℕ) : Int))
      have e2 : ((-((m * 2 ^ (e1 - e).toNat : ℕ) : Int) : Int) : ℚ) * (2 : ℚ) ^ e = f := by
        have : f = -|f| := by rw [hs]; ring
        rw [this, hval, hpow]
        push_cast
        ring
      rw [← he, e2] at this
      exact this
  · -- the float lies below the binade of `a`
    have hee1 : e1 + 1 ≤ e := by omega
    have heq : e = bin_exp a - 23 := by
      rcases max_choice (bin_exp a - 23) (-149) with h | h
      · rw [he, h]
      · omega
    have hfl : |f| ≤ (2 : ℚ) ^ (bin_exp a) := by
      rw [hval]
      have hm2 : (m : ℚ) ≤ (2 : ℚ) ^ (24 : Int) := by
        have : (m : ℚ) ≤ ((2 ^ 24 : ℕ) : ℚ) := by exact_mod_cast le_of_lt hm
        have e24 : (2 : ℚ) ^ (24 : Int) = ((2 ^ 24 : ℕ) : ℚ) := by norm_num
        rw [e24]
        exact this
      have hp2 : (2 : ℚ) ^ e1 ≤ (2 : ℚ) ^ (bin_exp a - 24) :=
        zpow_le_zpow_right₀ (by norm_num) (by omega)
      calc (m : ℚ) * (2 : ℚ) ^ e1 ≤ (2 : ℚ) ^ (24 : Int) * (2 : ℚ) ^ (bin_exp a - 24) :=
            mul_le_mul hm2 hp2 (le_of_lt (zpow_pos (by norm_num) _))
              (le_of_lt (zpow_pos (by norm_num) _))
        _ = (2 : ℚ) ^ (bin_exp a) := by
            rw [← zpow_add₀ h2]; congr 1; ring
    have hgrid := round_to_float_abs_grid a ha ((2 ^ 23 : ℕ) : Int)
    have e2 : ((((2 ^ 23 : ℕ) : Int) : ℚ)) * (2 : ℚ) ^ e = (2 : ℚ) ^ (bin_exp a) := by
      have : ((((2 ^ 23 : ℕ) : Int) : ℚ)) = (2 : ℚ) ^ (23 : Int) := by norm_num
      rw [this, ← zpow_add₀ h2, heq]
      congr 1
      ring
    rw [← he, e2] at hgrid
    have h3 : |(2 : ℚ) ^ (bin_exp a) - a| = a - (2 : ℚ) ^ (bin_exp a) := by
      rw [abs_sub_comm, abs_of_nonneg (by linarith)]
    have h4 : a - |f| ≤ |f - a| := by
      have := abs_sub_abs_le_abs_sub a f
      rw [abs_of_pos ha, abs_sub_comm] at this
      exact this
    linarith

/-- Rounding to `float` gives a value at least as near as any finite `float`,
for either sign. -/
theorem round_to_float_nearest (q : ℚ) (f : ℚ) (hf : is_binary32 f) :
    |round_to_float q - q| ≤ |f - q| := by
  unfold round_to_float
  by_cases hneg : q < 0
  · rw [if_pos hneg]
    have hf2 : is_binary32 (-f) := by
      obtain ⟨m, e, h1, h2, h3, h4⟩ := hf
      exact ⟨m, e, h1, h2, h3, by rw [abs_neg]; exact h4⟩
    have := round_to_float_abs_nearest (-q) (by linarith) (-f) hf2
    have e1 : -round_to_float_abs (-q) - q = -(round_to_float_abs (-q) - -q) := by ring
    have e2 : f - q = -(-f - -q) := by ring
    rw [e1, e2, abs_neg, abs_neg]
    exact this
  · rw [if_neg hneg]
    rcases eq_or_lt_of_le (not_lt.mp hneg) with h0 | hpos
    · subst h0
      simp [round_to_float_abs]
    · exact round_to_float_abs_nearest q hpos f hf

/-! ## The six digits written -/

/-- The six digits of a positive rational: their range, and the distance of the
value they denote from the rational. -/
theorem sig6_spec (a : ℚ) (ha : 0 < a) :
    100000 ≤ (sig6 a).1 ∧ (sig6 a).1 < 1000000 ∧
    ((sig6 a).2 = dec_exp a ∨ ((sig6 a).2 = dec_exp a + 1 ∧ (sig6 a).1 = 100000)) ∧
    |((sig6 a).1 : ℚ) * (10 : ℚ) ^ ((sig6 a).2 - 5) - a| ≤ (10 : ℚ) ^ (dec_exp a - 5) / 2 := by
  have h10 : (10 : ℚ) ≠ 0 := by norm_num
  have h10pos : (0 : ℚ) < 10 := by norm_num
  obtain ⟨b1, b2⟩ := dec_exp_bounds a ha
  set e := dec_exp a with he
  have hu : (0 : ℚ) < (10 : ℚ) ^ (e - 5) := zpow_pos h10pos _
  set sc := a / (10 : ℚ) ^ (e - 5) with hsc
  have hsc_lo : (100000 : ℚ) ≤ sc := by
    rw [hsc, le_div_iff₀ hu]
    calc (100000 : ℚ) * (10 : ℚ) ^ (e - 5) = (10 : ℚ) ^ (5 : Int) * (10 : ℚ) ^ (e - 5) := by
          norm_num
      _ = (10 : ℚ) ^ e := by rw [← zpow_add₀ h10]; congr 1; ring
      _ ≤ a := b1
  have hsc_hi : sc < (1000000 : ℚ) := by
    rw [hsc, div_lt_iff₀ hu]
    calc a < (10 : ℚ) ^ (e + 1) := b2
      _ = (10 : ℚ) ^ (6 : Int) * (10 : ℚ) ^ (e - 5) := by
          rw [← zpow_add₀ h10]; congr 1; ring
      _ = (1000000 : ℚ) * (10 : ℚ) ^ (e - 5) := by norm_num
  have hnear := round_half_even_near sc (by linarith)
  set R := round_half_even sc with hR
  rw [abs_le] at hnear
  have hRlo : 100000 ≤ R := by
    have : (99999 : ℚ) < (R : ℚ) := by linarith
    have : (99999 : ℕ) < R := by exact_mod_cast this
    omega
  have hRhi : R ≤ 1000000 := by
    have : (R : ℚ) < (1000001 : ℚ) := by linarith
    have : R < (1000001 : ℕ) := by exact_mod_cast this
    omega
  have hdist : |(R : ℚ) * (10 : ℚ) ^ (e - 5) - a| ≤ (10 : ℚ) ^ (e - 5) / 2 := by
    have ha' : a = sc * (10 : ℚ) ^ (e - 5) := by
      rw [hsc, div_mul_cancel₀ _ (ne_of_gt hu)]
    rw [ha', ← sub_mul, abs_mul, abs_of_pos hu]
    have : |(R : ℚ) - sc| ≤ 1 / 2 := abs_le.mpr hnear
    calc |(R : ℚ) - sc| * (10 : ℚ) ^ (e - 5) ≤ 1 / 2 * (10 : ℚ) ^ (e - 5) :=
          mul_le_mul_of_nonneg_right this (le_of_lt hu)
      _ = (10 : ℚ) ^ (e - 5) / 2 := by ring
  have hsig : sig6 a = if R = 1000000 then (100000, e + 1) else (R, e) := rfl
  by_cases hc : R = 1000000
  · rw [hsig, if_pos hc]
    refine ⟨le_refl _, by norm_num, Or.inr ⟨rfl, rfl⟩, ?_⟩
    have : ((100000 : ℕ) : ℚ) * (10 : ℚ) ^ (e + 1 - 5) = (R : ℚ) * (10 : ℚ) ^ (e - 5) := by
      rw [hc]
      have e1 : (e + 1 - 5) = (e - 5) + 1 := by ring
      rw [e1, zpow_add₀ h10]
      push_cast
      ring
    simp only
    rw [this]
    exact hdist
  · rw [hsig, if_neg hc]
    exact ⟨hRlo, by omega, Or.inl rfl, hdist⟩

theorem put_general_head (m : Nat) (X : Int) :
    ∃ c cs, put_general m X = c :: cs ∧ c.isDigit = true := by
  obtain ⟨d, ds, hds, hd⟩ := put_uint_head_isDigit m
  unfold put_general
  simp only [hds]
  split
  · split
    · rw [List.take_succ_cons, List.cons_append]
      exact ⟨d, _, rfl, hd⟩
    · exact ⟨'0', _, rfl, by decide⟩
  · rw [List.take_succ_cons, List.cons_append, List.cons_append]
    exact ⟨d, _, rfl, hd⟩

theorem parse_inf_nan_digit (neg : Bool) (c : Char) (cs : List Char) (hc : c.isDigit = true) :
    parse_inf_nan ((if neg then ['-'] else []) ++ c :: cs) = none := by
  have hsign : take_sign ((if neg then ['-'] else []) ++ c :: cs) = (neg, c :: cs) := by
    cases neg with
    | true => simp [take_sign]
    | false => simpa using take_sign_digit cs hc
  have n1 : c ≠ 'n' := by rintro rfl; exact absurd hc (by decide)
  have n2 : c ≠ 'N' := by rintro rfl; exact absurd hc (by decide)
  have n3 : c ≠ 'i' := by rintro rfl; exact absurd hc (by decide)
  have n4 : c ≠ 'I' := by rintro rfl; exact absurd hc (by decide)
  have l1 : ∀ r, lc_iequal (c :: r) ['n', 'a', 'n'] ['N', 'A', 'N'] = false := by
    intro r; simp [lc_iequal, n1, n2]
  have l2 : lc_iequal (c :: cs) ['i', 'n', 'f'] ['I', 'N', 'F'] = false := by
    simp [lc_iequal, n3, n4]
  have l3 : lc_iequal (c :: cs) ['i', 'n', 'f', 'i', 'n', 'i', 't', 'y']
      ['I', 'N', 'F', 'I', 'N', 'I', 'T', 'Y'] = false := by
    simp [lc_iequal, n3, n4]
  have ht : (c :: cs).take 3 = c :: cs.take 2 := rfl
  unfold parse_inf_nan
  rw [hsign]
  simp only
  by_cases hl : (if neg = true then ['-'] else []) ++ c :: cs = [] ∨ (c :: cs).length < 3
  · rw [if_pos hl]
  · rw [if_neg hl, ht, l1, l2, l3]
    simp

theorem overflow_gap (a M : ℚ) (e : Int) (m : Nat) (X : Int) (hmax : a ≤ FLT_MAX)
    (b1 : (10 : ℚ) ^ e ≤ a) (b2 : a < (10 : ℚ) ^ (e + 1)) (hmlo : 100000 ≤ m)
    (hX : X = e ∨ (X = e + 1 ∧ m = 100000))
    (hM : M = (m : ℚ) * (10 : ℚ) ^ (X - 5))
    (hdist : |M - a| ≤ (10 : ℚ) ^ (e - 5) / 2) : M < FLT_OVERFLOW := by
  have h1 : (1 : ℚ) ≤ 10 := by norm_num
  have h10 : (10 : ℚ) ≠ 0 := by norm_num
  have hmaxv : FLT_MAX = 340282346638528859811704183484516925440 := by
    unfold FLT_MAX; norm_num
  have hovf : FLT_OVERFLOW = 340282356779733661637539395458142568448 := by
    unfold FLT_OVERFLOW; norm_num
  rw [abs_le] at hdist
  have he : e ≤ 38 := by
    by_contra hc
    have : (10 : ℚ) ^ (39 : Int) ≤ (10 : ℚ) ^ e := zpow_le_zpow_right₀ h1 (by omega)
    have h39 : (10 : ℚ) ^ (39 : Int) = 1000000000000000000000000000000000000000 := by norm_num
    rw [h39] at this
    rw [hmaxv] at hmax
    linarith
  by_cases h37 : e ≤ 37
  · have u1 : (10 : ℚ) ^ (e + 1) ≤ (10 : ℚ) ^ (38 : Int) := zpow_le_zpow_right₀ h1 (by omega)
    have u2 : (10 : ℚ) ^ (e - 5) ≤ (10 : ℚ) ^ (32 : Int) := zpow_le_zpow_right₀ h1 (by omega)
    have v1 : (10 : ℚ) ^ (38 : Int) = 100000000000000000000000000000000000000 := by norm_num
    have v2 : (10 : ℚ) ^ (32 : Int) = 100000000000000000000000000000000 := by norm_num
    rw [v1] at u1
    rw [v2] at u2
    rw [hovf]
    linarith
  · have he38 : e = 38 := by omega
    subst he38
    have v3 : (10 : ℚ) ^ ((38 : Int) - 5) = 1000000000000000000000000000000000 := by norm_num
    rw [v3] at hdist
    rcases hX with hX | ⟨hX, hm⟩
    · have v4 : (10 : ℚ) ^ (X - 5) = 1000000000000000000000000000000000 := by
        rw [hX]; norm_num
      rw [v4] at hM
      have hmq : (m : ℚ) < 340283 := by
        rw [hmaxv] at hmax
        rw [hM] at hdist
        by_contra hc
        have : (340283 : ℚ) ≤ (m : ℚ) := not_lt.mp hc
        nlinarith
      have hmn : m < 340283 := by exact_mod_cast hmq
      have hmle : (m : ℚ) ≤ 340282 := by
        have : m ≤ 340282 := by omega
        exact_mod_cast this
      rw [hM, hovf]
      nlinarith
    · have v5 : (10 : ℚ) ^ (X - 5) = 10000000000000000000000000000000000 := by
        rw [hX]; norm_num
      rw [hm, v5] at hM
      rw [hmaxv] at hmax
      rw [hM] at hdist
      push_cast at hdist
      linarith

/-- A float in range is written as a text that `lexical_cast<float>` accepts: a
non-finite value is read back as it is, and a finite one as the `float` nearest
to the decimal written, which differs from the value by at most half a unit of
its sixth significant digit. -/
theorem lexical_cast_float_put_float (x : Flt) (hx : x.in_range) :
    ∃ y, lexical_cast_float (put_float x) = some y ∧
      (match x with
       | .fin q => ∃ d : ℚ, (q = 0 → d = 0) ∧
           |d - q| ≤ (10 : ℚ) ^ (dec_exp |q| - 5) / 2 ∧ y = .fin (round_to_float d)
       | .inf neg => y = .inf neg
       | .nan neg => y = .nan neg) := by
  cases x with
  | inf neg =>
    refine ⟨.inf neg, ?_, rfl⟩
    cases neg <;> decide
  | nan neg =>
    refine ⟨.nan neg, ?_, rfl⟩
    cases neg <;> decide
  | fin q =>
    by_cases hq0 : q = 0
    · subst hq0
      refine ⟨.fin (round_to_float 0), by decide!, 0, fun _ => rfl, ?_, rfl⟩
      simp only [sub_self, abs_zero]
      exact le_of_lt (div_pos (zpow_pos (by norm_num) _) (by norm_num))
    · have ha : 0 < |q| := abs_pos.mpr hq0
      have hmax : |q| ≤ FLT_MAX := hx
      obtain ⟨hmlo, hmhi, hX, hdist⟩ := sig6_spec |q| ha
      obtain ⟨b1, b2⟩ := dec_exp_bounds |q| ha
      obtain ⟨c, cs, hhead, hcd⟩ := put_general_head (sig6 |q|).1 (sig6 |q|).2
      set M : ℚ := ((sig6 |q|).1 : ℚ) * (10 : ℚ) ^ ((sig6 |q|).2 - 5) with hM
      have hMlt : M < FLT_OVERFLOW :=
        overflow_gap |q| M (dec_exp |q|) (sig6 |q|).1 (sig6 |q|).2 hmax b1 b2 hmlo hX hM
          hdist
      have hMpos : 0 < M := by
        have : (0 : ℚ) < ((sig6 |q|).1 : ℚ) := by
          have : 0 < (sig6 |q|).1 := by omega
          exact_mod_cast this
        exact mul_pos this (zpow_pos (by norm_num) _)
      have htext : put_float (.fin q)
          = (if decide (q < 0) then ['-'] else []) ++ put_general (sig6 |q|).1 (sig6 |q|).2 := by
        rw [put_float_fin, if_neg hq0]
        by_cases hneg : q < 0 <;> simp [hneg]
      have hnone : parse_inf_nan (put_float (.fin q)) = none := by
        rw [htext, hhead]
        exact parse_inf_nan_digit _ c cs hcd
      have hread := read_put_general (decide (q < 0)) (sig6 |q|).1 (sig6 |q|).2 hmlo hmhi
      rw [← htext, ← hM] at hread
      by_cases hneg : q < 0
      · simp only [hneg, decide_True, if_true] at hread
        refine ⟨.fin (round_to_float (-M)), ?_, -M, fun h => absurd h hq0, ?_, rfl⟩
        · unfold lexical_cast_float
          rw [hnone, hread]
          simp only
          rw [if_pos (by rw [abs_neg, abs_of_pos hMpos]; exact hMlt)]
        · have hqa : |q| = -q := abs_of_neg hneg
          have : |(-M) - q| = |M - (|q|)| := by
            rw [hqa, ← abs_neg]; congr 1; ring
          rw [this]
          exact hdist
      · simp only [hneg, decide_False, Bool.false_eq_true, if_false] at hread
        refine ⟨.fin (round_to_float M), ?_, M, fun h => absurd h hq0, ?_, rfl⟩
        · unfold lexical_cast_float
          rw [hnone, hread]
          simp only
          rw [if_pos (by rw [abs_of_pos hMpos]; exact hMlt)]
        · have hqa : |q| = q := abs_of_nonneg (not_lt.mp hneg)
          have : |M - q| = |M - (|q|)| := by rw [hqa]
          rw [this]
          exact hdist

/-- A finite `float` is in the range of `float`. -/
theorem is_binary32_in_range (q : ℚ) (h : is_binary32 q) : |q| ≤ FLT_MAX := by
  obtain ⟨m, e, hm, -, hhi, hval⟩ := h
  rw [hval]
  unfold FLT_MAX
  have hm2 : (m : ℚ) ≤ 2 ^ 24 - 1 := by
    have : m ≤ 2 ^ 24 - 1 := by omega
    have : (m : ℚ) ≤ ((2 ^ 24 - 1 : ℕ) : ℚ) := by exact_mod_cast this
    norm_num at this ⊢
    exact this
  have hp : (2 : ℚ) ^ e ≤ (2 : ℚ) ^ (104 : Int) := zpow_le_zpow_right₀ (by norm_num) hhi
  have e104 : (2 : ℚ) ^ (104 : Int) = 2 ^ 104 := by norm_num
  rw [e104] at hp
  exact mul_le_mul hm2 hp (le_of_lt (zpow_pos (by norm_num) _)) (by norm_num)

/-- A value of `float` is in the range of `float`. -/
theorem is_float_in_range (x : Flt) (h : x.is_float) : x.in_range := by
  cases x with
  | fin q => exact is_binary32_in_range q h
  | inf neg => trivial
  | nan neg => trivial

/-- A value of `float` is written as a text that `lexical_cast<float>` accepts and
reads as a value within one unit of its sixth significant digit: the decimal
written is within half a unit, and the `float` nearest to that decimal is no
farther from it than the value itself. -/
theorem lexical_cast_float_put_float_near (x : Flt) (hx : x.is_float) :
    ∃ y, lexical_cast_float (put_float x) = some y ∧ x.agree6 y := by
  obtain ⟨y, hy, hrel⟩ := lexical_cast_float_put_float x (is_float_in_range x hx)
  refine ⟨y, hy, ?_⟩
  cases x with
  | inf neg =>
    simp only at hrel
    rw [hrel]
    simp [Flt.agree6]
  | nan neg =>
    simp only at hrel
    rw [hrel]
    simp [Flt.agree6]
  | fin q =>
    obtain ⟨d, hd0, hd, hyd⟩ := hrel
    rw [hyd]
    show if q = 0 then round_to_float d = 0
      else |round_to_float d - q| ≤ (10 : ℚ) ^ (dec_exp |q| - 5)
    by_cases hq0 : q = 0
    · rw [if_pos hq0, hd0 hq0]
      decide!
    · rw [if_neg hq0]
      have hnear := round_to_float_nearest d q hx
      have htri : |round_to_float d - q| ≤ |round_to_float d - d| + |d - q| :=
        abs_sub_le _ _ _
      have hsym : |q - d| = |d - q| := abs_sub_comm _ _
      linarith

/-- Agreement within one unit of the sixth significant digit bounds the relative
distance by `1 / 100000`. -/
theorem agree6_relative (a b : ℚ) (h : (Flt.fin a).agree6 (.fin b)) :
    |b - a| ≤ 1 / 100000 * |a| := by
  have h2 : if a = 0 then b = 0 else |b - a| ≤ (10 : ℚ) ^ (dec_exp |a| - 5) := h
  by_cases ha : a = 0
  · rw [if_pos ha] at h2
    rw [ha, h2]
    simp
  · rw [if_neg ha] at h2
    obtain ⟨b1, -⟩ := dec_exp_bounds |a| (abs_pos.mpr ha)
    have e1 : (10 : ℚ) ^ (dec_exp |a| - 5) = (10 : ℚ) ^ (dec_exp |a|) / 100000 := by
      rw [zpow_sub₀ (by norm_num : (10 : ℚ) ≠ 0)]; norm_num
    rw [e1] at h2
    linarith

/-- Rounding a magnitude below the overflow threshold gives a finite `float`. -/
theorem round_to_float_abs_is_binary32 (a : ℚ) (ha : 0 ≤ a) (hlt : a < FLT_OVERFLOW) :
    is_binary32 (round_to_float_abs a) ∧ 0 ≤ round_to_float_abs a := by
  rcases eq_or_lt_of_le ha with h0 | hpos
  · subst h0
    refine ⟨⟨0, 0, by norm_num, by norm_num, by norm_num, ?_⟩, ?_⟩ <;>
      simp [round_to_float_abs]
  have hne : a ≠ 0 := ne_of_gt hpos
  have h2 : (2 : ℚ) ≠ 0 := by norm_num
  obtain ⟨b1, b2⟩ := bin_exp_bounds a hpos
  have hovf : FLT_OVERFLOW = (2 : ℚ) ^ (128 : Int) - (2 : ℚ) ^ (103 : Int) := by
    unfold FLT_OVERFLOW; norm_num
  have hE : bin_exp a ≤ 127 := by
    by_contra hc
    have : (2 : ℚ) ^ (128 : Int) ≤ (2 : ℚ) ^ (bin_exp a) :=
      zpow_le_zpow_right₀ (by norm_num) (by omega)
    have h103 : (0 : ℚ) < (2 : ℚ) ^ (103 : Int) := zpow_pos (by norm_num) _
    rw [hovf] at hlt
    linarith
  unfold round_to_float_abs
  rw [if_neg hne]
  set e := max (bin_exp a - 23) (-149) with he
  have he1 : bin_exp a - 23 ≤ e := le_max_left _ _
  have he2 : -149 ≤ e := le_max_right _ _
  have he3 : e ≤ 104 := max_le (by omega) (by norm_num)
  have hp : (0 : ℚ) < (2 : ℚ) ^ e := zpow_pos (by norm_num) _
  have hx : 0 ≤ a / (2 : ℚ) ^ e := le_of_lt (div_pos hpos hp)
  have hnear := round_half_even_near (a / (2 : ℚ) ^ e) hx
  rw [abs_le] at hnear
  set m := round_half_even (a / (2 : ℚ) ^ e) with hm
  have hnn : (0 : ℚ) ≤ (m : ℚ) * (2 : ℚ) ^ e :=
    mul_nonneg (by exact_mod_cast Nat.zero_le m) (le_of_lt hp)
  refine ⟨?_, hnn⟩
  have hxlt : a / (2 : ℚ) ^ e < (2 : ℚ) ^ (24 : Int) := by
    rw [div_lt_iff₀ hp, ← zpow_add₀ h2]
    exact lt_of_lt_of_le b2 (zpow_le_zpow_right₀ (by norm_num) (by omega))
  have e24 : (2 : ℚ) ^ (24 : Int) = ((2 ^ 24 : ℕ) : ℚ) := by norm_num
  have hmle : m ≤ 2 ^ 24 := by
    have : (m : ℚ) < ((2 ^ 24 : ℕ) : ℚ) + 1 := by
      rw [← e24]
      linarith
    have : m < 2 ^ 24 + 1 := by exact_mod_cast this
    omega
  rcases Nat.lt_or_ge m (2 ^ 24) with hmlt | hmge
  · exact ⟨m, e, hmlt, he2, he3, abs_of_nonneg hnn⟩
  · have hmeq : m = 2 ^ 24 := le_antisymm hmle hmge
    have he103 : e ≤ 103 := by
      by_contra hc
      have he104 : e = 104 := by omega
      have hlow : (2 : ℚ) ^ (24 : Int) - 1 / 2 ≤ a / (2 : ℚ) ^ e := by
        have : (m : ℚ) = (2 : ℚ) ^ (24 : Int) := by
          rw [e24, hmeq]
        linarith
      rw [le_div_iff₀ hp, he104] at hlow
      have e1 : ((2 : ℚ) ^ (24 : Int) - 1 / 2) * (2 : ℚ) ^ (104 : Int)
          = (2 : ℚ) ^ (128 : Int) - (2 : ℚ) ^ (103 : Int) := by norm_num
      rw [e1, ← hovf] at hlow
      linarith
    refine ⟨2 ^ 23, e + 1, by norm_num, by omega, by omega, ?_⟩
    rw [abs_of_nonneg hnn, hmeq, zpow_add₀ h2]
    push_cast
    ring

/-- Rounding a value of magnitude below the overflow threshold gives a finite
`float`. -/
theorem round_to_float_is_binary32 (q : ℚ) (hlt : |q| < FLT_OVERFLOW) :
    is_binary32 (round_to_float q) := by
  unfold round_to_float
  by_cases hneg : q < 0
  · rw [if_pos hneg]
    rw [abs_of_neg hneg] at hlt
    obtain ⟨⟨m, e, h1, h2, h3, h4⟩, -⟩ :=
      round_to_float_abs_is_binary32 (-q) (by linarith) hlt
    exact ⟨m, e, h1, h2, h3, by rw [abs_neg]; exact h4⟩
  · rw [if_neg hneg]
    rw [abs_of_nonneg (not_lt.mp hneg)] at hlt
    exact (round_to_float_abs_is_binary32 q (not_lt.mp hneg) hlt).1

/-- Whatever `lexical_cast<float>` returns is a value of `float`. -/
theorem lexical_cast_float_is_float (t : List Char) (y : Flt)
    (h : lexical_cast_float t = some y) : y.is_float := by
  unfold lexical_cast_float at h
  cases hp : parse_inf_nan t with
  | some v =>
    rw [hp] at h
    simp only [Option.some.injEq] at h
    subst h
    unfold parse_inf_nan at hp
    simp only at hp
    split_ifs at hp <;> simp only [Option.some.injEq, reduceCtorEq] at hp <;> subst hp <;> trivial
  | none =>
    rw [hp] at h
    simp only at h
    cases hd : read_decimal t with
    | none =>
      rw [hd] at h
      exact absurd h (by simp)
    | some q =>
      rw [hd] at h
      simp only at h
      by_cases hq : |q| < FLT_OVERFLOW
      · rw [if_pos hq] at h
        simp only [Option.some.injEq] at h
        subst h
        exact round_to_float_is_binary32 q hq
      · rw [if_neg hq] at h
        exact absurd h (by simp)

/-! ## The texts the conversions accept -/

theorem take_sign_signed (t : List Char) : signed_text t (take_sign t).2 (take_sign t).1 := by
  cases t with
  | nil => exact Or.inl ⟨rfl, rfl⟩
  | cons c cs =>
    by_cases hm : c = '-'
    · subst hm
      exact Or.inr (Or.inr ⟨rfl, rfl⟩)
    · by_cases hp : c = '+'
      · subst hp
        exact Or.inr (Or.inl ⟨rfl, rfl⟩)
      · simp only [take_sign, hm, hp, if_false]
        exact Or.inl ⟨rfl, rfl⟩

theorem take_sign_of_signed (t body : List Char) (neg : Bool) (h : signed_text t body neg)
    (hb : ∀ c cs, body = c :: cs → c ≠ '-' ∧ c ≠ '+') : take_sign t = (neg, body) := by
  rcases h with ⟨rfl, rfl⟩ | ⟨rfl, rfl⟩ | ⟨rfl, rfl⟩
  · cases t with
    | nil => rfl
    | cons c cs =>
      obtain ⟨h1, h2⟩ := hb c cs rfl
      simp [take_sign, h1, h2]
  · simp [take_sign]
  · simp [take_sign]

theorem digit_not_sign {c : Char} (h : c.isDigit = true) : c ≠ '-' ∧ c ≠ '+' := by
  constructor
  · rintro rfl; exact absurd h (by decide)
  · rintro rfl; exact absurd h (by decide)

theorem digit_run_head {ds : List Char} (h : digit_run ds) :
    ∀ c cs, ds = c :: cs → c ≠ '-' ∧ c ≠ '+' := by
  intro c cs hds
  exact digit_not_sign (h.2 c (by rw [hds]; exact List.mem_cons_self _ _))

/-- The texts `lexical_cast<uint32_t>` accepts are the decimal numerals of
unsigned 32-bit integers behind an optional sign. -/
theorem lexical_cast_uint32_accepts_text (t : List Char) :
    lexical_cast_uint32 t ≠ none ↔ uint32_text t := by
  rw [lexical_cast_uint32_accepts_iff]
  constructor
  · rintro ⟨ds, hshape, h1, h2, h3⟩
    rcases hshape with rfl | rfl | rfl
    · exact ⟨_, false, Or.inl ⟨rfl, rfl⟩, ⟨h1, h2⟩, h3⟩
    · exact ⟨ds, false, Or.inr (Or.inl ⟨rfl, rfl⟩), ⟨h1, h2⟩, h3⟩
    · exact ⟨ds, true, Or.inr (Or.inr ⟨rfl, rfl⟩), ⟨h1, h2⟩, h3⟩
  · rintro ⟨body, neg, hs, ⟨h1, h2⟩, h3⟩
    refine ⟨body, ?_, h1, h2, h3⟩
    rcases hs with ⟨rfl, -⟩ | ⟨rfl, -⟩ | ⟨rfl, -⟩
    · exact Or.inl rfl
    · exact Or.inr (Or.inl rfl)
    · exact Or.inr (Or.inr rfl)

theorem read_exp_cons (c : Char) (cs : List Char) :
    read_exp (c :: cs) =
      if c = 'e' ∨ c = 'E' then
        if (take_sign cs).2 ≠ [] ∧ (take_sign cs).2.all Char.isDigit = true then
          some (if (take_sign cs).1 then -(digits_value (take_sign cs).2 : Int)
            else (digits_value (take_sign cs).2 : Int))
        else none
      else none := rfl

/-- The exponent parts `read_exp` reads, and their values. -/
theorem read_exp_iff (ex : List Char) (E : Int) :
    read_exp ex = some E ↔ exponent_text ex E := by
  constructor
  · intro h
    cases ex with
    | nil =>
      left
      have h0 : read_exp [] = some (0 : Int) := rfl
      rw [h0] at h
      exact ⟨rfl, (Option.some.inj h).symm⟩
    | cons c cs =>
      right
      rw [read_exp_cons] at h
      by_cases hc : c = 'e' ∨ c = 'E'
      · rw [if_pos hc] at h
        by_cases hd : (take_sign cs).2 ≠ [] ∧ (take_sign cs).2.all Char.isDigit = true
        · rw [if_pos hd] at h
          refine ⟨c, cs, (take_sign cs).2, (take_sign cs).1, rfl, hc, take_sign_signed cs,
            ⟨hd.1, List.all_eq_true.mp hd.2⟩, (Option.some.inj h).symm⟩
        · rw [if_neg hd] at h
          exact absurd h (by simp)
      · rw [if_neg hc] at h
        exact absurd h (by simp)
  · rintro (⟨rfl, rfl⟩ | ⟨c, r, ds, neg, rfl, hc, hs, hd, rfl⟩)
    · rfl
    · have hts := take_sign_of_signed r ds neg hs (digit_run_head hd)
      rw [read_exp_cons, if_pos hc]
      simp only [hts]
      rw [if_pos ⟨hd.1, List.all_eq_true.mpr hd.2⟩]

theorem exponent_text_head {ex : List Char} {E : Int} (h : exponent_text ex E) :
    ex = [] ∨ ∃ c cs, ex = c :: cs ∧ c.isDigit = false ∧ c ≠ '.' := by
  rcases h with ⟨rfl, -⟩ | ⟨c, r, ds, neg, rfl, hc, -⟩
  · exact Or.inl rfl
  · right
    rcases hc with rfl | rfl
    · exact ⟨_, _, rfl, by decide, by decide⟩
    · exact ⟨_, _, rfl, by decide, by decide⟩

/-- The decimal literals `read_decimal` reads, and their values. -/
theorem read_decimal_iff (t : List Char) (v : ℚ) :
    read_decimal t = some v ↔ decimal_text t v := by
  constructor
  · intro h
    unfold read_decimal at h
    simp only at h
    have hsplit := List.takeWhile_append_dropWhile Char.isDigit (take_sign t).2
    have hipd : ∀ c ∈ (take_sign t).2.takeWhile Char.isDigit, c.isDigit = true :=
      fun c hc => List.mem_takeWhile_imp hc
    cases hr1 : (take_sign t).2.dropWhile Char.isDigit with
    | nil =>
      rw [hr1] at h hsplit
      simp only at h
      by_cases h0 : List.takeWhile Char.isDigit (take_sign t).2 = [] ∧ True
      · rw [if_pos h0] at h
        exact absurd h (by simp)
      · rw [if_neg h0] at h
        have hE : read_exp [] = some (0 : Int) := rfl
        rw [hE] at h
        simp only at h
        refine ⟨(take_sign t).2, (take_sign t).2.takeWhile Char.isDigit, [], [],
          (take_sign t).1, 0, take_sign_signed t, Or.inl ⟨by simpa using hsplit.symm, rfl⟩,
          hipd, by simp, ?_, Or.inl ⟨rfl, rfl⟩, (Option.some.inj h).symm⟩
        by_contra hc
        push_neg at hc
        exact h0 ⟨hc.1, trivial⟩
    | cons c cs =>
      rw [hr1] at h hsplit
      simp only at h
      by_cases hdot : c = '.'
      · subst hdot
        simp only [if_true] at h
        by_cases h0 : List.takeWhile Char.isDigit (take_sign t).2 = [] ∧
            List.takeWhile Char.isDigit cs = []
        · rw [if_pos h0] at h
          exact absurd h (by simp)
        · rw [if_neg h0] at h
          have hsplit2 := List.takeWhile_append_dropWhile Char.isDigit cs
          have hfpd : ∀ c ∈ cs.takeWhile Char.isDigit, c.isDigit = true :=
            fun c hc => List.mem_takeWhile_imp hc
          cases hre : read_exp (cs.dropWhile Char.isDigit) with
          | none =>
            rw [hre] at h
            exact absurd h (by simp)
          | some E =>
            rw [hre] at h
            simp only at h
            refine ⟨(take_sign t).2, (take_sign t).2.takeWhile Char.isDigit,
              cs.takeWhile Char.isDigit, cs.dropWhile Char.isDigit,
              (take_sign t).1, E, take_sign_signed t, Or.inr ?_, hipd, hfpd, ?_,
              (read_exp_iff _ _).mp hre, (Option.some.inj h).symm⟩
            · rw [hsplit2]
              exact hsplit.symm
            · by_contra hc
              push_neg at hc
              exact h0 ⟨hc.1, hc.2⟩
      · simp only [hdot, if_false] at h
        by_cases h0 : List.takeWhile Char.isDigit (take_sign t).2 = [] ∧ True
        · rw [if_pos h0] at h
          exact absurd h (by simp)
        · rw [if_neg h0] at h
          cases hre : read_exp (c :: cs) with
          | none =>
            rw [hre] at h
            exact absurd h (by simp)
          | some E =>
            rw [hre] at h
            simp only at h
            refine ⟨(take_sign t).2, (take_sign t).2.takeWhile Char.isDigit, [], c :: cs,
              (take_sign t).1, E, take_sign_signed t, Or.inl ⟨hsplit.symm, rfl⟩, hipd,
              by simp, ?_, (read_exp_iff _ _).mp hre, (Option.some.inj h).symm⟩
            by_contra hc
            push_neg at hc
            exact h0 ⟨hc.1, trivial⟩
  · rintro ⟨body, ip, fp, ex, neg, E, hs, hbody, hipd, hfpd, hdig, hex, rfl⟩
    have hexp := (read_exp_iff ex E).mpr hex
    have hexhead := exponent_text_head hex
    have hr : ex = [] ∨ ∃ c cs, ex = c :: cs ∧ c.isDigit = false := by
      rcases hexhead with h | ⟨c, cs, h1, h2, -⟩
      · exact Or.inl h
      · exact Or.inr ⟨c, cs, h1, h2⟩
    rcases hbody with ⟨rfl, rfl⟩ | rfl
    · -- no point
      have hip : ip ≠ [] := by
        rcases hdig with h | h
        · exact h
        · exact absurd rfl h
      have hhead : ∀ c cs, ip ++ ex = c :: cs → c ≠ '-' ∧ c ≠ '+' := by
        intro c cs hcs
        cases ip with
        | nil => exact absurd rfl hip
        | cons d ds =>
          simp only [List.cons_append, List.cons.injEq] at hcs
          rw [← hcs.1]
          exact digit_not_sign (hipd d (List.mem_cons_self _ _))
      have hts := take_sign_of_signed t _ neg hs hhead
      obtain ⟨t1, t2⟩ := takeWhile_digits_append ip ex hipd hr
      unfold read_decimal
      simp only [hts, t1, t2]
      rcases hexhead with rfl | ⟨c, cs, rfl, -, hdot⟩
      · simp only [hexp]
        simp [hip]
      · simp only [hdot, if_false, hexp]
        simp [hip]
    · -- a point
      have hhead : ∀ c cs, ip ++ '.' :: (fp ++ ex) = c :: cs → c ≠ '-' ∧ c ≠ '+' := by
        intro c cs hcs
        cases ip with
        | nil =>
          simp only [List.nil_append, List.cons.injEq] at hcs
          rw [← hcs.1]
          exact ⟨by decide, by decide⟩
        | cons d ds =>
          simp only [List.cons_append, List.cons.injEq] at hcs
          rw [← hcs.1]
          exact digit_not_sign (hipd d (List.mem_cons_self _ _))
      have hts := take_sign_of_signed t _ neg hs hhead
      have hr1 : ('.' :: (fp ++ ex)) = [] ∨
          ∃ c cs, ('.' :: (fp ++ ex)) = c :: cs ∧ c.isDigit = false :=
        Or.inr ⟨'.', _, rfl, by decide⟩
      obtain ⟨t1, t2⟩ := takeWhile_digits_append ip ('.' :: (fp ++ ex)) hipd hr1
      obtain ⟨u1, u2⟩ := takeWhile_digits_append fp ex hfpd hr
      unfold read_decimal
      simp only [hts, t1, t2, if_true, u1, u2, hexp]
      have hnot : ¬ (ip = [] ∧ fp = []) := by
        rintro ⟨h1, h2⟩
        rcases hdig with h | h
        · exact h h1
        · exact h h2
      rw [if_neg hnot]

theorem lc_iequal_length (w l u : List Char) (h : lc_iequal w l u = true) :
    w.length = l.length := by
  induction w generalizing l u with
  | nil =>
    cases l with
    | nil => rfl
    | cons a l => cases u <;> simp [lc_iequal] at h
  | cons c cs ih =>
    cases l with
    | nil => cases u <;> simp [lc_iequal] at h
    | cons a l =>
      cases u with
      | nil => simp [lc_iequal] at h
      | cons b u =>
        simp only [lc_iequal, Bool.and_eq_true] at h
        simp [ih l u h.2]

theorem lc_iequal_head (w : List Char) (a b : Char) (l u : List Char)
    (h : lc_iequal w (a :: l) (b :: u) = true) :
    ∃ c cs, w = c :: cs ∧ (c = a ∨ c = b) := by
  cases w with
  | nil => simp [lc_iequal] at h
  | cons c cs =>
    simp only [lc_iequal, Bool.and_eq_true, Bool.or_eq_true, decide_eq_true_eq] at h
    exact ⟨c, cs, rfl, h.1⟩

theorem lc_iequal_head_ne (c a b : Char) (cs l2 u2 : List Char)
    (hc : c = a ∨ c = b) (ha : a ≠ 'n') (hb : b ≠ 'n') (ha2 : a ≠ 'N') (hb2 : b ≠ 'N') :
    lc_iequal (c :: cs) ('n' :: l2) ('N' :: u2) = false := by
  have h1 : c ≠ 'n' := by rcases hc with rfl | rfl <;> assumption
  have h2 : c ≠ 'N' := by rcases hc with rfl | rfl <;> assumption
  simp [lc_iequal, h1, h2]

/-- The words `parse_inf_nan` accepts. -/
theorem parse_inf_nan_iff (t : List Char) : parse_inf_nan t ≠ none ↔ nonfinite_text t := by
  constructor
  · intro h
    unfold parse_inf_nan at h
    simp only at h
    have hs := take_sign_signed t
    by_cases hA : t = [] ∨ (take_sign t).2.length < 3
    · rw [if_pos hA] at h
      exact absurd rfl h
    · rw [if_neg hA] at h
      by_cases hnan : lc_iequal ((take_sign t).2.take 3) ['n', 'a', 'n'] ['N', 'A', 'N'] = true
      · rw [if_pos hnan] at h
        have hsplit := List.take_append_drop 3 (take_sign t).2
        by_cases hr : (take_sign t).2.drop 3 = []
        · rw [hr, List.append_nil] at hsplit
          rw [hsplit] at hnan
          exact ⟨_, _, hs, Or.inr (Or.inr (Or.inl hnan))⟩
        · rw [if_neg hr] at h
          by_cases hlen : ((take_sign t).2.drop 3).length < 2
          · rw [if_pos hlen] at h
            exact absurd rfl h
          · rw [if_neg hlen] at h
            by_cases hb : ((take_sign t).2.drop 3).head? = some '(' ∧
                ((take_sign t).2.drop 3).getLast? = some ')'
            · obtain ⟨ys, hys⟩ := List.getLast?_eq_some_iff.mp hb.2
              have hhead := hb.1
              rw [hys] at hhead hlen
              cases ys with
              | nil => simp at hlen
              | cons y ys =>
                simp only [List.cons_append, List.head?_cons, Option.some.injEq] at hhead
                subst hhead
                refine ⟨_, _, hs, Or.inr (Or.inr (Or.inr ⟨(take_sign t).2.take 3, ys, ?_, hnan⟩))⟩
                rw [← List.cons_append, ← hys, hsplit]
            · rw [if_neg hb] at h
              exact absurd rfl h
      · rw [if_neg hnan] at h
        by_cases hinf : lc_iequal (take_sign t).2 ['i', 'n', 'f'] ['I', 'N', 'F'] = true
            ∨ lc_iequal (take_sign t).2 ['i', 'n', 'f', 'i', 'n', 'i', 't', 'y']
                ['I', 'N', 'F', 'I', 'N', 'I', 'T', 'Y'] = true
        · rcases hinf with h1 | h1
          · exact ⟨_, _, hs, Or.inl h1⟩
          · exact ⟨_, _, hs, Or.inr (Or.inl h1)⟩
        · rw [if_neg hinf] at h
          exact absurd rfl h
  · rintro ⟨body, neg, hs, hw⟩
    -- the head of the word is a letter
    have hletter : ∃ c cs, body = c :: cs ∧ (c = 'i' ∨ c = 'I' ∨ c = 'n' ∨ c = 'N') := by
      rcases hw with h1 | h1 | h1 | ⟨w, mid, rfl, h1⟩
      · obtain ⟨c, cs, e, hc⟩ := lc_iequal_head _ _ _ _ _ h1
        exact ⟨c, cs, e, by tauto⟩
      · obtain ⟨c, cs, e, hc⟩ := lc_iequal_head _ _ _ _ _ h1
        exact ⟨c, cs, e, by tauto⟩
      · obtain ⟨c, cs, e, hc⟩ := lc_iequal_head _ _ _ _ _ h1
        exact ⟨c, cs, e, by tauto⟩
      · obtain ⟨c, cs, e, hc⟩ := lc_iequal_head _ _ _ _ _ h1
        exact ⟨c, cs ++ '(' :: (mid ++ [')']), by rw [e]; rfl, by tauto⟩
    have hhead : ∀ c cs, body = c :: cs → c ≠ '-' ∧ c ≠ '+' := by
      intro c cs e
      obtain ⟨c1, cs1, e1, hc1⟩ := hletter
      rw [e1] at e
      simp only [List.cons.injEq] at e
      rw [← e.1]
      rcases hc1 with rfl | rfl | rfl | rfl <;> exact ⟨by decide, by decide⟩
    have hts := take_sign_of_signed t body neg hs hhead
    have htne : t ≠ [] := by
      obtain ⟨c1, cs1, e1, -⟩ := hletter
      rcases hs with ⟨rfl, -⟩ | ⟨rfl, -⟩ | ⟨rfl, -⟩
      · rw [e1]; simp
      · simp
      · simp
    unfold parse_inf_nan
    simp only [hts]
    rcases hw with h1 | h1 | h1 | ⟨w, mid, rfl, h1⟩
    · have hlen := lc_iequal_length _ _ _ h1
      obtain ⟨c, cs, e, hc⟩ := lc_iequal_head _ _ _ _ _ h1
      have hno : lc_iequal (body.take 3) ['n', 'a', 'n'] ['N', 'A', 'N'] = false := by
        rw [e]
        exact lc_iequal_head_ne c 'i' 'I' _ _ _ hc (by decide) (by decide) (by decide)
          (by decide)
      rw [if_neg (by simp [htne, hlen]), hno]
      simp [h1]
    · have hlen := lc_iequal_length _ _ _ h1
      obtain ⟨c, cs, e, hc⟩ := lc_iequal_head _ _ _ _ _ h1
      have hno : lc_iequal (body.take 3) ['n', 'a', 'n'] ['N', 'A', 'N'] = false := by
        rw [e]
        exact lc_iequal_head_ne c 'i' 'I' _ _ _ hc (by decide) (by decide) (by decide)
          (by decide)
      rw [if_neg (by simp [htne, hlen]), hno]
      simp [h1]
    · have hlen := lc_iequal_length _ _ _ h1
      have htake : body.take 3 = body := List.take_of_length_le (by rw [hlen]; simp)
      have hdrop : body.drop 3 = [] := List.drop_of_length_le (by rw [hlen]; simp)
      rw [if_neg (by simp [htne, hlen]), htake, h1, hdrop]
      simp
    · have hlen : w.length = 3 := lc_iequal_length _ _ _ h1
      have htake : (w ++ '(' :: (mid ++ [')'])).take 3 = w := List.take_left' hlen
      have hdrop : (w ++ '(' :: (mid ++ [')'])).drop 3 = '(' :: (mid ++ [')']) :=
        List.drop_left' hlen
      have hlast : ('(' :: (mid ++ [')'])).getLast? = some ')' := by
        rw [← List.cons_append]
        exact List.getLast?_concat _
      rw [if_neg (by simp [htne, hlen]), htake, h1, hdrop]
      simp [hlast]

/-- The texts `lexical_cast<float>` accepts: the words for non-finite values and
the decimal literals that do not overflow. -/
theorem lexical_cast_float_accepts_text (t : List Char) :
    lexical_cast_float t ≠ none ↔ float_text t := by
  unfold lexical_cast_float float_text
  constructor
  · intro h
    cases hp : parse_inf_nan t with
    | some v =>
      left
      exact (parse_inf_nan_iff t).mp (by rw [hp]; simp)
    | none =>
      rw [hp] at h
      simp only at h
      right
      cases hd : read_decimal t with
      | none =>
        rw [hd] at h
        exact absurd rfl h
      | some q =>
        rw [hd] at h
        simp only at h
        by_cases hq : |q| < FLT_OVERFLOW
        · exact ⟨q, (read_decimal_iff t q).mp hd, hq⟩
        · rw [if_neg hq] at h
          exact absurd rfl h
  · intro h
    cases hp : parse_inf_nan t with
    | some v => simp
    | none =>
      simp only
      rcases h with h | ⟨v, hv, hlt⟩
      · exact absurd hp ((parse_inf_nan_iff t).mpr h)
      · rw [(read_decimal_iff t v).mpr hv]
        simp only
        rw [if_pos hlt]
        simp

/-! ## Malformed fields -/

/-- C6, as stated, fails in both directions.  The field `-5` is not the numeral
of an unsigned 32-bit integer, yet `update` accepts it (and stores
`2 ^ 32 - 5`); the field `1e39` is a decimal floating literal, as `0` is a
numeral and a literal, yet `update` throws on it, the value being too large for
`float`. -/
theorem update_accepts_minus_rejects_large :
    (fields "link0,-5,0,0,0,0,0,0,0,0,0,0,0,0,0".data).length = 15 ∧
    (∀ f ∈ fields "link0,-5,0,0,0,0,0,0,0,0,0,0,0,0,0".data, f ≠ []) ∧
    (fields "link0,-5,0,0,0,0,0,0,0,0,0,0,0,0,0".data).getD 1 [] = ['-', '5'] ∧
    ¬ unsigned_text ['-', '5'] ∧
    ((TransferStats.ctor "x").update "link0,-5,0,0,0,0,0,0,0,0,0,0,0,0,0").outcome = .ok ∧
    ((TransferStats.ctor "x").update "link0,-5,0,0,0,0,0,0,0,0,0,0,0,0,0").state.m_seq
      = 4294967291 ∧
    (fields "link0,0,0,0,0,0,0,0,0,1e39,0,0,0,0,0".data).length = 15 ∧
    (∀ f ∈ fields "link0,0,0,0,0,0,0,0,0,1e39,0,0,0,0,0".data, f ≠ []) ∧
    (∀ i, 1 ≤ i → i ≤ 8 →
      unsigned_text ((fields "link0,0,0,0,0,0,0,0,0,1e39,0,0,0,0,0".data).getD i [])) ∧
    (∀ i, 9 ≤ i → i ≤ 14 →
      ∃ v, decimal_text ((fields "link0,0,0,0,0,0,0,0,0,1e39,0,0,0,0,0".data).getD i []) v) ∧
    (fields "link0,0,0,0,0,0,0,0,0,1e39,0,0,0,0,0".data).getD 9 [] = ['1', 'e', '3', '9'] ∧
    decimal_text ['1', 'e', '3', '9'] (10 ^ 39) ∧
    ((TransferStats.ctor "x").update "link0,0,0,0,0,0,0,0,0,1e39,0,0,0,0,0").outcome
      = .bad_lexical_cast := by
  have hzero : unsigned_text ['0'] := ⟨⟨by simp, by decide⟩, by decide⟩
  have hzerof : decimal_text ['0'] 0 :=
    ⟨['0'], ['0'], [], [], false, 0, Or.inl ⟨rfl, rfl⟩, Or.inl ⟨rfl, rfl⟩, by decide,
      by simp, Or.inl (by simp), Or.inl ⟨rfl, rfl⟩, by decide!⟩
  have hbig : decimal_text ['1', 'e', '3', '9'] (10 ^ 39) :=
    ⟨['1', 'e', '3', '9'], ['1'], [], ['e', '3', '9'], false, 39, Or.inl ⟨rfl, rfl⟩,
      Or.inl ⟨rfl, rfl⟩, by decide, by simp, Or.inl (by simp),
      Or.inr ⟨'e', ['3', '9'], ['3', '9'], false, rfl, Or.inl rfl, Or.inl ⟨rfl, rfl⟩,
        ⟨by simp, by decide⟩, by decide⟩,
      by decide!⟩
  refine ⟨by decide, by decide, by decide, ?_, by decide!, by decide!, by decide, by decide,
    ?_, ?_, by decide, hbig, by decide!⟩
  · intro h
    exact absurd (h.1.2 '-' (List.mem_cons_self _ _)) (by decide)
  · intro i h1 h8
    interval_cases i <;> exact hzero
  · intro i h9 h14
    interval_cases i
    · exact ⟨_, hbig⟩
    all_goals exact ⟨_, hzerof⟩

/-- C6, amended: for a record of exactly fifteen non-empty comma-separated
fields, `update` throws `bad_lexical_cast` if one of fields 2 to 9 is not a run
of decimal digits of value at most `2 ^ 32 - 1` behind an optional `+` or `-`, or
one of fields 10 to 15 is neither a decimal floating literal of magnitude below
`2 ^ 128 - 2 ^ 103` nor one of the words `inf`, `infinity`, `nan`, `nan(...)`
behind an optional sign, and ends normally otherwise (fields are indexed from 0
below, the name being field 0). -/
theorem update_fails_iff_field_malformed (s : TransferStats) (record : String)
    (hlen : (fields record.data).length = 15) (hne : ∀ f ∈ fields record.data, f ≠ []) :
    (((∃ i, 1 ≤ i ∧ i ≤ 8 ∧ ¬ uint32_text ((fields record.data).getD i [])) ∨
      (∃ i, 9 ≤ i ∧ i ≤ 14 ∧ ¬ float_text ((fields record.data).getD i []))) →
      (s.update record).outcome = .bad_lexical_cast) ∧
    (¬ ((∃ i, 1 ≤ i ∧ i ≤ 8 ∧ ¬ uint32_text ((fields record.data).getD i [])) ∨
      (∃ i, 9 ≤ i ∧ i ≤ 14 ∧ ¬ float_text ((fields record.data).getD i []))) →
      (s.update record).outcome = .ok) := by
  have hu : ∀ t, lexical_cast_uint32 t = none ↔ ¬ uint32_text t := by
    intro t
    rw [← lexical_cast_uint32_accepts_text]
    simp
  have hf : ∀ t, lexical_cast_float t = none ↔ ¬ float_text t := by
    intro t
    rw [← lexical_cast_float_accepts_text]
    simp
  have key := update_fails_iff_cast_rejects s record hlen hne
  simp only [hu, hf] at key
  exact key

/-- Witness of the amended C6: a record whose fields 2 and 10 are `-5` and
`-1.5e-3` and whose last field is `inf` is accepted; with `1e39` as field 10 it
is rejected. -/
theorem update_fails_iff_field_malformed_witness :
    (fields "link0,-5,+7,0,0,0,1000,5,0,-1.5e-3,.5,0,980,0,inf".data).length = 15 ∧
    (∀ f ∈ fields "link0,-5,+7,0,0,0,1000,5,0,-1.5e-3,.5,0,980,0,inf".data, f ≠ []) ∧
    ((TransferStats.ctor "x").update
      "link0,-5,+7,0,0,0,1000,5,0,-1.5e-3,.5,0,980,0,inf").outcome = .ok ∧
    (fields "link0,-5,+7,0,0,0,1000,5,0,1e39,.5,0,980,0,inf".data).length = 15 ∧
    (∀ f ∈ fields "link0,-5,+7,0,0,0,1000,5,0,1e39,.5,0,980,0,inf".data, f ≠ []) ∧
    ¬ float_text ['1', 'e', '3', '9'] ∧
    ((TransferStats.ctor "x").update
      "link0,-5,+7,0,0,0,1000,5,0,1e39,.5,0,980,0,inf").outcome = .bad_lexical_cast :=
  have hbig : ¬ float_text ['1', 'e', '3', '9'] := fun h =>
    absurd ((lexical_cast_float_accepts_text _).mpr h) (by decide!)
  ⟨by decide, by decide,
    (update_fails_iff_field_malformed (TransferStats.ctor "x")
      "link0,-5,+7,0,0,0,1000,5,0,-1.5e-3,.5,0,980,0,inf" (by decide) (by decide)).2
      (by
        rintro (⟨i, h1, h8, hn⟩ | ⟨i, h9, h14, hn⟩)
        · interval_cases i <;>
            exact hn ((lexical_cast_uint32_accepts_text _).mp (by decide))
        · interval_cases i <;>
            exact hn ((lexical_cast_float_accepts_text _).mp (by decide!))),
    by decide, by decide, hbig,
    (update_fails_iff_field_malformed (TransferStats.ctor "x")
      "link0,-5,+7,0,0,0,1000,5,0,1e39,.5,0,980,0,inf" (by decide) (by decide)).1
      (Or.inr ⟨9, by decide, by decide, hbig⟩)⟩

/-! ## Round trip through the record -/

/-- C1, as stated, fails: `flush_count` is not part of the record, so a state
that has counted a flush comes back with `flush_count = 0`; a name with a comma
makes `update` throw on the record that `serialize` wrote; and an empty name
leaves that record with fourteen tokens, the first counter being taken for the
name. -/
theorem roundtrip_loses_flush_count_and_names :
    ((TransferStats.ctor "link0").add_send_stats 1000 5 0 2 true 0.001).m_flushes = 1 ∧
    ((TransferStats.ctor "link0").update
      ((TransferStats.ctor "link0").add_send_stats 1000 5 0 2 true 0.001).serialize).outcome
        = .ok ∧
    ((TransferStats.ctor "link0").update
      ((TransferStats.ctor "link0").add_send_stats 1000 5 0 2 true 0.001).serialize).state.m_flushes
        = 0 ∧
    ((TransferStats.ctor "fresh").update (TransferStats.ctor "a,b").serialize).outcome
        = .bad_lexical_cast ∧
    ((TransferStats.ctor "fresh").update (TransferStats.ctor "").serialize).outcome
        = .past_the_end ∧
    ((TransferStats.ctor "fresh").update (TransferStats.ctor "").serialize).state.m_name
        = "0" := by
  refine ⟨by decide, by decide!, by decide!, by decide!, by decide!, by decide!⟩

/-- C1, amended: for a state whose name is non-empty and free of commas, whose
counters fit 32 bits and whose smoothed values are values of `float`,
`update(serialize())` on a freshly constructed aggregator ends normally and
reproduces the name and the eight serialized counters exactly and each smoothed
value to within one unit of its sixth significant digit (a zero and a non-finite
value exactly); `flush_count`, which the record does not carry, is the fresh
aggregator's 0. -/
theorem roundtrip_on_fresh (s : TransferStats) (name0 : String)
    (hne : s.m_name.data ≠ []) (hc : ',' ∉ s.m_name.data) (hcnt : s.counters_in_range)
    (hflt : s.floats_are_floats) :
    ∃ t : TransferStats,
      (TransferStats.ctor name0).update s.serialize = ⟨.ok, t⟩ ∧
      t.m_name = s.m_name ∧ t.m_seq = s.m_seq ∧ t.m_blocks = s.m_blocks ∧
      t.m_bytes = s.m_bytes ∧ t.m_block_errors = s.m_block_errors ∧
      t.m_seq_errors = s.m_seq_errors ∧ t.m_send_bytes = s.m_send_bytes ∧
      t.m_send_blocks = s.m_send_blocks ∧ t.m_inject_errors = s.m_inject_errors ∧
      t.m_flushes = 0 ∧
      s.m_queue_size.agree6 t.m_queue_size ∧ s.m_enc_time.agree6 t.m_enc_time ∧
      s.m_send_time.agree6 t.m_send_time ∧ s.m_pkt_time.agree6 t.m_pkt_time ∧
      s.m_latency.agree6 t.m_latency ∧ s.m_rssi.agree6 t.m_rssi := by
  obtain ⟨c1, c2, c3, c4, c5, c6, c7, c8, -⟩ := hcnt
  obtain ⟨r1, r2, r3, r4, r5, r6⟩ := hflt
  obtain ⟨f9, h9, a9⟩ := lexical_cast_float_put_float_near s.m_queue_size r1
  obtain ⟨f10, h10, a10⟩ := lexical_cast_float_put_float_near s.m_enc_time r2
  obtain ⟨f11, h11, a11⟩ := lexical_cast_float_put_float_near s.m_send_time r3
  obtain ⟨f12, h12, a12⟩ := lexical_cast_float_put_float_near s.m_pkt_time r4
  obtain ⟨f13, h13, a13⟩ := lexical_cast_float_put_float_near s.m_latency r5
  obtain ⟨f14, h14, a14⟩ := lexical_cast_float_put_float_near s.m_rssi r6
  have hrun := update_run_explicit (TransferStats.ctor name0) s.m_name.data
    (put_uint s.m_seq) (put_uint s.m_blocks) (put_uint s.m_bytes) (put_uint s.m_block_errors)
    (put_uint s.m_seq_errors) (put_uint s.m_send_bytes) (put_uint s.m_send_blocks)
    (put_uint s.m_inject_errors) (put_float s.m_queue_size) (put_float s.m_enc_time)
    (put_float s.m_send_time) (put_float s.m_pkt_time) (put_float s.m_latency)
    (put_float s.m_rssi) [] _ _ _ _ _ _ _ _ _ _ _ _ _ _
    (lexical_cast_uint32_put_uint c1) (lexical_cast_uint32_put_uint c2)
    (lexical_cast_uint32_put_uint c3) (lexical_cast_uint32_put_uint c4)
    (lexical_cast_uint32_put_uint c5) (lexical_cast_uint32_put_uint c6)
    (lexical_cast_uint32_put_uint c7) (lexical_cast_uint32_put_uint c8)
    h9 h10 h11 h12 h13 h14
  refine ⟨{ m_name := s.m_name, m_seq := s.m_seq, m_blocks := s.m_blocks, m_bytes := s.m_bytes,
             m_block_errors := s.m_block_errors, m_seq_errors := s.m_seq_errors,
             m_send_bytes := s.m_send_bytes, m_send_blocks := s.m_send_blocks,
             m_inject_errors := s.m_inject_errors, m_flushes := 0, m_queue_size := f9,
             m_enc_time := f10, m_send_time := f11, m_pkt_time := f12, m_rssi := f14,
             m_latency := f13 }, ?_, ?_⟩
  · unfold TransferStats.update
    rw [tokenize_serialize s hne hc]
    exact hrun
  · exact ⟨rfl, rfl, rfl, rfl, rfl, rfl, rfl, rfl, rfl, rfl, a9, a10, a11, a12, a13, a14⟩

/-- Witness of the amended C1: a state after one send report (its smoothed values
0 and 980 are values of `float`), sent to a fresh aggregator of another name. -/
theorem roundtrip_on_fresh_witness :
    ((TransferStats.ctor "link0").add_send_stats 1000 5 0 0 false 0.001).m_name.data ≠ [] ∧
    ',' ∉ ((TransferStats.ctor "link0").add_send_stats 1000 5 0 0 false 0.001).m_name.data ∧
    ((TransferStats.ctor "link0").add_send_stats 1000 5 0 0 false 0.001).counters_in_range ∧
    ((TransferStats.ctor "link0").add_send_stats 1000 5 0 0 false 0.001).floats_are_floats ∧
    ∃ t : TransferStats,
      (TransferStats.ctor "peer").update
          ((TransferStats.ctor "link0").add_send_stats 1000 5 0 0 false 0.001).serialize
        = ⟨.ok, t⟩ ∧
      t.m_name = "link0" ∧ t.m_send_bytes = 1000 ∧ t.m_flushes = 0 :=
  have hne : ((TransferStats.ctor "link0").add_send_stats 1000 5 0 0 false 0.001).m_name.data
      ≠ [] := by decide
  have hc : ',' ∉ ((TransferStats.ctor "link0").add_send_stats 1000 5 0 0 false 0.001).m_name.data :=
    by decide
  have hcnt : ((TransferStats.ctor "link0").add_send_stats 1000 5 0 0 false 0.001).counters_in_range :=
    by refine ⟨?_, ?_, ?_, ?_, ?_, ?_, ?_, ?_, ?_⟩ <;> decide
  have hflt : ((TransferStats.ctor "link0").add_send_stats 1000 5 0 0 false 0.001).floats_are_floats :=
    by
      refine ⟨⟨0, 0, ?_⟩, ⟨0, 0, ?_⟩, ⟨0, 0, ?_⟩, ⟨980, 0, ?_⟩, ⟨0, 0, ?_⟩, ⟨0, 0, ?_⟩⟩ <;>
        norm_num [prev_weight]
  ⟨hne, hc, hcnt, hflt,
    (roundtrip_on_fresh _ "peer" hne hc hcnt hflt).imp
      (fun _ h => ⟨h.1, h.2.1, h.2.2.2.2.2.2.2.1, h.2.2.2.2.2.2.2.2.2.2.1⟩)⟩

/-- The read-back rounds: the record field `1.000005` is stored as the nearest
`float`, `4194325 / 2 ^ 22`; `serialize` writes it as `1.00001`, which `update`
stores as `2097173 / 2 ^ 21`: more than half a unit of the sixth significant
digit away, and less than one unit. -/
theorem roundtrip_reads_nearest_float :
    ((TransferStats.ctor "link0").update
      "link0,0,0,0,0,0,0,0,0,0,1.000005,0,0,0,0").state.m_enc_time
        = .fin (4194325 / 4194304) ∧
    ((TransferStats.ctor "link0").update
      "link0,0,0,0,0,0,0,0,0,0,1.000005,0,0,0,0").state.serialize
        = "link0,0,0,0,0,0,0,0,0,0,1.00001,0,0,0,0" ∧
    ((TransferStats.ctor "peer").update
      "link0,0,0,0,0,0,0,0,0,0,1.00001,0,0,0,0").state.m_enc_time
        = .fin (2097173 / 2097152) ∧
    (5 / 1000000 : ℚ) * (4194325 / 4194304) < 2097173 / 2097152 - 4194325 / 4194304 ∧
    (Flt.fin (4194325 / 4194304)).agree6 (.fin (2097173 / 2097152)) := by
  refine ⟨by decide!, by decide!, by decide!, by norm_num, ?_⟩
  show if (4194325 / 4194304 : ℚ) = 0 then (2097173 / 2097152 : ℚ) = 0
    else |(2097173 / 2097152 : ℚ) - 4194325 / 4194304|
      ≤ (10 : ℚ) ^ (dec_exp |(4194325 / 4194304 : ℚ)| - 5)
  decide!

/-! ## The snapshot `get_stats` -/

theorem round_away_near (q : ℚ) : |((round_away q : Int) : ℚ) - q| ≤ 1 / 2 := by
  unfold round_away
  split_ifs with h
  · have h1 := Int.floor_le (q + 1 / 2)
    have h2 := Int.lt_floor_add_one (q + 1 / 2)
    rw [abs_le]; constructor <;> linarith
  · have h1 := Int.floor_le (-q + 1 / 2)
    have h2 := Int.lt_floor_add_one (-q + 1 / 2)
    push_cast
    rw [abs_le]; constructor <;> linarith

theorem round_away_tie (q : ℚ) (h : |((round_away q : Int) : ℚ) - q| = 1 / 2) :
    |q| < |((round_away q : Int) : ℚ)| := by
  unfold round_away at h ⊢
  split_ifs at h ⊢ with h0
  · have h1 := Int.floor_le (q + 1 / 2)
    have h2 := Int.lt_floor_add_one (q + 1 / 2)
    have hq : ((⌊q + 1 / 2⌋ : Int) : ℚ) = q + 1 / 2 := by
      rcases abs_eq (by norm_num : (0 : ℚ) ≤ 1 / 2) |>.mp h with h3 | h3
      · linarith
      · linarith
    rw [hq, abs_of_nonneg h0, abs_of_nonneg (by linarith)]
    linarith
  · have hneg : q < 0 := lt_of_not_le h0
    have h1 := Int.floor_le (-q + 1 / 2)
    have h2 := Int.lt_floor_add_one (-q + 1 / 2)
    push_cast at h ⊢
    have hq : ((⌊-q + 1 / 2⌋ : Int) : ℚ) = -q + 1 / 2 := by
      rcases abs_eq (by norm_num : (0 : ℚ) ≤ 1 / 2) |>.mp h with h3 | h3
      · linarith
      · linarith
    rw [hq, abs_of_neg hneg, abs_of_neg (by linarith)]
    linarith

theorem round_away_mono_bounds (q : ℚ) (lo hi : Int) (hlo : (lo : ℚ) ≤ q) (hhi : q ≤ (hi : ℚ))
    (hl0 : lo ≤ 0) (hh0 : 0 ≤ hi) : lo ≤ round_away q ∧ round_away q ≤ hi := by
  unfold round_away
  split_ifs with h
  · constructor
    · have : (0 : Int) ≤ ⌊q + 1 / 2⌋ := Int.floor_nonneg.mpr (by linarith)
      omega
    · have h2 : ⌊q + 1 / 2⌋ < hi + 1 := by
        rw [Int.floor_lt]
        push_cast
        linarith
      omega
  · have hneg : q < 0 := lt_of_not_le h
    constructor
    · have h2 : ⌊-q + 1 / 2⌋ < -lo + 1 := by
        rw [Int.floor_lt]
        push_cast
        linarith
      omega
    · have : (0 : Int) ≤ ⌊-q + 1 / 2⌋ := Int.floor_nonneg.mpr (by linarith)
      omega

/-- C12: `get_stats()` copies the eight counters (`bytes_out` from `send_bytes`,
`blocks_out` from `send_blocks`), the three times and the latency as they are,
and sets `rssi` to the smoothed rssi rounded to the nearest integer, halves away
from zero, converted to a signed 8-bit value. -/
theorem get_stats_copies (s : TransferStats) :
    s.get_stats.sequences = s.m_seq ∧ s.get_stats.blocks_in = s.m_blocks ∧
    s.get_stats.bytes_in = s.m_bytes ∧ s.get_stats.block_errors = s.m_block_errors ∧
    s.get_stats.sequence_errors = s.m_seq_errors ∧ s.get_stats.bytes_out = s.m_send_bytes ∧
    s.get_stats.blocks_out = s.m_send_blocks ∧ s.get_stats.inject_errors = s.m_inject_errors ∧
    s.get_stats.encode_time = s.m_enc_time ∧ s.get_stats.send_time = s.m_send_time ∧
    s.get_stats.pkt_time = s.m_pkt_time ∧ s.get_stats.latency = s.m_latency ∧
    s.get_stats.rssi = round_to_int8 s.m_rssi ∧
    (∀ q : ℚ, s.m_rssi = .fin q → -128 ≤ round_away q → round_away q ≤ 127 →
      s.get_stats.rssi = some (round_away q)) ∧
    (∀ r : Int, s.get_stats.rssi = some r → -128 ≤ r ∧ r ≤ 127) ∧
    (∀ q : ℚ, |((round_away q : Int) : ℚ) - q| ≤ 1 / 2 ∧
      (|((round_away q : Int) : ℚ) - q| = 1 / 2 → |q| < |((round_away q : Int) : ℚ)|)) ∧
    round_away (5 / 2) = 3 ∧ round_away (-5 / 2) = -3 := by
  refine ⟨rfl, rfl, rfl, rfl, rfl, rfl, rfl, rfl, rfl, rfl, rfl, rfl, rfl, ?_, ?_, ?_,
    by decide!, by decide!⟩
  · intro q hq hlo hhi
    show round_to_int8 s.m_rssi = some (round_away q)
    rw [hq]
    simp [round_to_int8, hlo, hhi]
  · intro r hr
    have hr2 : round_to_int8 s.m_rssi = some r := hr
    cases hx : s.m_rssi with
    | fin q =>
      rw [hx] at hr2
      simp only [round_to_int8] at hr2
      split_ifs at hr2 with hc
      have : round_away q = r := Option.some.inj hr2
      rw [← this]
      exact hc
    | inf neg => rw [hx] at hr2; simp [round_to_int8] at hr2
    | nan neg => rw [hx] at hr2; simp [round_to_int8] at hr2
  · exact fun q => ⟨round_away_near q, round_away_tie q⟩

/-- Witness of C12: the fresh aggregator after one `add_rssi(-70)`, whose smoothed
rssi -68.6 is reported as -69. -/
theorem get_stats_copies_witness :
    ((TransferStats.ctor "link0").add_rssi (-70)).m_rssi = .fin (-68.6) ∧
    ((TransferStats.ctor "link0").add_rssi (-70)).get_stats.rssi = some (round_away (-68.6)) ∧
    round_away (-68.6) = -69 :=
  ⟨by decide!,
    (get_stats_copies ((TransferStats.ctor "link0").add_rssi (-70))).2.2.2.2.2.2.2.2.2.2.2.2.2.1
      (-68.6) (by decide!) (by decide!) (by decide!),
    by decide!⟩

/-- C13, as stated, fails: the fresh aggregator and the one that has counted a
flush have the same snapshot and different `flush_count`; so have the fresh
aggregator and one with a smoothed `queue_size` of 4.9. -/
theorem get_stats_omits_flushes_and_queue :
    (TransferStats.ctor "link0").get_stats
      = ((TransferStats.ctor "link0").add_send_stats 0 0 0 0 true 0).get_stats ∧
    (TransferStats.ctor "link0").m_flushes = 0 ∧
    ((TransferStats.ctor "link0").add_send_stats 0 0 0 0 true 0).m_flushes = 1 ∧
    (TransferStats.ctor "link0").get_stats
      = ((TransferStats.ctor "link0").add_send_stats 0 0 0 5 false 0).get_stats ∧
    (TransferStats.ctor "link0").m_queue_size = .fin 0 ∧
    ((TransferStats.ctor "link0").add_send_stats 0 0 0 5 false 0).m_queue_size = .fin 4.9 := by
  refine ⟨by decide!, by decide, by decide, by decide!, by decide!, by decide!⟩

/-- C13, amended: two states with the same snapshot agree on the eight counters
the snapshot carries and on the encode, send and packet times and the latency,
and their rssi values, when the first rounds into the signed 8-bit range, round
to the same integer. -/
theorem get_stats_determines (s1 s2 : TransferStats) (h : s1.get_stats = s2.get_stats) :
    s1.m_seq = s2.m_seq ∧ s1.m_blocks = s2.m_blocks ∧ s1.m_bytes = s2.m_bytes ∧
    s1.m_block_errors = s2.m_block_errors ∧ s1.m_seq_errors = s2.m_seq_errors ∧
    s1.m_send_bytes = s2.m_send_bytes ∧ s1.m_send_blocks = s2.m_send_blocks ∧
    s1.m_inject_errors = s2.m_inject_errors ∧
    s1.m_enc_time = s2.m_enc_time ∧ s1.m_send_time = s2.m_send_time ∧
    s1.m_pkt_time = s2.m_pkt_time ∧ s1.m_latency = s2.m_latency ∧
    (∀ q1 q2 : ℚ, s1.m_rssi = .fin q1 → s2.m_rssi = .fin q2 →
      -128 ≤ round_away q1 → round_away q1 ≤ 127 → round_away q1 = round_away q2) := by
  have hr : round_to_int8 s1.m_rssi = round_to_int8 s2.m_rssi :=
    congrArg transfer_stats_t.rssi h
  refine ⟨congrArg transfer_stats_t.sequences h, congrArg transfer_stats_t.blocks_in h,
    congrArg transfer_stats_t.bytes_in h, congrArg transfer_stats_t.block_errors h,
    congrArg transfer_stats_t.sequence_errors h, congrArg transfer_stats_t.bytes_out h,
    congrArg transfer_stats_t.blocks_out h, congrArg transfer_stats_t.inject_errors h,
    congrArg transfer_stats_t.encode_time h, congrArg transfer_stats_t.send_time h,
    congrArg transfer_stats_t.pkt_time h, congrArg transfer_stats_t.latency h, ?_⟩
  intro q1 q2 h1 h2 hlo hhi
  rw [h1, h2] at hr
  simp only [round_to_int8] at hr
  rw [if_pos ⟨hlo, hhi⟩] at hr
  split_ifs at hr with hc
  exact Option.some.inj hr

/-- Witness of the amended C13: two aggregators of different names and equal
snapshots. -/
theorem get_stats_determines_witness :
    (TransferStats.ctor "a").get_stats = (TransferStats.ctor "b").get_stats ∧
    (TransferStats.ctor "a").m_seq = (TransferStats.ctor "b").m_seq :=
  ⟨by decide!, (get_stats_determines (TransferStats.ctor "a") (TransferStats.ctor "b")
    (by decide!)).1⟩

/-- C14: `get_stats()`, `serialize()` and `name()` leave the state as it was. -/
theorem reads_leave_state (s : TransferStats) :
    s.get_stats_call.2 = s ∧ s.serialize_call.2 = s ∧ s.name_call.2 = s ∧
    (∀ w : Nat, Op.apply w s .get_stats = s ∧ Op.apply w s .serialize = s ∧
      Op.apply w s .name = s) :=
  ⟨rfl, rfl, rfl, fun _ => ⟨rfl, rfl, rfl⟩⟩

/-- C19: each accumulating method changes only its own members. -/
theorem mutators_frame (w : Nat) (s : TransferStats) :
    (∀ cur prev : FECDecoderStats,
      (s.add w cur prev).m_name = s.m_name ∧
      (s.add w cur prev).m_send_bytes = s.m_send_bytes ∧
      (s.add w cur prev).m_send_blocks = s.m_send_blocks ∧
      (s.add w cur prev).m_inject_errors = s.m_inject_errors ∧
      (s.add w cur prev).m_flushes = s.m_flushes ∧
      (s.add w cur prev).m_queue_size = s.m_queue_size ∧
      (s.add w cur prev).m_enc_time = s.m_enc_time ∧
      (s.add w cur prev).m_send_time = s.m_send_time ∧
      (s.add w cur prev).m_pkt_time = s.m_pkt_time ∧
      (s.add w cur prev).m_latency = s.m_latency ∧
      (s.add w cur prev).m_rssi = s.m_rssi) ∧
    (∀ (bytes nblocks inject_errors queue_size : Nat) (flush : Bool) (pkt_time : ℚ),
      (s.add_send_stats bytes nblocks inject_errors queue_size flush pkt_time).m_name
        = s.m_name ∧
      (s.add_send_stats bytes nblocks inject_errors queue_size flush pkt_time).m_seq
        = s.m_seq ∧
      (s.add_send_stats bytes nblocks inject_errors queue_size flush pkt_time).m_blocks
        = s.m_blocks ∧
      (s.add_send_stats bytes nblocks inject_errors queue_size flush pkt_time).m_bytes
        = s.m_bytes ∧
      (s.add_send_stats bytes nblocks inject_errors queue_size flush pkt_time).m_block_errors
        = s.m_block_errors ∧
      (s.add_send_stats bytes nblocks inject_errors queue_size flush pkt_time).m_seq_errors
        = s.m_seq_errors ∧
      (s.add_send_stats bytes nblocks inject_errors queue_size flush pkt_time).m_enc_time
        = s.m_enc_time ∧
      (s.add_send_stats bytes nblocks inject_errors queue_size flush pkt_time).m_send_time
        = s.m_send_time ∧
      (s.add_send_stats bytes nblocks inject_errors queue_size flush pkt_time).m_latency
        = s.m_latency ∧
      (s.add_send_stats bytes nblocks inject_errors queue_size flush pkt_time).m_rssi
        = s.m_rssi) ∧
    (∀ rssi : Int, s.add_rssi rssi = { s with m_rssi := (s.add_rssi rssi).m_rssi }) ∧
    (∀ t : ℚ, s.add_encode_time t = { s with m_enc_time := (s.add_encode_time t).m_enc_time }) ∧
    (∀ t : ℚ, s.add_send_time t = { s with m_send_time := (s.add_send_time t).m_send_time }) ∧
    (∀ t : Nat, s.add_latency t = { s with m_latency := (s.add_latency t).m_latency }) :=
  ⟨fun _ _ => ⟨rfl, rfl, rfl, rfl, rfl, rfl, rfl, rfl, rfl, rfl, rfl⟩,
    fun _ _ _ _ _ _ => ⟨rfl, rfl, rfl, rfl, rfl, rfl, rfl, rfl, rfl, rfl⟩,
    fun _ => rfl, fun _ => rfl, fun _ => rfl, fun _ => rfl⟩

/-! ## The flush counter -/

theorem run_keeps_flushes (as : List Assignment)
    (hkeep : ∀ a ∈ as, ∀ t s s1, a t s = some s1 → s1.m_flushes = s.m_flushes) :
    ∀ (toks : List (List Char)) (s : TransferStats),
      (run_assignments as toks s).state.m_flushes = s.m_flushes := by
  induction as with
  | nil => intro toks s; rw [run_nil]
  | cons a as ih =>
    intro toks s
    cases toks with
    | nil => rfl
    | cons t ts =>
      cases h : a t s with
      | none => rw [run_cons_none h]
      | some s1 =>
        rw [run_cons_some h, ih (fun b hb => hkeep b (List.mem_cons_of_mem _ hb)) ts s1]
        exact hkeep a (List.mem_cons_self _ _) t s s1 h

theorem update_assignments_keep_flushes :
    ∀ a ∈ update_assignments, ∀ t s s1, a t s = some s1 → s1.m_flushes = s.m_flushes := by
  intro a ha t s s1 h
  simp only [update_assignments, List.mem_cons, List.mem_singleton, List.not_mem_nil,
    or_false] at ha
  rcases ha with rfl | rfl | rfl | rfl | rfl | rfl | rfl | rfl | rfl | rfl | rfl | rfl | rfl
    | rfl | rfl
  · simp only [Option.some.injEq] at h
    rw [← h]
  all_goals
    simp only [Option.map_eq_some'] at h
    obtain ⟨v, -, hv⟩ := h
    rw [← hv]

theorem update_keeps_flushes (s : TransferStats) (record : String) :
    (s.update record).state.m_flushes = s.m_flushes :=
  run_keeps_flushes update_assignments update_assignments_keep_flushes _ s

theorem op_flushes (w : Nat) (s : TransferStats) (op : Op) :
    (op.apply w s).m_flushes = u32 (s.m_flushes + (if op.is_flush then 1 else 0)) ∨
    ((op.apply w s).m_flushes = s.m_flushes ∧ op.is_flush = false) := by
  cases op with
  | mutate m =>
    cases m with
    | add_send_stats bytes nblocks inject_errors queue_size flush pkt_time =>
      left
      cases flush <;> rfl
    | add cur prev => exact Or.inr ⟨rfl, rfl⟩
    | add_rssi rssi => exact Or.inr ⟨rfl, rfl⟩
    | add_encode_time t => exact Or.inr ⟨rfl, rfl⟩
    | add_send_time t => exact Or.inr ⟨rfl, rfl⟩
    | add_latency t => exact Or.inr ⟨rfl, rfl⟩
  | update record => exact Or.inr ⟨update_keeps_flushes s record, rfl⟩
  | get_stats => exact Or.inr ⟨rfl, rfl⟩
  | serialize => exact Or.inr ⟨rfl, rfl⟩
  | name => exact Or.inr ⟨rfl, rfl⟩

theorem op_flushes_mod (w : Nat) (s : TransferStats) (op : Op) :
    (op.apply w s).m_flushes % UINT32_SIZE
      = (s.m_flushes + (if op.is_flush then 1 else 0)) % UINT32_SIZE ∧
    (s.m_flushes < UINT32_SIZE → (op.apply w s).m_flushes < UINT32_SIZE) := by
  rcases op_flushes w s op with h | ⟨h, hf⟩
  · rw [h]
    exact ⟨Nat.mod_mod _ _, fun _ => u32_lt _⟩
  · rw [h, hf]
    exact ⟨by simp, fun hlt => hlt⟩

theorem run_ops_flushes (w : Nat) (ops : List Op) :
    ∀ s : TransferStats, s.m_flushes < UINT32_SIZE →
      (run_ops w s ops).m_flushes = (s.m_flushes + flush_calls ops) % UINT32_SIZE := by
  induction ops with
  | nil =>
    intro s hs
    simp [run_ops, flush_calls, Nat.mod_eq_of_lt hs]
  | cons op ops ih =>
    intro s hs
    obtain ⟨h1, h2⟩ := op_flushes_mod w s op
    have hstep : run_ops w s (op :: ops) = run_ops w (op.apply w s) ops := rfl
    rw [hstep, ih (op.apply w s) (h2 hs)]
    have hcount : flush_calls (op :: ops)
        = (if op.is_flush then 1 else 0) + flush_calls ops := by
      unfold flush_calls
      cases hf : op.is_flush <;> simp [List.filter, hf]
      omega
    rw [hcount, Nat.add_mod, h1, ← Nat.add_mod, Nat.add_assoc]

/-- C11: `add_send_stats` adds 1 to `flush_count` (modulo `2 ^ 32`) when its flush
flag is set and leaves it unchanged otherwise; no other method changes it,
`update` included whether it ends normally or not; hence after any sequence of
calls on a freshly constructed aggregator `flush_count` is the number of
`add_send_stats` calls made with the flag set, modulo `2 ^ 32`. -/
theorem flush_count_counts_flushes (w : Nat) (s : TransferStats)
    (hs : s.m_flushes < UINT32_SIZE) :
    (∀ (bytes nblocks inject_errors queue_size : Nat) (pkt_time : ℚ),
      (s.add_send_stats bytes nblocks inject_errors queue_size true pkt_time).m_flushes
        = (s.m_flushes + 1) % 2 ^ 32 ∧
      (s.add_send_stats bytes nblocks inject_errors queue_size false pkt_time).m_flushes
        = s.m_flushes) ∧
    (∀ cur prev : FECDecoderStats, (s.add w cur prev).m_flushes = s.m_flushes) ∧
    (∀ rssi : Int, (s.add_rssi rssi).m_flushes = s.m_flushes) ∧
    (∀ t : ℚ, (s.add_encode_time t).m_flushes = s.m_flushes) ∧
    (∀ t : ℚ, (s.add_send_time t).m_flushes = s.m_flushes) ∧
    (∀ t : Nat, (s.add_latency t).m_flushes = s.m_flushes) ∧
    (∀ record : String, (s.update record).state.m_flushes = s.m_flushes) ∧
    s.get_stats_call.2.m_flushes = s.m_flushes ∧
    s.serialize_call.2.m_flushes = s.m_flushes ∧
    s.name_call.2.m_flushes = s.m_flushes ∧
    (∀ (name : String) (ops : List Op),
      (run_ops w (TransferStats.ctor name) ops).m_flushes = flush_calls ops % 2 ^ 32) := by
  refine ⟨?_, fun _ _ => rfl, fun _ => rfl, fun _ => rfl, fun _ => rfl, fun _ => rfl,
    fun record => update_keeps_flushes s record, rfl, rfl, rfl, ?_⟩
  · intro bytes nblocks inject_errors queue_size pkt_time
    constructor
    · simp only [TransferStats.add_send_stats, u32, two_pow_32, if_true]
    · simp only [TransferStats.add_send_stats, Bool.false_eq_true, if_false, Nat.add_zero]
      exact u32_of_lt hs
  · intro name ops
    have h0 : (TransferStats.ctor name).m_flushes < UINT32_SIZE := by
      show 0 < UINT32_SIZE
      decide
    have h := run_ops_flushes w ops (TransferStats.ctor name) h0
    rw [h, two_pow_32]
    simp [TransferStats.ctor]

/-- Witness of C11: three calls on the fresh aggregator, one of them a flush. -/
theorem flush_count_counts_flushes_witness :
    (TransferStats.ctor "link0").m_flushes < UINT32_SIZE ∧
    (run_ops 64 (TransferStats.ctor "link0")
      [.mutate (.add_send_stats 1000 5 0 2 false 0.001),
       .mutate (.add_send_stats 1000 5 0 9 true 0.001),
       .update "peer,x"]).m_flushes
      = flush_calls [.mutate (.add_send_stats 1000 5 0 2 false 0.001),
          .mutate (.add_send_stats 1000 5 0 9 true 0.001), .update "peer,x"] % 2 ^ 32 ∧
    flush_calls [.mutate (.add_send_stats 1000 5 0 2 false 0.001),
      .mutate (.add_send_stats 1000 5 0 9 true 0.001), .update "peer,x"] = 1 :=
  ⟨by decide,
    (flush_count_counts_flushes 64 (TransferStats.ctor "link0") (by decide)).2.2.2.2.2.2.2.2.2.2
      "link0" _,
    by decide⟩

/-! ## Range of the smoothed rssi and latency -/

theorem blend_range (x v lo hi : ℚ) (hx : lo ≤ x ∧ x ≤ hi) (hv : lo ≤ v ∧ v ≤ hi) :
    lo ≤ prev_weight * x + (1 - prev_weight) * v ∧
    prev_weight * x + (1 - prev_weight) * v ≤ hi := by
  unfold prev_weight
  constructor <;> nlinarith [hx.1, hx.2, hv.1, hv.2]

/-- The invariant of C18: both values finite and within the 8-bit ranges. -/
theorem mutator_keeps_range (w : Nat) (s : TransferStats) (m : Mutator)
    (hm : m.samples_in_range)
    (hs : ∃ r l : ℚ, s.m_rssi = .fin r ∧ -128 ≤ r ∧ r ≤ 127 ∧
      s.m_latency = .fin l ∧ 0 ≤ l ∧ l ≤ 255) :
    ∃ r l : ℚ, (m.apply w s).m_rssi = .fin r ∧ -128 ≤ r ∧ r ≤ 127 ∧
      (m.apply w s).m_latency = .fin l ∧ 0 ≤ l ∧ l ≤ 255 := by
  obtain ⟨r, l, hr, r1, r2, hl, l1, l2⟩ := hs
  cases m with
  | add cur prev => exact ⟨r, l, hr, r1, r2, hl, l1, l2⟩
  | add_send_stats bytes nblocks inject_errors queue_size flush pkt_time =>
    exact ⟨r, l, hr, r1, r2, hl, l1, l2⟩
  | add_encode_time t => exact ⟨r, l, hr, r1, r2, hl, l1, l2⟩
  | add_send_time t => exact ⟨r, l, hr, r1, r2, hl, l1, l2⟩
  | add_rssi rssi =>
    obtain ⟨v1, v2⟩ := hm
    have hv : (-128 : ℚ) ≤ (rssi : ℚ) ∧ (rssi : ℚ) ≤ 127 := by
      constructor
      · exact_mod_cast v1
      · exact_mod_cast v2
    obtain ⟨b1, b2⟩ := blend_range r rssi (-128) 127 ⟨r1, r2⟩ hv
    refine ⟨prev_weight * r + (1 - prev_weight) * rssi, l, ?_, b1, b2, hl, l1, l2⟩
    show blend s.m_rssi ((1 - prev_weight) * rssi) = _
    rw [hr, blend_fin]
  | add_latency t =>
    have ht : t ≤ 255 := hm
    have hv : (0 : ℚ) ≤ (t : ℚ) ∧ (t : ℚ) ≤ 255 := by
      constructor
      · exact_mod_cast Nat.zero_le t
      · exact_mod_cast ht
    obtain ⟨b1, b2⟩ := blend_range l t 0 255 ⟨l1, l2⟩ hv
    refine ⟨r, prev_weight * l + (1 - prev_weight) * t, hr, r1, r2, ?_, b1, b2⟩
    show blend s.m_latency ((1 - prev_weight) * t) = _
    rw [hl, blend_fin]

theorem run_mutators_keeps_range (w : Nat) (ms : List Mutator)
    (hms : ∀ m ∈ ms, m.samples_in_range) :
    ∀ s : TransferStats,
      (∃ r l : ℚ, s.m_rssi = .fin r ∧ -128 ≤ r ∧ r ≤ 127 ∧
        s.m_latency = .fin l ∧ 0 ≤ l ∧ l ≤ 255) →
      ∃ r l : ℚ, (run_mutators w s ms).m_rssi = .fin r ∧ -128 ≤ r ∧ r ≤ 127 ∧
        (run_mutators w s ms).m_latency = .fin l ∧ 0 ≤ l ∧ l ≤ 255 := by
  induction ms with
  | nil => intro s hs; exact hs
  | cons m ms ih =>
    intro s hs
    have hstep : run_mutators w s (m :: ms) = run_mutators w (m.apply w s) ms := rfl
    rw [hstep]
    exact ih (fun x hx => hms x (List.mem_cons_of_mem _ hx)) _
      (mutator_keeps_range w s m (hms m (List.mem_cons_self _ _)) hs)

/-- C18: in every state reached from a freshly constructed aggregator by calls
of the six accumulating methods, the samples of `add_rssi` being signed 8-bit
and those of `add_latency` unsigned 8-bit, the smoothed rssi is finite and in
`[-128, 127]`, the smoothed latency is finite and in `[0, 255]`, and the rssi
reported by `get_stats` is the rounded value, which is in `[-128, 127]`. -/
theorem reachable_rssi_latency_range (w : Nat) (name : String) (ms : List Mutator)
    (hms : ∀ m ∈ ms, m.samples_in_range) :
    ∃ r l : ℚ,
      (run_mutators w (TransferStats.ctor name) ms).m_rssi = .fin r ∧ -128 ≤ r ∧ r ≤ 127 ∧
      (run_mutators w (TransferStats.ctor name) ms).m_latency = .fin l ∧ 0 ≤ l ∧ l ≤ 255 ∧
      -128 ≤ round_away r ∧ round_away r ≤ 127 ∧
      (run_mutators w (TransferStats.ctor name) ms).get_stats.rssi = some (round_away r) := by
  obtain ⟨r, l, hr, r1, r2, hl, l1, l2⟩ := run_mutators_keeps_range w ms hms
    (TransferStats.ctor name) ⟨0, 0, rfl, by norm_num, by norm_num, rfl, by norm_num,
      by norm_num⟩
  obtain ⟨q1, q2⟩ := round_away_mono_bounds r (-128) 127 (by exact_mod_cast r1)
    (by exact_mod_cast r2) (by decide) (by decide)
  refine ⟨r, l, hr, r1, r2, hl, l1, l2, q1, q2, ?_⟩
  show round_to_int8 (run_mutators w (TransferStats.ctor name) ms).m_rssi = _
  rw [hr]
  simp [round_to_int8, q1, q2]

/-- Witness of C18: the extreme samples, -128 for the rssi and 255 for the
latency. -/
theorem reachable_rssi_latency_range_witness :
    (∀ m ∈ [Mutator.add_rssi (-128), Mutator.add_latency 255], m.samples_in_range) ∧
    ∃ r l : ℚ,
      (run_mutators 64 (TransferStats.ctor "link0")
        [.add_rssi (-128), .add_latency 255]).m_rssi = .fin r ∧ -128 ≤ r ∧ r ≤ 127 ∧
      (run_mutators 64 (TransferStats.ctor "link0")
        [.add_rssi (-128), .add_latency 255]).m_latency = .fin l ∧ 0 ≤ l ∧ l ≤ 255 ∧
      -128 ≤ round_away r ∧ round_away r ≤ 127 ∧
      (run_mutators 64 (TransferStats.ctor "link0")
        [.add_rssi (-128), .add_latency 255]).get_stats.rssi = some (round_away r) :=
  have h : ∀ m ∈ [Mutator.add_rssi (-128), Mutator.add_latency 255], m.samples_in_range := by
    intro m hm
    simp only [List.mem_cons, List.mem_singleton, List.not_mem_nil, or_false] at hm
    rcases hm with rfl | rfl
    · exact ⟨by decide, by decide⟩
    · show (255 : Nat) ≤ 255
      decide
  ⟨h, reachable_rssi_latency_range 64 "link0" _ h⟩

/-! ## Round trip onto any aggregator -/

/-- C16: for a state `s` whose name is non-empty and free of commas (its
counters fitting 32 bits and its smoothed values in the range of `float`) and
any state `t`, `update(serialize(s))` on `t` ends normally and leaves `t` with
the name and the eight serialized counters of `s`. -/
theorem roundtrip_counters_exact (s t : TransferStats)
    (hne : s.m_name.data ≠ []) (hc : ',' ∉ s.m_name.data) (hcnt : s.counters_in_range)
    (hflt : s.floats_in_range) :
    (t.update s.serialize).outcome = .ok ∧
    (t.update s.serialize).state.m_name = s.m_name ∧
    (t.update s.serialize).state.m_seq = s.m_seq ∧
    (t.update s.serialize).state.m_blocks = s.m_blocks ∧
    (t.update s.serialize).state.m_bytes = s.m_bytes ∧
    (t.update s.serialize).state.m_block_errors = s.m_block_errors ∧
    (t.update s.serialize).state.m_seq_errors = s.m_seq_errors ∧
    (t.update s.serialize).state.m_send_bytes = s.m_send_bytes ∧
    (t.update s.serialize).state.m_send_blocks = s.m_send_blocks ∧
    (t.update s.serialize).state.m_inject_errors = s.m_inject_errors := by
  obtain ⟨c1, c2, c3, c4, c5, c6, c7, c8, -⟩ := hcnt
  obtain ⟨r1, r2, r3, r4, r5, r6⟩ := hflt
  obtain ⟨f9, h9, -⟩ := lexical_cast_float_put_float s.m_queue_size r1
  obtain ⟨f10, h10, -⟩ := lexical_cast_float_put_float s.m_enc_time r2
  obtain ⟨f11, h11, -⟩ := lexical_cast_float_put_float s.m_send_time r3
  obtain ⟨f12, h12, -⟩ := lexical_cast_float_put_float s.m_pkt_time r4
  obtain ⟨f13, h13, -⟩ := lexical_cast_float_put_float s.m_latency r5
  obtain ⟨f14, h14, -⟩ := lexical_cast_float_put_float s.m_rssi r6
  have hrun := update_run_explicit t s.m_name.data
    (put_uint s.m_seq) (put_uint s.m_blocks) (put_uint s.m_bytes) (put_uint s.m_block_errors)
    (put_uint s.m_seq_errors) (put_uint s.m_send_bytes) (put_uint s.m_send_blocks)
    (put_uint s.m_inject_errors) (put_float s.m_queue_size) (put_float s.m_enc_time)
    (put_float s.m_send_time) (put_float s.m_pkt_time) (put_float s.m_latency)
    (put_float s.m_rssi) [] _ _ _ _ _ _ _ _ _ _ _ _ _ _
    (lexical_cast_uint32_put_uint c1) (lexical_cast_uint32_put_uint c2)
    (lexical_cast_uint32_put_uint c3) (lexical_cast_uint32_put_uint c4)
    (lexical_cast_uint32_put_uint c5) (lexical_cast_uint32_put_uint c6)
    (lexical_cast_uint32_put_uint c7) (lexical_cast_uint32_put_uint c8)
    h9 h10 h11 h12 h13 h14
  have htok : run_assignments update_assignments (tokenize s.serialize.data) t
      = run_assignments update_assignments s.record_fields t := by
    rw [tokenize_serialize s hne hc]
  unfold TransferStats.update
  rw [htok]
  unfold TransferStats.record_fields
  rw [hrun]
  exact ⟨rfl, rfl, rfl, rfl, rfl, rfl, rfl, rfl, rfl, rfl⟩

/-- Witness of C16: the record of the concrete scenario applied to an aggregator
that has statistics of its own. -/
theorem roundtrip_counters_exact_witness :
    ((TransferStats.ctor "link0").add_send_stats 1000 5 0 2 false 0.001).m_name.data ≠ [] ∧
    ',' ∉ ((TransferStats.ctor "link0").add_send_stats 1000 5 0 2 false 0.001).m_name.data ∧
    ((TransferStats.ctor "link0").add_send_stats 1000 5 0 2 false 0.001).counters_in_range ∧
    ((TransferStats.ctor "link0").add_send_stats 1000 5 0 2 false 0.001).floats_in_range ∧
    (((TransferStats.ctor "peer").add_send_stats 77 1 3 0 true 0).update
      ((TransferStats.ctor "link0").add_send_stats 1000 5 0 2 false 0.001).serialize).outcome
        = .ok :=
  have hne : ((TransferStats.ctor "link0").add_send_stats 1000 5 0 2 false 0.001).m_name.data
      ≠ [] := by decide
  have hc : ',' ∉ ((TransferStats.ctor "link0").add_send_stats 1000 5 0 2 false 0.001).m_name.data :=
    by decide
  have hcnt : ((TransferStats.ctor "link0").add_send_stats 1000 5 0 2 false 0.001).counters_in_range :=
    by refine ⟨?_, ?_, ?_, ?_, ?_, ?_, ?_, ?_, ?_⟩ <;> decide
  have hflt : ((TransferStats.ctor "link0").add_send_stats 1000 5 0 2 false 0.001).floats_in_range :=
    by
      refine ⟨?_, ?_, ?_, ?_, ?_, ?_⟩ <;>
        simp only [TransferStats.add_send_stats, TransferStats.ctor, blend_fin, Flt.in_range,
          prev_weight, FLT_MAX] <;> rw [abs_le] <;> constructor <;> norm_num
  ⟨hne, hc, hcnt, hflt,
    (roundtrip_counters_exact _ ((TransferStats.ctor "peer").add_send_stats 77 1 3 0 true 0)
      hne hc hcnt hflt).1⟩

/-! ## The state after a failed `update` -/

theorem run_append (as bs : List Assignment) :
    ∀ (toks : List (List Char)) (s s1 : TransferStats),
      run_assignments as toks s = ⟨.ok, s1⟩ →
      run_assignments (as ++ bs) toks s = run_assignments bs (toks.drop as.length) s1 := by
  induction as with
  | nil =>
    intro toks s s1 h
    rw [run_nil] at h
    have : s = s1 := by injection h
    subst this
    rfl
  | cons a as ih =>
    intro toks s s1 h
    cases toks with
    | nil => simp [run_assignments] at h
    | cons t ts =>
      cases ha : a t s with
      | none => rw [run_cons_none ha] at h; simp at h
      | some s2 =>
        rw [run_cons_some ha] at h
        rw [List.cons_append, run_cons_some ha, ih ts s2 s1 h]
        rfl

theorem partial_state_zero (toks : List (List Char)) (s : TransferStats) :
    partial_state 0 toks s = s := by
  cases s
  rfl

/-- The `j`-th assignment of `update` takes the state with `j` members read to
the state with `j + 1` members read, when it accepts its token. -/
theorem assignment_step (j : Nat) (hj : j < update_assignments.length)
    (toks : List (List Char)) (s : TransferStats) (hacc : token_accepted toks j) :
    (update_assignments.get ⟨j, hj⟩) (toks.getD j []) (partial_state j toks s)
      = some (partial_state (j + 1) toks s) := by
  have h15 : j < 15 := hj
  obtain ⟨hu, hf⟩ := hacc
  by_cases h0 : j = 0
  · subst h0
    simp [update_assignments, List.get, partial_state, record_state]
  · by_cases h8 : j ≤ 8
    · obtain ⟨v, hv⟩ := Option.ne_none_iff_exists'.mp (hu (by omega) h8)
      simp only [List.getD_eq_getElem?_getD] at hv
      interval_cases j <;>
        simp [update_assignments, List.get, partial_state, record_state, hv]
    · obtain ⟨v, hv⟩ := Option.ne_none_iff_exists'.mp (hf (by omega) (by omega))
      simp only [List.getD_eq_getElem?_getD] at hv
      interval_cases j <;>
        simp [update_assignments, List.get, partial_state, record_state, hv]

theorem take_succ_get (j : Nat) (hj : j < update_assignments.length) :
    update_assignments.take (j + 1) = update_assignments.take j ++ [update_assignments.get ⟨j, hj⟩] := by
  rw [List.take_succ, List.getElem?_eq_getElem hj]
  rfl

theorem drop_getD (toks : List (List Char)) (j : Nat) (h : j < toks.length) :
    toks.drop j = toks.getD j [] :: toks.drop (j + 1) := by
  rw [getD_eq_get toks j h]
  exact List.drop_eq_getElem_cons h

/-- The first `j` assignments of `update` on accepted tokens. -/
theorem run_first_accepted (toks : List (List Char)) (s : TransferStats) :
    ∀ j : Nat, j ≤ 15 → j ≤ toks.length → (∀ i, i < j → token_accepted toks i) →
      run_assignments (update_assignments.take j) toks s = ⟨.ok, partial_state j toks s⟩ := by
  intro j
  induction j with
  | zero =>
    intro _ _ _
    rw [List.take_zero, run_nil, partial_state_zero]
  | succ j ih =>
    intro h15 hlen hacc
    have hj : j < update_assignments.length := by
      show j < 15
      omega
    have hprev := ih (by omega) (by omega) (fun i hi => hacc i (by omega))
    have htake : (update_assignments.take j).length = j := by
      rw [List.length_take]
      have : update_assignments.length = 15 := rfl
      omega
    rw [take_succ_get j hj, run_append _ _ toks s _ hprev, htake, drop_getD toks j (by omega),
      run_cons_some (assignment_step j hj toks s (hacc j (by omega))), run_nil]

/-- C17, as stated, fails: in a record of sixteen fields whose second field is
empty, the first field is valid and the second is not the lexical form of a
number, yet `update` ends normally, the tokenizer having dropped the empty
field. -/
theorem update_skips_empty_field :
    (fields "link0,,0,0,0,0,0,1000,5,0,1.96,0,0,980,0,0".data).length = 16 ∧
    (fields "link0,,0,0,0,0,0,1000,5,0,1.96,0,0,980,0,0".data).getD 1 ['x'] = [] ∧
    lexical_cast_uint32 [] = none ∧
    ((TransferStats.ctor "x").update
      "link0,,0,0,0,0,0,1000,5,0,1.96,0,0,980,0,0").outcome = .ok := by
  refine ⟨by decide, by decide, by decide, by decide!⟩

/-- C17, amended: when the first `j` non-empty fields of a record are accepted
(`1 ≤ j ≤ 14`) and the next non-empty field is rejected by its conversion,
`update` throws `bad_lexical_cast` and leaves the first `j` serialized members
overwritten by the record's values and all later members, and `flush_count`,
as they were before the call. -/
theorem update_failure_keeps_later_members (s : TransferStats) (record : String) (j : Nat)
    (hj1 : 1 ≤ j) (hj14 : j ≤ 14) (hlen : j < (tokenize record.data).length)
    (hacc : ∀ i, i < j → token_accepted (tokenize record.data) i)
    (hrej : ¬ token_accepted (tokenize record.data) j) :
    s.update record = ⟨.bad_lexical_cast, partial_state j (tokenize record.data) s⟩ ∧
    (s.update record).state.m_name = String.mk ((tokenize record.data).getD 0 []) ∧
    (s.update record).state.m_rssi = s.m_rssi ∧
    (s.update record).state.m_flushes = s.m_flushes := by
  have hjl : j < update_assignments.length := by
    show j < 15
    omega
  have hprev := run_first_accepted (tokenize record.data) s j (by omega) (by omega) hacc
  have hnone : (update_assignments.get ⟨j, hjl⟩) ((tokenize record.data).getD j [])
      (partial_state j (tokenize record.data) s) = none := by
    rw [update_assignment_accepts]
    unfold token_accepted at hrej
    by_contra hcon
    apply hrej
    constructor
    · intro h1 h8 hn
      exact hcon (Or.inl ⟨h1, h8, hn⟩)
    · intro h9 h14 hn
      exact hcon (Or.inr ⟨h9, h14, hn⟩)
  have htake : (update_assignments.take j).length = j := by
    rw [List.length_take]
    have : update_assignments.length = 15 := rfl
    omega
  have hsplit : update_assignments
      = update_assignments.take j
        ++ (update_assignments.get ⟨j, hjl⟩ :: update_assignments.drop (j + 1)) := by
    rw [List.get_eq_getElem, ← List.drop_eq_getElem_cons hjl, List.take_append_drop]
  have hupd : s.update record
      = ⟨.bad_lexical_cast, partial_state j (tokenize record.data) s⟩ := by
    unfold TransferStats.update
    conv_lhs => rw [hsplit]
    rw [run_append _ _ _ s _ hprev, htake, drop_getD _ j hlen, run_cons_none hnone]
  refine ⟨hupd, ?_, ?_, ?_⟩
  · rw [hupd]
    simp only [partial_state, record_state]
    rw [if_pos (by omega)]
  · rw [hupd]
    simp only [partial_state]
    rw [if_neg (by omega)]
  · rw [hupd]
    rfl

/-- Witness of the amended C17: a record whose fourth field is not a number
leaves the name and two counters overwritten. -/
theorem update_failure_keeps_later_members_witness :
    ((TransferStats.ctor "x").update "link0,7,8,oops,0").outcome = .bad_lexical_cast ∧
    ((TransferStats.ctor "x").update "link0,7,8,oops,0").state
      = { TransferStats.ctor "link0" with m_seq := 7, m_blocks := 8 } :=
  have h := (update_failure_keeps_later_members (TransferStats.ctor "x") "link0,7,8,oops,0" 3
    (by decide) (by decide) (by decide)
    (by
      intro i hi
      interval_cases i
      · exact ⟨fun h => absurd h (by decide), fun h => absurd h (by decide)⟩
      · exact ⟨fun _ _ => by decide, fun h => absurd h (by decide)⟩
      · exact ⟨fun _ _ => by decide, fun h => absurd h (by decide)⟩)
    (by
      intro hacc
      exact hacc.1 (by decide) (by decide) (by decide))).1
  ⟨by rw [h], by rw [h]; decide!⟩

end Wfb
